import Mathlib

/-!
# DeepSeek-TTS: sentence-level streaming synthesis and playback

A shallow embedding of `src/content.js`:

* `SentenceSplitter.split` (lines 28-55),
* `SynthesisPipeline` (lines 94-174),
* `AudioPlayQueue` (lines 177-317),

followed by the properties established about them.

JavaScript strings are sequences of UTF-16 code units; they are embedded as
lists of natural numbers.  Objects with identity (synthesis units, audio
elements, object URLs) are embedded as natural-number handles drawn from a
counter held in the state.  Callbacks and browser events are embedded as
explicit events of a transition system: every handler of the source is a
total function on the state, and a `Bool`-valued guard says when the browser
can deliver the event.
-/

namespace DeepSeekTTS

/-! ## JavaScript strings -/

/-- A JavaScript string: its UTF-16 code units. -/
abbrev JSString := List Nat

/-- UTF-16 code units of one Unicode scalar value. -/
def utf16Char (c : Char) : List Nat :=
  if c.toNat < 0x10000 then [c.toNat]
  else [0xD800 + (c.toNat - 0x10000) / 0x400, 0xDC00 + (c.toNat - 0x10000) % 0x400]

/-- The JavaScript string denoted by a Lean string literal. -/
def js (s : String) : JSString :=
  s.toList.flatMap utf16Char

/-- ECMAScript `WhiteSpace` and `LineTerminator` code units, the set removed by
`String.prototype.trim`. -/
def isWhiteSpace (c : Nat) : Bool :=
  c = 0x09 || c = 0x0A || c = 0x0B || c = 0x0C || c = 0x0D || c = 0x20 || c = 0xA0
    || c = 0x1680 || (0x2000 ≤ c && c ≤ 0x200A) || c = 0x2028 || c = 0x2029
    || c = 0x202F || c = 0x205F || c = 0x3000 || c = 0xFEFF

/-- `String.prototype.trim`. -/
def trim (s : JSString) : JSString :=
  (s.dropWhile isWhiteSpace).rdropWhile isWhiteSpace

/-! ## SentenceSplitter (content.js 28-55) -/

namespace SentenceSplitter

/-- The character class of the lookbehind in line 46:
`[。！？；：！？；：.!?;:]`. -/
def isTerminator (c : Nat) : Bool :=
  c = 0x3002 || c = 0xFF01 || c = 0xFF1F || c = 0xFF1B || c = 0xFF1A
    || c = 0x2E || c = 0x21 || c = 0x3F || c = 0x3B || c = 0x3A

/-- The character class `[0-9]` of the negative lookahead in line 46. -/
def isDigit (c : Nat) : Bool :=
  0x30 ≤ c && c ≤ 0x39

/-- The character class of the filter regex in line 49: `[.!?;:]`. -/
def isAsciiTerminator (c : Nat) : Bool :=
  c = 0x2E || c = 0x21 || c = 0x3F || c = 0x3B || c = 0x3A

/-- Does `/(?<=[。！？；：！？；：.!?;:])(?![0-9])/` match (the empty string) right
after the code unit `prev`, in front of the remaining input `rest`? -/
def boundaryAfter (prev : Nat) (rest : JSString) : Bool :=
  isTerminator prev &&
    (match rest with
     | [] => true
     | d :: _ => !isDigit d)

/-- The loop of `String.prototype.split` for the zero-width separator of line
46: `cur` is the piece collected so far, the second argument is the input
still to be scanned.  A match at the very end of the input is not a cut
(`split` only tries positions `q < size`). -/
def rawSplitsFrom : JSString → JSString → List JSString
  | cur, [] => [cur]
  | cur, c :: rest =>
    if boundaryAfter c rest && !rest.isEmpty then
      (cur ++ [c]) :: rawSplitsFrom [] rest
    else
      rawSplitsFrom (cur ++ [c]) rest

/-- Line 46: `text.split(/(?<=[。！？；：！？；：.!?;:])(?![0-9])/g)`. -/
def rawSplits (text : JSString) : List JSString :=
  rawSplitsFrom [] text

/-- Line 49, the filter predicate: `s.length > 0 && !/^[.!?;:]$/.test(s)`. -/
def keepPiece (s : JSString) : Bool :=
  decide (s.length > 0) &&
    !(match s with
      | [c] => isAsciiTerminator c
      | _ => false)

/-- Lines 46-50: the pieces kept by the regex fallback. -/
def fallbackSentences (text : JSString) : List JSString :=
  ((rawSplits text).map trim).filter keepPiece

/-- What `Intl.Segmenter` does on one call of `split`: the global is missing,
construction or segmentation throws, or it yields the listed segments. -/
inductive Segmenter where
  | unavailable
  | throws
  | segments (segs : List JSString)
  deriving Repr, DecidableEq

/-- Lines 32-44: the sentences of the locale path, `none` when the path is
not taken to its end (no `Intl.Segmenter`, or an exception was caught). -/
def localeSentences : Segmenter → Option (List JSString)
  | .unavailable => none
  | .throws => none
  | .segments segs => some ((segs.map trim).filter (fun s => decide (s.length > 0)))

/-- `SentenceSplitter.split(text, locale)`, lines 29-54.  The parameter `seg`
stands for the behaviour of `Intl.Segmenter` for this `locale` and `text`. -/
def split (seg : Segmenter) (text : JSString) : List JSString :=
  if text.isEmpty then []
  else
    match localeSentences seg with
    | some (s :: ss) => s :: ss
    | _ =>
      let sentences := fallbackSentences text
      if sentences.length = 0 then [text] else sentences

end SentenceSplitter

/-! ## SynthesisPipeline (content.js 94-174) -/

/-- The prosody settings handed to `addSentence`. -/
structure Settings where
  rate : Int
  volume : Int
  pitch : Int
  deriving Repr, DecidableEq

/-- The options object built in `startTask`, lines 124-128. -/
structure FormattedOptions where
  rate : String
  volume : String
  pitch : String
  deriving Repr, DecidableEq

/-! ### Numbers in a template literal

`formatTTSValue` puts `value` into a template literal, which converts the
Number to a string.  A Number is a double; the integers are embedded as `Int`,
an integer that is not a double standing for the double nearest to it (as an
integer literal does). -/

/-- The least `k ≥ k₀` with `m < 2 ^ k`, searched upwards with fuel. -/
def bitLengthFrom (m : Nat) : Nat → Nat → Nat
  | 0, k => k
  | fuel + 1, k => if m < 2 ^ k then k else bitLengthFrom m fuel (k + 1)

/-- The number of binary digits of `m`. -/
def bitLength (m : Nat) : Nat :=
  bitLengthFrom m m 0

/-- The double nearest to the natural number `m`, with an unbounded exponent:
integers below `2 ^ 53` are doubles; above, the significand keeps 53 bits and
the rest is rounded to nearest, ties to the even significand. -/
def roundToDouble (m : Nat) : Nat :=
  if m < 2 ^ 53 then m
  else
    let e := bitLength m - 53
    let q := m / 2 ^ e
    let r := m % 2 ^ e
    let half := 2 ^ (e - 1)
    if r < half then q * 2 ^ e
    else if r = half then (if q % 2 = 0 then q else q + 1) * 2 ^ e
    else (q + 1) * 2 ^ e

/-- The multiple of `10 ^ p` that the conversion may print for the double `x`:
one that rounds to `x`; of the two multiples next to `x` the closer one, and
on a tie the one with the even digit string. -/
def shortestCandidate (x p : Nat) : Option Nat :=
  let lo := x / 10 ^ p * 10 ^ p
  let hi := lo + 10 ^ p
  let okLo := decide (roundToDouble lo = x)
  let okHi := decide (roundToDouble hi = x)
  if okLo && okHi then
    if x - lo < hi - x then some lo
    else if hi - x < x - lo then some hi
    else if (x / 10 ^ p) % 2 = 0 then some lo else some hi
  else if okLo then some lo
  else if okHi then some hi
  else none

/-- The search for the fewest significant digits: as long as a multiple of
`10 ^ p` rounds to `x`, go on with `p + 1`. -/
def shortestFrom (x : Nat) : Nat → Nat → Nat → Nat
  | 0, _, best => best
  | fuel + 1, p, best =>
    match shortestCandidate x p with
    | some c => shortestFrom x fuel (p + 1) c
    | none => best

/-- The integer with the fewest significant digits that rounds to the double
`x`.  A finite double is below `10 ^ 309`, so 310 rounds are enough. -/
def shortest (x : Nat) : Nat :=
  shortestFrom x 310 1 x

/-- A digit string without its trailing zeros. -/
def significand (digits : List Char) : List Char :=
  (digits.reverse.dropWhile (· = '0')).reverse

/-- The string of a positive integer-valued double `x`: the digits of the
shortest integer that rounds to `x`, in full below `10 ^ 21` and in exponent
form from there on. -/
def numberDigits (x : Nat) : String :=
  let c := shortest x
  let digits := Nat.toDigits 10 c
  if c < 10 ^ 21 then digits.asString
  else
    let mantissa := match significand digits with
      | d :: d2 :: ds => d :: '.' :: d2 :: ds
      | ds => ds
    (mantissa ++ 'e' :: '+' :: Nat.toDigits 10 (digits.length - 1)).asString

/-- The string that a template literal makes of the Number with the integer
value `v`. -/
def numberToString (v : Int) : String :=
  let x := roundToDouble v.natAbs
  if x = 0 then "0"
  else if 1024 < bitLength x then (if v < 0 then "-Infinity" else "Infinity")
  else (if v < 0 then "-" else "") ++ numberDigits x

/-- `formatTTSValue(value, unit)`, lines 170-173. -/
def formatTTSValue (value : Int) (unit : String) : String :=
  let sign := if value ≥ 0 then "+" else ""
  sign ++ numberToString value ++ unit

/-- Lines 124-128 of `startTask`. -/
def formattedOptions (settings : Settings) : FormattedOptions :=
  { rate := formatTTSValue settings.rate "%"
    volume := formatTTSValue settings.volume "%"
    pitch := formatTTSValue settings.pitch "Hz" }

/-- One entry of the pipeline's queue: the argument object of `startTask`. -/
structure Task where
  index : Nat
  text : JSString
  voice : String
  settings : Settings
  deriving Repr, DecidableEq

/-- An opaque audio payload (the `Blob` returned by the engine). -/
abbrev Blob := Nat

/-- What the external engine's `synthesize()` promise does. -/
inductive EngineResult where
  | resolved (audio : Option Blob)
  | rejected
  deriving Repr, DecidableEq

/-- `AbortableEdgeTTS.synthesize`, lines 75-82: the audio, or `none` when the
method throws (engine error, or a result without audio payload). -/
def AbortableEdgeTTS.synthesize : EngineResult → Option Blob
  | .resolved (some audio) => some audio
  | .resolved none => none
  | .rejected => none

/-- What one invocation of the registered `onAudioReady` callback does to the
pipeline that invokes it: it may re-enter `cancel()` (the orchestrator's
`onFinish`, line 891, does so) and it may throw.  The callback is not taken
to call `addSentence`. -/
structure CallbackEffect where
  cancels : Bool
  throws : Bool
  deriving Repr, DecidableEq

/-- Behaviour of the surroundings during one top-level call into the
pipeline: whether `new AbortableEdgeTTS(...)` throws for a task (lines
60-62), and what the registered callback does on each invocation. -/
structure Env where
  ctorThrows : Task → Bool
  callback : Nat → Option Blob → CallbackEffect

/-- The fields of `SynthesisPipeline` (lines 95-101), followed by bookkeeping
of the surroundings: the next fresh unit handle, the units whose
`synthesize()` promise is pending, and logs of the calls made outwards. -/
structure SynthesisPipeline where
  queue : List Task
  activeTasks : List Nat
  maxConcurrency : Nat
  cancelled : Bool
  /-- Is `this.onAudioReady` a function (`true`) or `null` (`false`)? -/
  onAudioReady : Bool
  nextUnit : Nat
  /-- Units awaiting `synthesize()`, with the task each was started for. -/
  inFlight : List (Nat × Task)
  /-- Every `onAudioReady(index, audioOrNull)` invocation, oldest first. -/
  delivered : List (Nat × Option Blob)
  /-- Every `abort()` call, oldest first. -/
  aborted : List Nat
  /-- Every task handed to `startTask`, oldest first. -/
  started : List Task
  deriving Repr, DecidableEq

namespace SynthesisPipeline

/-- The constructor, lines 95-101. -/
def new (maxConcurrency : Nat) : SynthesisPipeline :=
  { queue := [], activeTasks := [], maxConcurrency := maxConcurrency,
    cancelled := false, onAudioReady := false, nextUnit := 0,
    inFlight := [], delivered := [], aborted := [], started := [] }

/-- `cancel()`, lines 162-168. -/
def cancel (s : SynthesisPipeline) : SynthesisPipeline :=
  { s with
    cancelled := true
    aborted := s.aborted ++ s.activeTasks
    activeTasks := []
    queue := [] }

/-- The statement `if (!this.cancelled && this.onAudioReady)
this.onAudioReady(index, audio)` of lines 135, 144-147 and 150.  Returns the
new state and whether the callback threw. -/
def notify (env : Env) (s : SynthesisPipeline) (index : Nat) (audio : Option Blob) :
    SynthesisPipeline × Bool :=
  if !s.cancelled && s.onAudioReady then
    let s1 := { s with delivered := s.delivered ++ [(index, audio)] }
    let eff := env.callback index audio
    (if eff.cancels then cancel s1 else s1, eff.throws)
  else
    (s, false)

/-- The synchronous part of `startTask`, lines 121-140, with `onTaskFinished`
(lines 157-160) abstracted as `finished`.  An exception of the callback in
line 135 rejects the promise of the `async` function: lines 136-137 are
skipped and nothing propagates to the caller. -/
def startTaskWith (finished : SynthesisPipeline → SynthesisPipeline) (env : Env)
    (s : SynthesisPipeline) (task : Task) : SynthesisPipeline :=
  let s := { s with started := s.started ++ [task] }
  if env.ctorThrows task then
    let r := notify env s task.index none
    if r.2 then r.1 else finished r.1
  else
    { s with
      activeTasks := s.activeTasks ++ [s.nextUnit]
      inFlight := s.inFlight ++ [(s.nextUnit, task)]
      nextUnit := s.nextUnit + 1 }

/-- `processQueue()`, lines 113-119, with a bound on the nesting depth
(`startTask` re-enters `processQueue` through `onTaskFinished`). -/
def processQueueFuel (env : Env) : Nat → SynthesisPipeline → SynthesisPipeline
  | 0, s => s
  | fuel + 1, s =>
    if s.cancelled then s
    else if s.activeTasks.length < s.maxConcurrency then
      match s.queue with
      | [] => s
      | task :: rest =>
        processQueueFuel env fuel
          (startTaskWith (processQueueFuel env fuel) env { s with queue := rest } task)
    else s

/-- `processQueue()`, lines 113-119.  Every iteration shifts one task off the
queue and nothing reachable from the loop adds one, so `queue.length + 1`
bounds both the iterations and the nesting (`processQueueFuel_stable`). -/
def processQueue (env : Env) (s : SynthesisPipeline) : SynthesisPipeline :=
  processQueueFuel env (s.queue.length + 1) s

/-- `onTaskFinished(index)`, lines 157-160. -/
def onTaskFinished (env : Env) (s : SynthesisPipeline) : SynthesisPipeline :=
  processQueue env s

/-- The synchronous part of `startTask`, lines 121-140. -/
def startTask (env : Env) (s : SynthesisPipeline) (task : Task) : SynthesisPipeline :=
  startTaskWith (onTaskFinished env) env s task

/-- `addSentence(index, text, voice, settings)`, lines 103-111. -/
def addSentence (env : Env) (s : SynthesisPipeline) (task : Task) : SynthesisPipeline :=
  if s.cancelled then s
  else processQueue env { s with queue := s.queue ++ [task] }

/-- The rest of `startTask` once `await tts.synthesize()` settles, lines
142-154, for the unit `tts` started for `task`.  `result` is what
`tts.synthesize()` produced: `some audio`, or `none` when it threw. -/
def settle (env : Env) (s : SynthesisPipeline) (tts : Nat) (task : Task)
    (result : Option Blob) : SynthesisPipeline :=
  let s := { s with inFlight := s.inFlight.filter (fun p => p.1 ≠ tts) }
  -- try (lines 143-147)
  let r1 : SynthesisPipeline × Bool :=
    match result with
    | some audio => notify env s task.index (some audio)
    | none => (s, true)
  -- catch (lines 148-150)
  let r2 : SynthesisPipeline × Bool :=
    if r1.2 then notify env r1.1 task.index none else r1
  -- finally (lines 151-154)
  onTaskFinished env { r2.1 with activeTasks := r2.1.activeTasks.filter (fun t => t ≠ tts) }

/-- The calls and callbacks a pipeline can receive. -/
inductive Event where
  /-- The assignment `pipeline.onAudioReady = callback` (line 900). -/
  | setOnAudioReady
  | addSentence (task : Task) (env : Env)
  /-- The `synthesize()` promise of unit `tts` settles. -/
  | settled (tts : Nat) (result : EngineResult) (env : Env)
  | cancel

/-- One event.  A unit settles only while its promise is pending, and at most
once: a `settled` event for a unit that is not in flight does not occur. -/
def step (s : SynthesisPipeline) : Event → SynthesisPipeline
  | .setOnAudioReady => { s with onAudioReady := true }
  | .addSentence task env => addSentence env s task
  | .settled tts result env =>
    match s.inFlight.find? (fun p => p.1 = tts) with
    | some (_, task) => settle env s tts task (AbortableEdgeTTS.synthesize result)
    | none => s
  | .cancel => cancel s

/-- A sequence of events, oldest first. -/
def run (s : SynthesisPipeline) (events : List Event) : SynthesisPipeline :=
  events.foldl step s

end SynthesisPipeline

/-! ## AudioPlayQueue (content.js 177-317) -/

/-- An `Audio` element built by `pushAudio` (lines 208-211): the handle of its
object URL, the slot index captured by its listeners, and the blob it plays. -/
structure Audio where
  url : Nat
  index : Int
  blob : Blob
  deriving Repr, DecidableEq

/-- The values the code stores into `audios`: `null` (lines 199, 221, 303) or
an `Audio` element (line 226). -/
inductive Stored where
  | null
  | audio (a : Audio)
  deriving Repr, DecidableEq

/-- The result of reading `audios[i]`. -/
inductive JSVal where
  | undefined
  | null
  | audio (a : Audio)
  deriving Repr, DecidableEq

/-- A stored value, as the value read back. -/
def Stored.toJSVal : Stored → JSVal
  | .null => .null
  | .audio a => .audio a

/-- A JavaScript array: its elements at the indices `0 .. length - 1`, where
`none` is an empty slot (a hole, as left by `new Array(n)`). -/
abbrev JSArray (α : Type) := List (Option α)

namespace JSArray

/-- `new Array(n)`: length `n`, every slot empty. -/
def new {α : Type} (n : Nat) : JSArray α :=
  List.replicate n none

/-- `arr[i] = v` for an index `i ≥ 0`; writing at or past `length` grows the
array, leaving holes in between. -/
def set {α : Type} (arr : JSArray α) (i : Nat) (v : α) : JSArray α :=
  if i < arr.length then List.set arr i (some v)
  else arr ++ List.replicate (i - arr.length) none ++ [some v]

/-- The cell at `i`: `none` for a hole and for an index past the end (both
read as `undefined`). -/
def cell {α : Type} (arr : JSArray α) (i : Nat) : Option α :=
  (arr.get? i).join

/-- `arr.every(p)`: the callback is not invoked for empty slots. -/
def every {α : Type} (p : α → Bool) (arr : JSArray α) : Bool :=
  arr.all (fun c => match c with
    | none => true
    | some v => p v)

/-- `arr.fill(v)`. -/
def fill {α : Type} (arr : JSArray α) (v : α) : JSArray α :=
  arr.map (fun _ => some v)

end JSArray

/-- What the queue does towards its surroundings, in order of occurrence.
The callbacks `onSentenceStart`, `onSentenceEnd` and `onFinish` are taken to
return normally and not to call back into the queue. -/
inductive Notification where
  /-- Playback of slot `index` starts: lines 262-276, `audio.play()`. -/
  | play (index : Nat) (a : Audio)
  /-- `onSentenceStart(index, audio)`, line 277. -/
  | sentenceStart (index : Nat) (a : Audio)
  /-- `onSentenceEnd(index, duration)`, line 269. -/
  | sentenceEnd (index : Nat) (duration : Nat)
  /-- `onFinish()`, line 241. -/
  | finish
  deriving Repr, DecidableEq

/-- The fields of `AudioPlayQueue` (lines 178-189) and, after `waitTimer`, the
state of the browser around it.  Durations are numbers of an unspecified
unit.  Properties written under a negative key (`arr[-1] = v`) are not array
elements; they are kept apart in `audiosProps` and `durationsProps`. -/
structure AudioPlayQueue where
  audios : JSArray Stored
  audiosProps : List (Int × Stored)
  durations : JSArray Nat
  durationsProps : List (Int × Nat)
  currentIndex : Nat
  isPlaying : Bool
  /-- The handle returned by `setTimeout`, or `none` for `null`. -/
  waitTimer : Option Nat
  nextTimer : Nat
  nextUrl : Nat
  /-- Every `Audio` element constructed so far. -/
  elements : List Audio
  /-- Object URLs created and not yet revoked. -/
  liveUrls : List Nat
  /-- Elements on which `play()` was called and that have neither ended,
  failed nor been paused since. -/
  sounding : List Audio
  /-- Elements whose `play()` promise is still pending. -/
  playPending : List Audio
  log : List Notification
  deriving Repr, DecidableEq

namespace AudioPlayQueue

/-- The constructor, lines 178-189. -/
def new (sentenceCount : Nat) : AudioPlayQueue :=
  { audios := JSArray.new sentenceCount
    audiosProps := []
    durations := JSArray.fill (JSArray.new sentenceCount) 0
    durationsProps := []
    currentIndex := 0
    isPlaying := false
    waitTimer := none
    nextTimer := 0
    nextUrl := 0
    elements := []
    liveUrls := []
    sounding := []
    playPending := []
    log := [] }

/-- Reading `this.audios[i]` for `i ≥ 0`. -/
def audioAt (s : AudioPlayQueue) (i : Nat) : JSVal :=
  match s.audios.cell i with
  | none => .undefined
  | some v => v.toJSVal

/-- Reading `this.durations[i] || 0` for `i ≥ 0`. -/
def durationAt (s : AudioPlayQueue) (i : Nat) : Nat :=
  (s.durations.cell i).getD 0

/-- The assignment `this.audios[index] = v`. -/
def writeAudio (s : AudioPlayQueue) (index : Int) (v : Stored) : AudioPlayQueue :=
  if 0 ≤ index then { s with audios := s.audios.set index.toNat v }
  else { s with audiosProps := s.audiosProps.filter (fun p => p.1 ≠ index) ++ [(index, v)] }

/-- The assignment `this.durations[index] = d`. -/
def writeDuration (s : AudioPlayQueue) (index : Int) (d : Nat) : AudioPlayQueue :=
  if 0 ≤ index then { s with durations := s.durations.set index.toNat d }
  else { s with durationsProps := s.durationsProps.filter (fun p => p.1 ≠ index) ++ [(index, d)] }

/-- `URL.revokeObjectURL(url)`. -/
def revoke (s : AudioPlayQueue) (url : Nat) : AudioPlayQueue :=
  { s with liveUrls := s.liveUrls.filter (fun u => u ≠ url) }

/-- `clearWaitTimer()`, lines 311-316. -/
def clearWaitTimer (s : AudioPlayQueue) : AudioPlayQueue :=
  match s.waitTimer with
  | some _ => { s with waitTimer := none }
  | none => s

/-- `setWaitTimer()`, lines 299-309: the old timer is cleared and a new one
armed; its callback is `onWaitTimeout` below. -/
def setWaitTimer (s : AudioPlayQueue) : AudioPlayQueue :=
  let s := clearWaitTimer s
  { s with waitTimer := some s.nextTimer, nextTimer := s.nextTimer + 1 }

/-- Line 238: `this.audios.every(a => a !== undefined)`. -/
def allProcessed (s : AudioPlayQueue) : Bool :=
  s.audios.every (fun a => a.toJSVal != JSVal.undefined)

/-- `playCurrent()`, lines 234-282, with a bound on the recursion of line
253. -/
def playCurrentFuel : Nat → AudioPlayQueue → AudioPlayQueue
  | 0, s => s
  | fuel + 1, s =>
    let s := clearWaitTimer s
    if s.currentIndex ≥ s.audios.length then
      if allProcessed s then { s with log := s.log ++ [Notification.finish] }
      else setWaitTimer s
    else
      match audioAt s s.currentIndex with
      | .null => playCurrentFuel fuel { s with currentIndex := s.currentIndex + 1 }
      | .undefined => setWaitTimer s
      | .audio a =>
        { s with
          isPlaying := true
          sounding := s.sounding.filter (fun b => b ≠ a) ++ [a]
          playPending := s.playPending.filter (fun b => b ≠ a) ++ [a]
          log := s.log ++ [Notification.play s.currentIndex a] }

/-- `playCurrent()`, lines 234-282.  The recursion of line 253 happens below
`audios.length` and raises `currentIndex`, so `audios.length - currentIndex + 1`
calls suffice (`playCurrentFuel_stable`). -/
def playCurrent (s : AudioPlayQueue) : AudioPlayQueue :=
  playCurrentFuel (s.audios.length - s.currentIndex + 1) s

/-- `pushAudio(index, blob)`, lines 191-232; `blob = none` is `null`. -/
def pushAudio (s : AudioPlayQueue) (index : Int) (blob : Option Blob) : AudioPlayQueue :=
  if index ≥ (s.audios.length : Int) then s
  else
    match blob with
    | none =>
      let s := writeAudio s index Stored.null
      let s := writeDuration s index 0
      if index = (s.currentIndex : Int) && !s.isPlaying then playCurrent (clearWaitTimer s)
      else s
    | some b =>
      let audio : Audio := { url := s.nextUrl, index := index, blob := b }
      let s := { s with
        nextUrl := s.nextUrl + 1
        liveUrls := s.liveUrls ++ [audio.url]
        elements := s.elements ++ [audio] }
      let s := writeAudio s index (Stored.audio audio)
      if index = (s.currentIndex : Int) && !s.isPlaying then playCurrent (clearWaitTimer s)
      else s

/-- The `loadedmetadata` listener, lines 213-216; `d` is `audio.duration || 0`. -/
def onLoadedMetadata (s : AudioPlayQueue) (a : Audio) (d : Nat) : AudioPlayQueue :=
  writeDuration s a.index d

/-- The `error` listener, lines 218-224. -/
def onAudioError (s : AudioPlayQueue) (a : Audio) : AudioPlayQueue :=
  let s := revoke s a.url
  let s := writeAudio s a.index Stored.null
  let s := writeDuration s a.index 0
  if a.index = (s.currentIndex : Int) && !s.isPlaying then playCurrent s else s

/-- The `onended` handler installed in line 265, lines 266-273. -/
def onEnded (s : AudioPlayQueue) (a : Audio) : AudioPlayQueue :=
  let s := revoke s a.url
  let s := { s with
    log := s.log ++ [Notification.sentenceEnd s.currentIndex (durationAt s s.currentIndex)] }
  playCurrent { s with isPlaying := false, currentIndex := s.currentIndex + 1 }

/-- The `then` callback of `audio.play()`, line 277. -/
def onPlayStarted (s : AudioPlayQueue) (a : Audio) : AudioPlayQueue :=
  { s with log := s.log ++ [Notification.sentenceStart s.currentIndex a] }

/-- The callback of the wait timer, lines 302-307. -/
def onWaitTimeout (s : AudioPlayQueue) : AudioPlayQueue :=
  let s := writeAudio s s.currentIndex Stored.null
  let s := writeDuration s s.currentIndex 0
  playCurrent { s with isPlaying := false, currentIndex := s.currentIndex + 1 }

/-- The `Audio` elements held in array slots, as visited by `forEach`. -/
def heldAudios (s : AudioPlayQueue) : List Audio :=
  s.audios.filterMap (fun c => match c with
    | some (Stored.audio a) => some a
    | _ => none)

/-- `stop()`, lines 284-297.  `pause()` ends the sounding of an element and
`new Array(length)` is a new object without the old one's properties.  A
`play()` promise that is pending stays pending here: the browser rejects it
once `pause()` has interrupted it, which is the event `playRejected`. -/
def stop (s : AudioPlayQueue) : AudioPlayQueue :=
  let s := clearWaitTimer s
  let held := heldAudios s
  { s with
    sounding := s.sounding.filter (fun a => a ∉ held)
    liveUrls := s.liveUrls.filter (fun u => u ∉ held.map Audio.url)
    audios := JSArray.new s.audios.length
    audiosProps := []
    durations := s.durations.fill 0
    currentIndex := 0
    isPlaying := false }

/-- The calls and browser events an `AudioPlayQueue` receives, `stop()`
apart (see `Call`). -/
inductive Event where
  | pushAudio (index : Int) (blob : Option Blob)
  /-- The orchestrator's call of `playCurrent()` (line 913). -/
  | playCurrent
  | loadedMetadata (a : Audio) (d : Nat)
  | audioError (a : Audio)
  /-- Playback of `a` reached its end. -/
  | ended (a : Audio)
  /-- The promise of `a.play()` resolved. -/
  | playResolved (a : Audio)
  /-- The promise of `a.play()` rejected: line 280 calls `audio.onended`. -/
  | playRejected (a : Audio)
  | waitTimerExpired
  deriving Repr, DecidableEq

/-- When the surroundings can deliver an event.  The orchestrator calls
`playCurrent()` when it starts a session, before any audio exists, so while
nothing plays; element events come from constructed elements; an element
ends only after its playback started; a timer fires only while armed. -/
def enabled (s : AudioPlayQueue) : Event → Bool
  | .pushAudio _ _ => true
  | .playCurrent => !s.isPlaying
  | .loadedMetadata a _ => decide (a ∈ s.elements)
  | .audioError a => decide (a ∈ s.elements)
  | .ended a => decide (a ∈ s.sounding) && !decide (a ∈ s.playPending)
  | .playResolved a => decide (a ∈ s.playPending) && decide (a ∈ s.sounding)
  | .playRejected a => decide (a ∈ s.playPending)
  | .waitTimerExpired => s.waitTimer.isSome

/-- The handler of an event, with the browser's own bookkeeping. -/
def handle (s : AudioPlayQueue) : Event → AudioPlayQueue
  | .pushAudio index blob => pushAudio s index blob
  | .playCurrent => playCurrent s
  | .loadedMetadata a d => onLoadedMetadata s a d
  | .audioError a => onAudioError { s with sounding := s.sounding.filter (fun b => b ≠ a) } a
  | .ended a => onEnded { s with sounding := s.sounding.filter (fun b => b ≠ a) } a
  | .playResolved a =>
    onPlayStarted { s with playPending := s.playPending.filter (fun b => b ≠ a) } a
  | .playRejected a =>
    onEnded { s with
      sounding := s.sounding.filter (fun b => b ≠ a)
      playPending := s.playPending.filter (fun b => b ≠ a) } a
  | .waitTimerExpired => onWaitTimeout s

/-- One event; an event that cannot occur in `s` leaves it alone. -/
def step (s : AudioPlayQueue) (e : Event) : AudioPlayQueue :=
  if enabled s e then handle s e else s

/-- A sequence of events, oldest first. -/
def run (s : AudioPlayQueue) (events : List Event) : AudioPlayQueue :=
  events.foldl step s

/-- The slot indices for which playback was started, oldest first. -/
def played (s : AudioPlayQueue) : List Nat :=
  s.log.filterMap (fun n => match n with
    | Notification.play index _ => some index
    | _ => none)

/-- How often `onFinish` fired. -/
def finishCount (s : AudioPlayQueue) : Nat :=
  s.log.count Notification.finish

end AudioPlayQueue

/-! ## Runs, sessions and invariants -/

namespace AudioPlayQueue

/-- The index a `pushAudio` call delivers, `none` for any other event. -/
def Event.pushedIndex : Event → Option Int
  | .pushAudio index _ => some index
  | _ => none

/-- The indices delivered by the `pushAudio` calls of a run, in order. -/
def pushedIndices (events : List Event) : List Int :=
  events.filterMap Event.pushedIndex

/-- The events of an undisturbed session in which the sentences of `F` fail:
a `pushAudio` delivers `null` exactly for the indices in `F`, and there is no
audio error, no wait-timer expiry and no further outside call. -/
def Event.inSession (F : Nat → Bool) : Event → Bool
  | .pushAudio index blob => blob.isNone == F index.toNat
  | .loadedMetadata _ _ => true
  | .ended _ => true
  | .playResolved _ => true
  | .playRejected _ => true
  | .playCurrent => false
  | .audioError _ => false
  | .waitTimerExpired => false

/-- The playback starts (`some index`) and `onFinish` calls (`none`) of a log,
in order of occurrence. -/
def milestonesOf (log : List Notification) : List (Option Nat) :=
  log.filterMap (fun n => match n with
    | Notification.play index _ => some (some index)
    | Notification.finish => some none
    | _ => none)

/-- The playback starts and `onFinish` calls so far. -/
def milestones (s : AudioPlayQueue) : List (Option Nat) :=
  milestonesOf s.log

/-- The invariant of an undisturbed session of `N` slots in which the
sentences of `F` fail, after the indices `pushed` have been delivered. -/
structure SessionInv (N : Nat) (F : Nat → Bool) (pushed : List Nat) (s : AudioPlayQueue) :
    Prop where
  len : s.audios.length = N
  unset : ∀ i, i ∉ pushed → s.audios.cell i = none
  failed : ∀ i, i ∈ pushed → F i = true → s.audios.cell i = some Stored.null
  ready : ∀ i, i ∈ pushed → F i = false → ∃ a, s.audios.cell i = some (Stored.audio a)
  cur_le : s.currentIndex ≤ N
  playing : s.isPlaying = true → s.currentIndex < N ∧
    ∃ a, s.audios.cell s.currentIndex = some (Stored.audio a) ∧
      (∀ b ∈ s.sounding, b = a) ∧ (∀ b ∈ s.playPending, b = a)
  resting : s.isPlaying = false → s.sounding = [] ∧ s.playPending = [] ∧
    (s.currentIndex < N → s.audios.cell s.currentIndex = none)
  marks : milestonesOf s.log =
    ((List.range (s.currentIndex + (if s.isPlaying then 1 else 0))).filter
        (fun i => !F i)).map some
      ++ (if s.currentIndex = N then [none] else [])

end AudioPlayQueue

namespace SynthesisPipeline

/-- The invariant behind the concurrency cap. -/
structure CapInv (s : SynthesisPipeline) : Prop where
  cap : s.inFlight.length ≤ s.maxConcurrency
  active : s.cancelled = false → s.activeTasks = s.inFlight.map Prod.fst
  idle : s.cancelled = true → s.activeTasks = []
  fresh : ∀ u ∈ s.inFlight.map Prod.fst, u < s.nextUnit
  nodup : (s.inFlight.map Prod.fst).Nodup

/-- The invariant while unit `tts` settles: its promise is no longer pending
and `activeTasks` still holds it. -/
structure SettlingInv (tts : Nat) (s : SynthesisPipeline) : Prop where
  cap : s.inFlight.length ≤ s.maxConcurrency
  active : s.cancelled = false →
    s.activeTasks.filter (fun t => decide (t ≠ tts)) = s.inFlight.map Prod.fst
  idle : s.cancelled = true → s.activeTasks = []
  fresh : ∀ u ∈ s.inFlight.map Prod.fst, u < s.nextUnit
  nodup : (s.inFlight.map Prod.fst).Nodup

/-- Surroundings in which every unit is constructed and the callback returns
without touching the pipeline. -/
def envQuiet : Env :=
  { ctorThrows := fun _ => false
    callback := fun _ _ => { cancels := false, throws := false } }

/-- Surroundings in which the callback throws when it is handed an audio and
returns when it is handed `null`. -/
def envThrow : Env :=
  { ctorThrows := fun _ => false
    callback := fun _ audio => { cancels := false, throws := audio.isSome } }

/-- A first sentence with the default voice and prosody (line 457). -/
def task0 : Task :=
  { index := 0, text := js "Hi.", voice := "zh-CN-YunjianNeural"
    settings := { rate := 0, volume := 0, pitch := 0 } }

end SynthesisPipeline

namespace AudioPlayQueue

/-- The ordering invariant, on the three fields it depends on. -/
def OrderInv (log : List Notification) (cur : Nat) (playing : Bool) : Prop :=
  let ps := log.filterMap (fun n => match n with
    | Notification.play index _ => some index
    | _ => none)
  ps.Pairwise (· < ·) ∧ ∀ k ∈ ps, k < cur ∨ (k = cur ∧ playing = true)

/-- While the wait timer is armed, nothing plays and the awaited slot is unset. -/
def WaitInv (s : AudioPlayQueue) : Prop :=
  s.waitTimer.isSome = true → s.isPlaying = false ∧ s.audios.cell s.currentIndex = none

/-- Scenario B of the specification: three sentences, sentence 1 fails; the
results arrive in reverse order and every started audio plays to its end. -/
def scenarioB : List Event :=
  [ Event.pushAudio 2 (some 9), Event.pushAudio 1 none, Event.pushAudio 0 (some 9),
    Event.playResolved { url := 1, index := 0, blob := 9 },
    Event.ended { url := 1, index := 0, blob := 9 },
    Event.playResolved { url := 0, index := 2, blob := 9 },
    Event.ended { url := 0, index := 2, blob := 9 } ]

end AudioPlayQueue

/-! ## Definitions for cancellation, dispatch order and text coverage -/

namespace SynthesisPipeline

/-- The task an `addSentence` call hands over, `none` for any other event. -/
def Event.addedTask : Event → Option Task
  | .addSentence task _ => some task
  | _ => none

/-- The tasks handed to `addSentence` in a run, in arrival order. -/
def addedTasks (events : List Event) : List Task :=
  events.filterMap Event.addedTask

/-- A second sentence, for runs with more tasks than the cap. -/
def task1 : Task :=
  { index := 1, text := js "Yes.", voice := "zh-CN-YunjianNeural"
    settings := { rate := 0, volume := 0, pitch := 0 } }

end SynthesisPipeline

namespace SentenceSplitter

/-- Deleting all whitespace from a string. -/
def stripWhiteSpace (s : JSString) : JSString :=
  s.filter (fun c => !isWhiteSpace c)

/-- A string that the filter regex of line 49, `/^[.!?;:]$/`, matches: one
ASCII terminator and nothing else. -/
def isLoneAsciiTerminator : JSString → Bool
  | [c] => isAsciiTerminator c
  | _ => false

/-- A string that consists of a single terminator character, one of
`。！？；：.!?;:`, and nothing else. -/
def isLoneTerminator : JSString → Bool
  | [c] => isTerminator c
  | _ => false

/-- The cut points in the words of the specification: a position `p` with
`0 < p < length` such that the character before `p` is one of `。！？；：.!?;:`
and the character at `p` is not an ASCII digit. -/
def isCutPoint (text : JSString) (p : Nat) : Bool :=
  decide (0 < p) && decide (p < text.length) &&
    isTerminator (text.getD (p - 1) 0) && !isDigit (text.getD p 0)

/-- All cut points of a text, in increasing order. -/
def cutPoints (text : JSString) : List Nat :=
  (List.range text.length).filter (isCutPoint text)

/-- The positions at which a list of pieces cuts the concatenation of
`offset` earlier characters and the pieces: the end of every piece but the
last. -/
def boundariesFrom : Nat → List JSString → List Nat
  | _, [] => []
  | _, [_] => []
  | offset, p :: q :: rest => (offset + p.length) :: boundariesFrom (offset + p.length) (q :: rest)

/-- The positions at which a list of pieces cuts its concatenation. -/
def boundaries (pieces : List JSString) : List Nat :=
  boundariesFrom 0 pieces

end SentenceSplitter

namespace AudioPlayQueue

/-- What reaches a queue over its whole life: an event, or `stop()`. -/
inductive Call where
  | event (e : Event)
  | stop
  deriving Repr, DecidableEq

/-- One call. -/
def call (s : AudioPlayQueue) : Call → AudioPlayQueue
  | .event e => step s e
  | .stop => stop s

/-- A sequence of calls, oldest first. -/
def runCalls (s : AudioPlayQueue) (calls : List Call) : AudioPlayQueue :=
  calls.foldl call s

/-- While nothing plays, the slot under the cursor is not a failed one. -/
def RestInv (s : AudioPlayQueue) : Prop :=
  s.isPlaying = false → audioAt s s.currentIndex ≠ JSVal.null

/-- The arrays keep the length they were built with: every element was
created for an index below it, and an armed wait timer waits on a slot
inside the array. -/
structure SizeInv (N : Nat) (s : AudioPlayQueue) : Prop where
  audios : s.audios.length = N
  durations : s.durations.length = N
  elements : ∀ a ∈ s.elements, a.index < (N : Int)
  timer : s.waitTimer.isSome = true → s.currentIndex < N

/-- Every live object URL belongs to an element held in a slot; `pushed` are
the indices delivered so far, each at most once. -/
structure LiveInv (pushed : List Int) (s : AudioPlayQueue) : Prop where
  unpushed : ∀ (i : Nat) (a : Audio), (i : Int) ∉ pushed →
    s.audios.cell i ≠ some (Stored.audio a)
  owner : ∀ (i : Nat) (a : Audio), s.audios.cell i = some (Stored.audio a) →
    a ∈ s.elements ∧ a.index = (i : Int)
  known : ∀ a ∈ s.elements, a.index ∈ pushed
  unique : ∀ a ∈ s.elements, ∀ b ∈ s.elements, a.index = b.index → a = b
  live : ∀ u ∈ s.liveUrls, ∃ i a, s.audios.cell i = some (Stored.audio a) ∧ a.url = u

end AudioPlayQueue

namespace AudioPlayQueue

/-- The element that `pushAudio(0, blob)` builds on a fresh queue. -/
def firstAudio : Audio :=
  { url := 0, index := 0, blob := 9 }

/-- A queue of two slots that is stopped right after the playback of slot 0
was started: `play()` has been called and its promise is still pending when
`stop()` pauses the element. -/
def stoppedWhileStarting : AudioPlayQueue :=
  stop (run (new 2) [Event.playCurrent, Event.pushAudio 0 (some 9)])

end AudioPlayQueue

/-! ## The cleaning loop of `startPlayback` (content.js 809-820) -/

namespace FinalDeepSeekTTS

/-- The character class of `EMOJI_REGEX`, line 447:
`[\u{1F300}-\u{1F6FF}\u{1F900}-\u{1F9FF}\u{2600}-\u{26FF}\u{2700}-\u{27BF}]`,
on a code point. -/
def isEmojiCodePoint (c : Nat) : Bool :=
  (0x1F300 ≤ c && c ≤ 0x1F6FF) || (0x1F900 ≤ c && c ≤ 0x1F9FF)
    || (0x2600 ≤ c && c ≤ 0x26FF) || (0x2700 ≤ c && c ≤ 0x27BF)

/-- `emojiRegex.test(ch)` of line 815 for a string `ch` of one code unit, as
`rawFullText[i]` is: the result and the `lastIndex` the regex is left with.
The regex has the flags `g` and `u`, so `test` starts at `lastIndex` and
stores the end of a match there.  From `lastIndex = 0` the only code point of
`ch` is the code unit itself (a surrogate stands alone); a match sets
`lastIndex` to 1.  From `lastIndex ≥ 1` nothing is left to match: `test`
fails and resets `lastIndex` to 0. -/
def emojiTest (lastIndex : Nat) (ch : Nat) : Bool × Nat :=
  if lastIndex = 0 then
    if isEmojiCodePoint ch then (true, 1) else (false, 0)
  else (false, 0)

/-- What the loop of lines 811-819 builds, and the `lastIndex` it leaves in
the shared static regex. -/
structure Cleaned where
  cleanFullText : JSString
  offsetMap : List Nat
  lastIndex : Nat
  deriving Repr, DecidableEq

/-- The loop of lines 813-819 from position `i` on, with the regex at
`lastIndex`. -/
def cleanLoop : Nat → Nat → JSString → Cleaned
  | lastIndex, _, [] => { cleanFullText := [], offsetMap := [], lastIndex := lastIndex }
  | lastIndex, i, ch :: rest =>
    let r := emojiTest lastIndex ch
    let t := cleanLoop r.2 (i + 1) rest
    if r.1 then t
    else { t with cleanFullText := ch :: t.cleanFullText, offsetMap := i :: t.offsetMap }

/-- Lines 810-819 of `startPlayback`; `lastIndex` is what earlier calls left
in `EMOJI_REGEX` (0 on first use). -/
def clean (lastIndex : Nat) (rawFullText : JSString) : Cleaned :=
  cleanLoop lastIndex 0 rawFullText

/-- The cleaned text in the words of the claim: the raw text with every
character that `EMOJI_REGEX` matches removed and all others kept in order. -/
def withoutEmoji (raw : String) : String :=
  String.mk (raw.toList.filter (fun c => !isEmojiCodePoint c.toNat))

end FinalDeepSeekTTS

namespace AudioPlayQueue

/-- Slots are not reordered: an element held in slot `i` was created for
index `i`. -/
def OwnInv (s : AudioPlayQueue) : Prop :=
  ∀ (i : Nat) (a : Audio), s.audios.cell i = some (Stored.audio a) → a.index = (i : Int)

/-- Between construction and `stop()`: every slot below the cursor has been
written; while something plays, the slot under the cursor has been written
and at most one element sounds or has its `play()` pending; while nothing
plays, no element does. -/
structure CursorInv (s : AudioPlayQueue) : Prop where
  below : ∀ i, i < s.currentIndex → s.audios.cell i ≠ none
  playing : s.isPlaying = true → s.audios.cell s.currentIndex ≠ none ∧
    ∃ a, (∀ b ∈ s.sounding, b = a) ∧ (∀ b ∈ s.playPending, b = a)
  resting : s.isPlaying = false → s.sounding = [] ∧ s.playPending = []

/-- A queue of one slot that is stopped while the `play()` promise of slot 0
is pending, and then receives the rejection of that promise. -/
def staleRejection : List Call :=
  [Call.event Event.playCurrent, Call.event (Event.pushAudio 0 (some 9)), Call.stop,
    Call.event (Event.playRejected firstAudio)]

end AudioPlayQueue

/-! # Properties

## Arrays and `playCurrent` -/

namespace AudioPlayQueue

theorem clearWaitTimer_eq (s : AudioPlayQueue) :
    clearWaitTimer s = { s with waitTimer := none } := by
  unfold clearWaitTimer
  cases h : s.waitTimer with
  | none => cases s; simp_all
  | some t => rfl

theorem setWaitTimer_eq (s : AudioPlayQueue) :
    setWaitTimer s = { s with waitTimer := some s.nextTimer, nextTimer := s.nextTimer + 1 } := by
  unfold setWaitTimer
  rw [clearWaitTimer_eq]

theorem allProcessed_eq_true (s : AudioPlayQueue) : allProcessed s = true := by
  unfold allProcessed JSArray.every
  rw [List.all_eq_true]
  intro c _
  cases c with
  | none => rfl
  | some v => cases v <;> rfl

/-- unfolding of one call -/
theorem playCurrentFuel_succ (n : Nat) (s : AudioPlayQueue) :
    playCurrentFuel (n + 1) s =
      if s.currentIndex ≥ s.audios.length then
        { s with waitTimer := none, log := s.log ++ [Notification.finish] }
      else
        match audioAt s s.currentIndex with
        | .null => playCurrentFuel n { s with waitTimer := none, currentIndex := s.currentIndex + 1 }
        | .undefined => { s with waitTimer := some s.nextTimer, nextTimer := s.nextTimer + 1 }
        | .audio a =>
          { s with
            waitTimer := none
            isPlaying := true
            sounding := s.sounding.filter (fun b => b ≠ a) ++ [a]
            playPending := s.playPending.filter (fun b => b ≠ a) ++ [a]
            log := s.log ++ [Notification.play s.currentIndex a] } := by
  rw [playCurrentFuel]
  simp only [clearWaitTimer_eq, setWaitTimer_eq, allProcessed_eq_true, if_true]
  rfl

end AudioPlayQueue

namespace JSArray

theorem cell_set_self {α : Type} (arr : JSArray α) (i : Nat) (v : α) :
    cell (set arr i v) i = some v := by
  unfold cell set
  by_cases h : i < arr.length
  · simp [h, List.getElem?_set]
  · simp only [h, if_false, List.get?_eq_getElem?]
    have hlen : (arr ++ List.replicate (i - arr.length) none).length = i := by
      simp; omega
    rw [List.getElem?_append_right (by omega)]
    simp [hlen]

theorem cell_set_of_ne {α : Type} (arr : JSArray α) (i j : Nat) (v : α) (h : j ≠ i) :
    cell (set arr i v) j = cell arr j := by
  unfold cell set
  by_cases hi : i < arr.length
  · simp [hi, List.getElem?_set, Ne.symm h]
  · simp only [hi, if_false, List.get?_eq_getElem?]
    by_cases hj : j < arr.length
    · rw [List.append_assoc, List.getElem?_append_left hj]
    · have h1 : arr[j]? = none := List.getElem?_eq_none (by omega)
      rw [h1]
      by_cases hj2 : j < i
      · rw [List.getElem?_append_left (by simp; omega), List.getElem?_append_right (by omega)]
        rw [List.getElem?_replicate]
        simp
      · rw [List.getElem?_eq_none]
        simp
        omega

theorem length_set_of_lt {α : Type} (arr : JSArray α) (i : Nat) (v : α) (h : i < arr.length) :
    (set arr i v).length = arr.length := by
  unfold set
  simp [h]

end JSArray

namespace AudioPlayQueue

/-- What one call of `playCurrent` does, when the fuel covers the slots left:
it skips the failed slots from `currentIndex` on and lands on an index `j`,
where it finishes, waits or plays. -/
theorem playCurrentFuel_spec (n : Nat) (s : AudioPlayQueue)
    (hn : s.audios.length - s.currentIndex < n) :
    ∃ j, s.currentIndex ≤ j ∧ (∀ i, s.currentIndex ≤ i → i < j → audioAt s i = JSVal.null) ∧
      ((s.audios.length ≤ j ∧ (j = s.currentIndex ∨ j = s.audios.length) ∧
          playCurrentFuel n s =
            { s with waitTimer := none, currentIndex := j,
                     log := s.log ++ [Notification.finish] }) ∨
       (j < s.audios.length ∧ audioAt s j = JSVal.undefined ∧
          playCurrentFuel n s =
            { s with waitTimer := some s.nextTimer, nextTimer := s.nextTimer + 1,
                     currentIndex := j }) ∨
       (∃ a, j < s.audios.length ∧ audioAt s j = JSVal.audio a ∧
          playCurrentFuel n s =
            { s with waitTimer := none, currentIndex := j, isPlaying := true,
                     sounding := s.sounding.filter (fun b => b ≠ a) ++ [a],
                     playPending := s.playPending.filter (fun b => b ≠ a) ++ [a],
                     log := s.log ++ [Notification.play j a] })) := by
  induction n generalizing s with
  | zero => omega
  | succ n ih =>
    rw [playCurrentFuel_succ]
    by_cases hge : s.currentIndex ≥ s.audios.length
    · refine ⟨s.currentIndex, le_refl _, fun i h1 h2 => by omega, Or.inl ⟨hge, Or.inl rfl, ?_⟩⟩
      simp [hge]
    · simp only [hge, if_false]
      cases hv : audioAt s s.currentIndex with
      | undefined =>
        refine ⟨s.currentIndex, le_refl _, fun i h1 h2 => by omega,
          Or.inr (Or.inl ⟨by omega, hv, ?_⟩)⟩
        rfl
      | audio a =>
        refine ⟨s.currentIndex, le_refl _, fun i h1 h2 => by omega,
          Or.inr (Or.inr ⟨a, by omega, hv, ?_⟩)⟩
        rfl
      | null =>
        simp only []
        obtain ⟨j, hj, hskip, hcase⟩ :=
          ih { s with waitTimer := none, currentIndex := s.currentIndex + 1 }
            (by simp only []; omega)
        refine ⟨j, by simp only [] at hj; omega, ?_, ?_⟩
        · intro i h1 h2
          by_cases hi : i = s.currentIndex
          · rw [hi]; exact hv
          · exact hskip i (by simp only []; omega) h2
        · rcases hcase with ⟨h1, h2, h3⟩ | ⟨h1, h2, h3⟩ | ⟨a, h1, h2, h3⟩
          · refine Or.inl ⟨h1, Or.inr ?_, h3⟩
            simp only [] at h1 h2
            omega
          · exact Or.inr (Or.inl ⟨h1, h2, h3⟩)
          · exact Or.inr (Or.inr ⟨a, h1, h2, h3⟩)

theorem playCurrent_spec (s : AudioPlayQueue) :
    ∃ j, s.currentIndex ≤ j ∧ (∀ i, s.currentIndex ≤ i → i < j → audioAt s i = JSVal.null) ∧
      ((s.audios.length ≤ j ∧ (j = s.currentIndex ∨ j = s.audios.length) ∧
          playCurrent s =
            { s with waitTimer := none, currentIndex := j,
                     log := s.log ++ [Notification.finish] }) ∨
       (j < s.audios.length ∧ audioAt s j = JSVal.undefined ∧
          playCurrent s =
            { s with waitTimer := some s.nextTimer, nextTimer := s.nextTimer + 1,
                     currentIndex := j }) ∨
       (∃ a, j < s.audios.length ∧ audioAt s j = JSVal.audio a ∧
          playCurrent s =
            { s with waitTimer := none, currentIndex := j, isPlaying := true,
                     sounding := s.sounding.filter (fun b => b ≠ a) ++ [a],
                     playPending := s.playPending.filter (fun b => b ≠ a) ++ [a],
                     log := s.log ++ [Notification.play j a] })) :=
  playCurrentFuel_spec _ s (by omega)

/-- More fuel than the slots left changes nothing: `playCurrent` is the
function the source defines, not an approximation of it. -/
theorem playCurrentFuel_stable (n : Nat) (s : AudioPlayQueue)
    (hn : s.audios.length - s.currentIndex < n) :
    playCurrentFuel n s = playCurrent s := by
  unfold playCurrent
  induction n generalizing s with
  | zero => omega
  | succ n ih =>
    rw [playCurrentFuel_succ, playCurrentFuel_succ]
    by_cases hge : s.currentIndex ≥ s.audios.length
    · simp [hge]
    · simp only [hge, if_false]
      cases hv : audioAt s s.currentIndex with
      | undefined => rfl
      | audio a => rfl
      | null =>
        simp only []
        rw [ih _ (by simp only []; omega)]
        have : s.audios.length - s.currentIndex = (s.audios.length - (s.currentIndex + 1)) + 1 := by
          omega
        rw [this]

theorem playCurrent_audios (s : AudioPlayQueue) : (playCurrent s).audios = s.audios := by
  obtain ⟨j, _, _, h⟩ := playCurrent_spec s
  rcases h with ⟨_, _, h⟩ | ⟨_, _, h⟩ | ⟨a, _, _, h⟩ <;> rw [h]

theorem playCurrent_durations (s : AudioPlayQueue) :
    (playCurrent s).durations = s.durations := by
  obtain ⟨j, _, _, h⟩ := playCurrent_spec s
  rcases h with ⟨_, _, h⟩ | ⟨_, _, h⟩ | ⟨a, _, _, h⟩ <;> rw [h]

theorem playCurrent_currentIndex_le (s : AudioPlayQueue) :
    s.currentIndex ≤ (playCurrent s).currentIndex := by
  obtain ⟨j, hj, _, h⟩ := playCurrent_spec s
  rcases h with ⟨_, _, h⟩ | ⟨_, _, h⟩ | ⟨a, _, _, h⟩ <;> rw [h] <;> exact hj

theorem audioAt_of_length_le (s : AudioPlayQueue) (i : Nat) (h : s.audios.length ≤ i) :
    audioAt s i = JSVal.undefined := by
  unfold audioAt JSArray.cell
  simp [List.getElem?_eq_none h]

end AudioPlayQueue

namespace SynthesisPipeline

theorem capInv_new (mc : Nat) : CapInv (new mc) := by
  constructor <;> simp [new]

theorem capInv_cancel {s : SynthesisPipeline} (h : CapInv s) : CapInv (cancel s) := by
  constructor
  · exact h.cap
  · intro hc; simp [cancel] at hc
  · intro _; rfl
  · exact h.fresh
  · exact h.nodup

theorem notify_cancelled (env : Env) (s : SynthesisPipeline) (index : Nat)
    (audio : Option Blob) (h : s.cancelled = true) : notify env s index audio = (s, false) := by
  simp [notify, h]

theorem capInv_notify (env : Env) {s : SynthesisPipeline} (index : Nat) (audio : Option Blob)
    (h : CapInv s) : CapInv (notify env s index audio).1 := by
  unfold notify
  split
  · simp only []
    have h1 : CapInv { s with delivered := s.delivered ++ [(index, audio)] } :=
      ⟨h.cap, h.active, h.idle, h.fresh, h.nodup⟩
    split
    · exact capInv_cancel h1
    · exact h1
  · exact h

theorem maxConcurrency_notify (env : Env) (s : SynthesisPipeline) (index : Nat)
    (audio : Option Blob) : (notify env s index audio).1.maxConcurrency = s.maxConcurrency := by
  unfold notify
  split
  · simp only []
    split <;> rfl
  · rfl

theorem capInv_processQueueFuel (env : Env) (n : Nat) :
    ∀ s : SynthesisPipeline, CapInv s → CapInv (processQueueFuel env n s) := by
  induction n with
  | zero => intro s h; exact h
  | succ n ih =>
    intro s h
    rw [processQueueFuel]
    split
    · exact h
    · rename_i hc
      split
      · rename_i hlt
        split
        · exact h
        · rename_i task rest hq
          apply ih
          unfold startTaskWith
          simp only []
          split
          · have h0 : CapInv { s with queue := rest, started := s.started ++ [task] } :=
              ⟨h.cap, h.active, h.idle, h.fresh, h.nodup⟩
            have h1 := capInv_notify env task.index none h0
            split
            · exact h1
            · exact ih _ h1
          · have hc' : s.cancelled = false := by simpa using hc
            have hact := h.active hc'
            have hlen : s.inFlight.length < s.maxConcurrency := by
              have : s.activeTasks.length = s.inFlight.length := by rw [hact]; simp
              omega
            constructor
            · simp only [List.length_append, List.length_singleton]; omega
            · intro _
              simp only [List.map_append, List.map_cons, List.map_nil]
              rw [hact]
            · intro hcc
              simp only [] at hcc
              rw [hc'] at hcc; cases hcc
            · intro u hu
              simp only [List.map_append, List.map_cons, List.map_nil, List.mem_append,
                List.mem_singleton] at hu
              rcases hu with hu | hu
              · have := h.fresh u hu
                simp only []; omega
              · simp only []; omega
            · simp only [List.map_append, List.map_cons, List.map_nil]
              rw [List.nodup_append]
              refine ⟨h.nodup, by simp, ?_⟩
              intro a ha hb
              simp only [List.mem_singleton] at hb
              have := h.fresh a ha
              omega
      · exact h

theorem capInv_processQueue (env : Env) (s : SynthesisPipeline) (h : CapInv s) :
    CapInv (processQueue env s) :=
  capInv_processQueueFuel env _ s h

theorem filter_map_fst_ne (l : List (Nat × Task)) (tts : Nat) :
    (l.filter (fun p => decide (p.1 ≠ tts))).map Prod.fst
      = (l.map Prod.fst).filter (fun t => decide (t ≠ tts)) := by
  rw [List.filter_map]
  rfl

theorem settlingInv_notify (env : Env) {s : SynthesisPipeline} (tts index : Nat)
    (audio : Option Blob) (h : SettlingInv tts s) :
    SettlingInv tts (notify env s index audio).1 := by
  unfold notify
  split
  · simp only []
    have h1 : SettlingInv tts { s with delivered := s.delivered ++ [(index, audio)] } :=
      ⟨h.cap, h.active, h.idle, h.fresh, h.nodup⟩
    split
    · constructor
      · exact h1.cap
      · intro hc; simp [cancel] at hc
      · intro _; rfl
      · exact h1.fresh
      · exact h1.nodup
    · exact h1
  · exact h

theorem capInv_settle (env : Env) (s : SynthesisPipeline) (tts : Nat) (task : Task)
    (result : Option Blob) (h : CapInv s) : CapInv (settle env s tts task result) := by
  unfold settle onTaskFinished
  apply capInv_processQueue
  have h0 : SettlingInv tts { s with inFlight := s.inFlight.filter (fun p => p.1 ≠ tts) } := by
    constructor
    · exact le_trans (List.length_filter_le _ _) h.cap
    · intro hc
      simp only []
      rw [filter_map_fst_ne, h.active hc]
    · exact h.idle
    · intro u hu
      simp only [] at hu
      rw [filter_map_fst_ne] at hu
      exact h.fresh u (List.mem_of_mem_filter hu)
    · simp only []
      rw [filter_map_fst_ne]
      exact h.nodup.filter _
  have close : ∀ s2 : SynthesisPipeline, SettlingInv tts s2 →
      CapInv { s2 with activeTasks := s2.activeTasks.filter (fun t => t ≠ tts) } := by
    intro s2 h2
    constructor
    · exact h2.cap
    · exact h2.active
    · intro hc
      simp only []
      rw [h2.idle hc]; rfl
    · exact h2.fresh
    · exact h2.nodup
  apply close
  have h1 : SettlingInv tts
      (match result with
        | some audio =>
          notify env { s with inFlight := s.inFlight.filter (fun p => p.1 ≠ tts) }
            task.index (some audio)
        | none => ({ s with inFlight := s.inFlight.filter (fun p => p.1 ≠ tts) }, true)).1 := by
    cases result with
    | none => exact h0
    | some audio => exact settlingInv_notify env tts task.index (some audio) h0
  split
  · exact settlingInv_notify env tts task.index none h1
  · exact h1

theorem capInv_step (s : SynthesisPipeline) (e : Event) (h : CapInv s) : CapInv (step s e) := by
  cases e with
  | setOnAudioReady => exact ⟨h.cap, h.active, h.idle, h.fresh, h.nodup⟩
  | addSentence task env =>
    simp only [step, addSentence]
    split
    · exact h
    · exact capInv_processQueue env _ ⟨h.cap, h.active, h.idle, h.fresh, h.nodup⟩
  | settled tts result env =>
    simp only [step]
    split
    · exact capInv_settle env s tts _ _ h
    · exact h
  | cancel => exact capInv_cancel h

theorem capInv_run (events : List Event) :
    ∀ s : SynthesisPipeline, CapInv s → CapInv (run s events) := by
  induction events with
  | nil => intro s h; exact h
  | cons e es ih => intro s h; exact ih _ (capInv_step s e h)

theorem queue_notify_le (env : Env) (s : SynthesisPipeline) (index : Nat)
    (audio : Option Blob) : (notify env s index audio).1.queue.length ≤ s.queue.length := by
  unfold notify
  split
  · simp only []
    split
    · simp [cancel]
    · exact le_refl _
  · exact le_refl _

theorem queue_startTaskWith_le (env : Env) (finished : SynthesisPipeline → SynthesisPipeline)
    (hf : ∀ s, (finished s).queue.length ≤ s.queue.length) (s : SynthesisPipeline)
    (task : Task) : (startTaskWith finished env s task).queue.length ≤ s.queue.length := by
  unfold startTaskWith
  simp only []
  split
  · have h1 := queue_notify_le env { s with started := s.started ++ [task] } task.index none
    split
    · exact h1
    · exact le_trans (hf _) h1
  · exact le_refl _

theorem queue_processQueueFuel_le (env : Env) (n : Nat) :
    ∀ s : SynthesisPipeline, (processQueueFuel env n s).queue.length ≤ s.queue.length := by
  induction n with
  | zero => intro s; exact le_refl _
  | succ n ih =>
    intro s
    rw [processQueueFuel]
    split
    · exact le_refl _
    · split
      · split
        · exact le_refl _
        · rename_i task rest hq
          refine le_trans (ih _) ?_
          refine le_trans (queue_startTaskWith_le env _ ih _ task) ?_
          simp [hq]
      · exact le_refl _

theorem processQueueFuel_succ_eq (env : Env) (n : Nat) :
    ∀ s : SynthesisPipeline, s.queue.length < n →
      processQueueFuel env (n + 1) s = processQueueFuel env n s := by
  induction n with
  | zero => intro s h; omega
  | succ n ih =>
    intro s h
    rw [processQueueFuel, processQueueFuel.eq_def env (n + 1) s]
    simp only []
    split
    · rfl
    · split
      · split
        · rfl
        · rename_i task rest hq
          have hrest : rest.length < n := by
            rw [hq] at h; simp at h; omega
          have hst : startTaskWith (processQueueFuel env (n + 1)) env { s with queue := rest } task
              = startTaskWith (processQueueFuel env n) env { s with queue := rest } task := by
            unfold startTaskWith
            simp only []
            split
            · split
              · rfl
              · apply ih
                exact lt_of_le_of_lt (queue_notify_le env _ _ _) hrest
            · rfl
          rw [hst]
          apply ih
          exact lt_of_le_of_lt
            (queue_startTaskWith_le env _ (queue_processQueueFuel_le env n) _ task) hrest
      · rfl

/-- More fuel than the queue is long changes nothing: `processQueue` is the
loop of the source, not an approximation of it. -/
theorem processQueueFuel_stable (env : Env) (n : Nat) (s : SynthesisPipeline)
    (h : s.queue.length < n) : processQueueFuel env n s = processQueue env s := by
  unfold processQueue
  induction n with
  | zero => omega
  | succ n ih =>
    by_cases hn : s.queue.length < n
    · rw [processQueueFuel_succ_eq env n s hn]
      exact ih hn
    · have : n = s.queue.length := by omega
      rw [this]

theorem cancelled_processQueueFuel (env : Env) (n : Nat) (s : SynthesisPipeline)
    (h : s.cancelled = true) : processQueueFuel env n s = s := by
  cases n with
  | zero => rfl
  | succ n => rw [processQueueFuel]; simp [h]

theorem cancelled_step (s : SynthesisPipeline) (e : Event) (h : s.cancelled = true) :
    (step s e).cancelled = true ∧ (step s e).delivered = s.delivered := by
  cases e with
  | setOnAudioReady => exact ⟨h, rfl⟩
  | addSentence task env => simp [step, addSentence, h]
  | settled tts result env =>
    simp only [step]
    split
    · rename_i task _
      have hs : settle env s tts task (AbortableEdgeTTS.synthesize result) =
          { s with inFlight := s.inFlight.filter (fun p => p.1 ≠ tts),
                   activeTasks := s.activeTasks.filter (fun t => t ≠ tts) } := by
        unfold settle onTaskFinished processQueue
        cases AbortableEdgeTTS.synthesize result with
        | none =>
          simp only [if_true]
          rw [notify_cancelled env _ _ _ (by exact h)]
          exact cancelled_processQueueFuel env _ _ h
        | some audio =>
          simp only []
          rw [notify_cancelled env _ _ _ (by exact h)]
          simp only [Bool.false_eq_true, if_false]
          exact cancelled_processQueueFuel env _ _ h
      rw [hs]
      exact ⟨h, rfl⟩
    · exact ⟨h, rfl⟩
  | cancel => exact ⟨rfl, rfl⟩

theorem cancelled_run (events : List Event) :
    ∀ s : SynthesisPipeline, s.cancelled = true →
      (run s events).cancelled = true ∧ (run s events).delivered = s.delivered := by
  induction events with
  | nil => intro s h; exact ⟨h, rfl⟩
  | cons e es ih =>
    intro s h
    obtain ⟨h1, h2⟩ := cancelled_step s e h
    obtain ⟨h3, h4⟩ := ih (step s e) h1
    exact ⟨h3, by rw [← h2]; exact h4⟩

theorem maxConcurrency_processQueueFuel (env : Env) (n : Nat) :
    ∀ s : SynthesisPipeline, (processQueueFuel env n s).maxConcurrency = s.maxConcurrency := by
  induction n with
  | zero => intro s; rfl
  | succ n ih =>
    intro s
    rw [processQueueFuel]
    split
    · rfl
    · split
      · split
        · rfl
        · rw [ih]
          unfold startTaskWith
          simp only []
          split
          · split
            · rw [maxConcurrency_notify]
            · rw [ih, maxConcurrency_notify]
          · rfl
      · rfl

theorem maxConcurrency_step (s : SynthesisPipeline) (e : Event) :
    (step s e).maxConcurrency = s.maxConcurrency := by
  cases e with
  | setOnAudioReady => rfl
  | addSentence task env =>
    simp only [step, addSentence]
    split
    · rfl
    · unfold processQueue; rw [maxConcurrency_processQueueFuel]
  | settled tts result env =>
    simp only [step]
    split
    · unfold settle onTaskFinished processQueue
      rw [maxConcurrency_processQueueFuel]
      simp only []
      split
      · rw [maxConcurrency_notify]
        split
        · rw [maxConcurrency_notify]
        · rfl
      · split
        · rw [maxConcurrency_notify]
        · rfl
    · rfl
  | cancel => rfl

theorem maxConcurrency_run (events : List Event) :
    ∀ s : SynthesisPipeline, (run s events).maxConcurrency = s.maxConcurrency := by
  induction events with
  | nil => intro s; rfl
  | cons e es ih => intro s; exact (ih (step s e)).trans (maxConcurrency_step s e)

end SynthesisPipeline

namespace AudioPlayQueue

theorem writeAudio_eq (s : AudioPlayQueue) (i : Int) (v : Stored) :
    writeAudio s i v =
      { s with
        audios := if 0 ≤ i then s.audios.set i.toNat v else s.audios
        audiosProps :=
          if 0 ≤ i then s.audiosProps
          else s.audiosProps.filter (fun p => p.1 ≠ i) ++ [(i, v)] } := by
  unfold writeAudio
  split <;> rfl

theorem writeDuration_eq (s : AudioPlayQueue) (i : Int) (d : Nat) :
    writeDuration s i d =
      { s with
        durations := if 0 ≤ i then s.durations.set i.toNat d else s.durations
        durationsProps :=
          if 0 ≤ i then s.durationsProps
          else s.durationsProps.filter (fun p => p.1 ≠ i) ++ [(i, d)] } := by
  unfold writeDuration
  split <;> rfl

theorem orderInv_playCurrent (s : AudioPlayQueue) (h : OrderInv s.log s.currentIndex s.isPlaying)
    (hp : s.isPlaying = false) :
    OrderInv (playCurrent s).log (playCurrent s).currentIndex (playCurrent s).isPlaying := by
  obtain ⟨h1, h2⟩ := h
  have hlt : ∀ k ∈ s.log.filterMap (fun n => match n with
      | Notification.play index _ => some index
      | _ => none), k < s.currentIndex := by
    intro k hk
    rcases h2 k hk with h3 | ⟨_, h3⟩
    · exact h3
    · rw [hp] at h3; cases h3
  obtain ⟨j, hj, _, hcase⟩ := playCurrent_spec s
  rcases hcase with ⟨_, _, h3⟩ | ⟨_, _, h3⟩ | ⟨a, _, _, h3⟩
  · rw [h3]
    simp only [OrderInv, List.filterMap_append, List.filterMap_cons, List.filterMap_nil,
      List.append_nil]
    exact ⟨h1, fun k hk => Or.inl (lt_of_lt_of_le (hlt k hk) hj)⟩
  · rw [h3]
    exact ⟨h1, fun k hk => Or.inl (lt_of_lt_of_le (hlt k hk) hj)⟩
  · rw [h3]
    simp only [OrderInv, List.filterMap_append, List.filterMap_cons, List.filterMap_nil]
    constructor
    · rw [List.pairwise_append]
      refine ⟨h1, by simp, ?_⟩
      intro k hk b hb
      simp only [List.mem_singleton] at hb
      rw [hb]
      exact lt_of_lt_of_le (hlt k hk) hj
    · intro k hk
      simp only [List.mem_append, List.mem_singleton] at hk
      rcases hk with hk | hk
      · exact Or.inl (lt_of_lt_of_le (hlt k hk) hj)
      · exact Or.inr ⟨hk, trivial⟩

theorem orderInv_advance {log : List Notification} {cur : Nat} {playing : Bool}
    (h : OrderInv log cur playing) (n : Notification)
    (hn : ∀ i a, n ≠ Notification.play i a) :
    OrderInv (log ++ [n]) (cur + 1) false := by
  obtain ⟨h1, h2⟩ := h
  have hnone : (match n with
      | Notification.play index _ => some index
      | _ => none) = none := by
    cases n with
    | play i a => exact absurd rfl (hn i a)
    | _ => rfl
  simp only [OrderInv, List.filterMap_append, List.filterMap_cons, List.filterMap_nil, hnone,
    List.append_nil]
  refine ⟨h1, fun k hk => Or.inl ?_⟩
  rcases h2 k hk with h3 | ⟨h3, _⟩ <;> omega

theorem orderInv_handle (s : AudioPlayQueue) (e : Event)
    (h : OrderInv s.log s.currentIndex s.isPlaying) (he : enabled s e = true) :
    OrderInv (handle s e).log (handle s e).currentIndex (handle s e).isPlaying := by
  cases e with
  | pushAudio index blob =>
    simp only [handle, pushAudio]
    split
    · exact h
    · cases blob with
      | none =>
        simp only [writeAudio_eq, writeDuration_eq, clearWaitTimer_eq]
        split
        · rename_i hc
          simp only [Bool.and_eq_true, Bool.not_eq_true', decide_eq_true_eq] at hc
          exact orderInv_playCurrent _ h hc.2
        · exact h
      | some b =>
        simp only [writeAudio_eq, clearWaitTimer_eq]
        split
        · rename_i hc
          simp only [Bool.and_eq_true, Bool.not_eq_true', decide_eq_true_eq] at hc
          exact orderInv_playCurrent _ h hc.2
        · exact h
  | playCurrent =>
    simp only [enabled, Bool.not_eq_true'] at he
    exact orderInv_playCurrent s h he
  | loadedMetadata a d =>
    simp only [handle, onLoadedMetadata, writeDuration_eq]
    exact h
  | audioError a =>
    simp only [handle, onAudioError, writeAudio_eq, writeDuration_eq, revoke]
    split
    · rename_i hc
      simp only [Bool.and_eq_true, Bool.not_eq_true', decide_eq_true_eq] at hc
      exact orderInv_playCurrent _ h hc.2
    · exact h
  | ended a =>
    simp only [handle, onEnded, revoke]
    apply orderInv_playCurrent _ _ rfl
    exact orderInv_advance h _ (by intro i a hc; cases hc)
  | playResolved a =>
    simp only [handle, onPlayStarted]
    obtain ⟨h1, h2⟩ := h
    simp only [OrderInv, List.filterMap_append, List.filterMap_cons, List.filterMap_nil,
      List.append_nil]
    exact ⟨h1, h2⟩
  | playRejected a =>
    simp only [handle, onEnded, revoke]
    apply orderInv_playCurrent _ _ rfl
    exact orderInv_advance h _ (by intro i a hc; cases hc)
  | waitTimerExpired =>
    simp only [handle, onWaitTimeout, writeAudio_eq, writeDuration_eq]
    apply orderInv_playCurrent _ _ rfl
    obtain ⟨h1, h2⟩ := h
    refine ⟨h1, fun k hk => Or.inl ?_⟩
    rcases h2 k hk with h3 | ⟨h3, _⟩
    · exact Nat.lt_succ_of_lt h3
    · rw [h3]; exact Nat.lt_succ_self _

theorem orderInv_run (events : List Event) :
    ∀ s : AudioPlayQueue, OrderInv s.log s.currentIndex s.isPlaying →
      OrderInv (run s events).log (run s events).currentIndex (run s events).isPlaying := by
  induction events with
  | nil => intro s h; exact h
  | cons e es ih =>
    intro s h
    apply ih
    unfold step
    split
    · rename_i he
      exact orderInv_handle s e h he
    · exact h

theorem cell_of_audioAt_undefined (s : AudioPlayQueue) (i : Nat)
    (h : audioAt s i = JSVal.undefined) : s.audios.cell i = none := by
  unfold audioAt at h
  cases hc : s.audios.cell i with
  | none => rfl
  | some v =>
    rw [hc] at h
    cases v <;> cases h

theorem waitInv_playCurrent (s : AudioPlayQueue) (hp : s.isPlaying = false) :
    WaitInv (playCurrent s) := by
  obtain ⟨j, _, _, hcase⟩ := playCurrent_spec s
  rcases hcase with ⟨_, _, h3⟩ | ⟨_, h2, h3⟩ | ⟨a, _, _, h3⟩
  · rw [h3]; intro h; cases h
  · rw [h3]
    intro _
    exact ⟨hp, cell_of_audioAt_undefined s j h2⟩
  · rw [h3]; intro h; cases h

theorem waitInv_write (s : AudioPlayQueue) (h : WaitInv s) (s' : AudioPlayQueue)
    (index : Int) (v : Stored)
    (hne : ¬ (index = (s.currentIndex : Int) ∧ s.isPlaying = false))
    (ha : s'.audios = if 0 ≤ index then s.audios.set index.toNat v else s.audios)
    (ht : s'.waitTimer = s.waitTimer) (hc : s'.currentIndex = s.currentIndex)
    (hp : s'.isPlaying = s.isPlaying) : WaitInv s' := by
  intro hs
  rw [ht] at hs
  obtain ⟨h1, h2⟩ := h hs
  rw [hp, hc, ha]
  refine ⟨h1, ?_⟩
  split
  · rename_i h0
    rw [JSArray.cell_set_of_ne]
    · exact h2
    · intro heq
      apply hne
      refine ⟨?_, h1⟩
      rw [heq]
      exact (Int.toNat_of_nonneg h0).symm
  · exact h2

theorem waitInv_handle (s : AudioPlayQueue) (e : Event) (h : WaitInv s)
    (he : enabled s e = true) : WaitInv (handle s e) := by
  cases e with
  | pushAudio index blob =>
    simp only [handle, pushAudio]
    split
    · exact h
    · cases blob with
      | none =>
        simp only [writeAudio_eq, writeDuration_eq, clearWaitTimer_eq]
        split
        · rename_i hc
          simp only [Bool.and_eq_true, Bool.not_eq_true', decide_eq_true_eq] at hc
          exact waitInv_playCurrent _ hc.2
        · rename_i hc
          simp only [Bool.and_eq_true, Bool.not_eq_true', decide_eq_true_eq] at hc
          exact waitInv_write s h _ index Stored.null hc rfl rfl rfl rfl
      | some b =>
        simp only [writeAudio_eq, clearWaitTimer_eq]
        split
        · rename_i hc
          simp only [Bool.and_eq_true, Bool.not_eq_true', decide_eq_true_eq] at hc
          exact waitInv_playCurrent _ hc.2
        · rename_i hc
          simp only [Bool.and_eq_true, Bool.not_eq_true', decide_eq_true_eq] at hc
          exact waitInv_write s h _ index _ hc rfl rfl rfl rfl
  | playCurrent =>
    simp only [enabled, Bool.not_eq_true'] at he
    exact waitInv_playCurrent s he
  | loadedMetadata a d =>
    simp only [handle, onLoadedMetadata, writeDuration_eq]
    exact h
  | audioError a =>
    simp only [handle, onAudioError, writeAudio_eq, writeDuration_eq, revoke]
    split
    · rename_i hc
      simp only [Bool.and_eq_true, Bool.not_eq_true', decide_eq_true_eq] at hc
      exact waitInv_playCurrent _ hc.2
    · rename_i hc
      simp only [Bool.and_eq_true, Bool.not_eq_true', decide_eq_true_eq] at hc
      exact waitInv_write s h _ a.index Stored.null hc rfl rfl rfl rfl
  | ended a =>
    simp only [handle, onEnded, revoke]
    exact waitInv_playCurrent _ rfl
  | playResolved a =>
    simp only [handle, onPlayStarted]
    exact h
  | playRejected a =>
    simp only [handle, onEnded, revoke]
    exact waitInv_playCurrent _ rfl
  | waitTimerExpired =>
    simp only [handle, onWaitTimeout, writeAudio_eq, writeDuration_eq]
    exact waitInv_playCurrent _ rfl

theorem waitInv_run (events : List Event) :
    ∀ s : AudioPlayQueue, WaitInv s → WaitInv (run s events) := by
  induction events with
  | nil => intro s h; exact h
  | cons e es ih =>
    intro s h
    apply ih
    unfold step
    split
    · rename_i he
      exact waitInv_handle s e h he
    · exact h

theorem filter_range_skip (F : Nat → Bool) (c : Nat) :
    ∀ j, c ≤ j → (∀ i, c ≤ i → i < j → F i = true) →
      (List.range j).filter (fun i => !F i) = (List.range c).filter (fun i => !F i) := by
  intro j hj
  induction j, hj using Nat.le_induction with
  | base => intro _; rfl
  | succ j hcj ih =>
    intro h
    rw [List.range_succ, List.filter_append, ih (fun i h1 h2 => h i h1 (by omega))]
    simp [h j hcj (by omega)]

theorem milestonesOf_append (l₁ l₂ : List Notification) :
    milestonesOf (l₁ ++ l₂) = milestonesOf l₁ ++ milestonesOf l₂ := by
  unfold milestonesOf
  exact List.filterMap_append _ _ _

/-- `playCurrent` on a resting state of a session that has not finished. -/
theorem sessionInv_playCurrent (N : Nat) (F : Nat → Bool) (pushed : List Nat)
    (s : AudioPlayQueue)
    (hlen : s.audios.length = N)
    (hunset : ∀ i, i ∉ pushed → s.audios.cell i = none)
    (hfailed : ∀ i, i ∈ pushed → F i = true → s.audios.cell i = some Stored.null)
    (hready : ∀ i, i ∈ pushed → F i = false → ∃ a, s.audios.cell i = some (Stored.audio a))
    (hcur : s.currentIndex ≤ N) (hp : s.isPlaying = false)
    (hso : s.sounding = []) (hpp : s.playPending = [])
    (hm : milestonesOf s.log = ((List.range s.currentIndex).filter (fun i => !F i)).map some) :
    SessionInv N F pushed (playCurrent s) := by
  have hF_of_null : ∀ i, audioAt s i = JSVal.null → F i = true := by
    intro i hi
    by_contra hF
    have hF' : F i = false := by simpa using hF
    unfold audioAt at hi
    by_cases hmem : i ∈ pushed
    · obtain ⟨a, ha⟩ := hready i hmem hF'
      rw [ha] at hi; cases hi
    · rw [hunset i hmem] at hi; cases hi
  have hnotF_of_audio : ∀ i a, audioAt s i = JSVal.audio a →
      F i = false ∧ s.audios.cell i = some (Stored.audio a) := by
    intro i a hi
    unfold audioAt at hi
    by_cases hmem : i ∈ pushed
    · cases hF : F i with
      | true => rw [hfailed i hmem hF] at hi; cases hi
      | false =>
        obtain ⟨b, hb⟩ := hready i hmem hF
        rw [hb] at hi
        simp only [Stored.toJSVal, JSVal.audio.injEq] at hi
        rw [hi] at hb
        exact ⟨rfl, hb⟩
    · rw [hunset i hmem] at hi; cases hi
  obtain ⟨j, hj, hskip, hcase⟩ := playCurrent_spec s
  have hrange := filter_range_skip F s.currentIndex j hj
    (fun i h1 h2 => hF_of_null i (hskip i h1 h2))
  rcases hcase with ⟨h1, h2, h3⟩ | ⟨h1, h2, h3⟩ | ⟨a, h1, h2, h3⟩
  · have hjN : j = N := by omega
    rw [h3]
    refine ⟨hlen, hunset, hfailed, hready, by simp only []; omega, ?_, ?_, ?_⟩
    · intro h; simp only [] at h; rw [hp] at h; cases h
    · intro _; exact ⟨hso, hpp, fun h => by simp only [] at h; omega⟩
    · simp only [hp, milestonesOf_append, hm, hjN, if_true, Bool.false_eq_true, if_false,
        Nat.add_zero]
      rw [← hjN, hrange]
      rfl
  · have hjN : j ≠ N := by omega
    rw [h3]
    refine ⟨hlen, hunset, hfailed, hready, by simp only []; omega, ?_, ?_, ?_⟩
    · intro h; simp only [] at h; rw [hp] at h; cases h
    · intro _; exact ⟨hso, hpp, fun _ => cell_of_audioAt_undefined s j h2⟩
    · simp only [hp, hm, hjN, if_false, Bool.false_eq_true, Nat.add_zero, List.append_nil]
      rw [hrange]
  · have hjN : j ≠ N := by omega
    obtain ⟨hFj, hcell⟩ := hnotF_of_audio j a h2
    rw [h3]
    refine ⟨hlen, hunset, hfailed, hready, by simp only []; omega, ?_, ?_, ?_⟩
    · intro _
      refine ⟨by simp only []; omega, a, hcell, ?_, ?_⟩
      · intro b hb
        simp only [hso, List.filter_nil, List.nil_append, List.mem_singleton] at hb
        exact hb
      · intro b hb
        simp only [hpp, List.filter_nil, List.nil_append, List.mem_singleton] at hb
        exact hb
    · intro h; cases h
    · simp only [milestonesOf_append, hm, hjN, if_false, if_true, List.append_nil]
      rw [List.range_succ, List.filter_append, hrange]
      simp [milestonesOf, hFj]

theorem sessionInv_pushAudio (N : Nat) (F : Nat → Bool) (pushed : List Nat)
    (s : AudioPlayQueue) (h : SessionInv N F pushed s) (i : Nat) (blob : Option Blob)
    (hi : i < N) (hfresh : i ∉ pushed) (hblob : blob.isNone = F i) :
    SessionInv N F (i :: pushed) (pushAudio s (i : Int) blob) := by
  have hrange : ¬ ((i : Int) ≥ (s.audios.length : Int)) := by
    rw [h.len]; omega
  have hiu : s.audios.cell i = none := h.unset i hfresh
  -- the slot facts after the write
  have hslots : ∀ v : Stored, (F i = true → v = Stored.null) →
      (F i = false → ∃ a, v = Stored.audio a) →
      (∀ k, k ∉ i :: pushed → (s.audios.set i v).cell k = none) ∧
      (∀ k, k ∈ i :: pushed → F k = true → (s.audios.set i v).cell k = some Stored.null) ∧
      (∀ k, k ∈ i :: pushed → F k = false →
        ∃ a, (s.audios.set i v).cell k = some (Stored.audio a)) := by
    intro v hv1 hv2
    refine ⟨?_, ?_, ?_⟩
    · intro k hk
      simp only [List.mem_cons, not_or] at hk
      rw [JSArray.cell_set_of_ne _ _ _ _ hk.1]
      exact h.unset k hk.2
    · intro k hk hF
      by_cases hki : k = i
      · subst hki
        rw [JSArray.cell_set_self, hv1 hF]
      · rw [JSArray.cell_set_of_ne _ _ _ _ hki]
        simp only [List.mem_cons] at hk
        exact h.failed k (hk.resolve_left hki) hF
    · intro k hk hF
      by_cases hki : k = i
      · subst hki
        obtain ⟨a, ha⟩ := hv2 hF
        exact ⟨a, by rw [JSArray.cell_set_self, ha]⟩
      · rw [JSArray.cell_set_of_ne _ _ _ _ hki]
        simp only [List.mem_cons] at hk
        exact h.ready k (hk.resolve_left hki) hF
  have hlen : ∀ v : Stored, (s.audios.set i v).length = N := by
    intro v
    rw [JSArray.length_set_of_lt _ _ _ (by rw [h.len]; exact hi)]
    exact h.len
  -- the invariant when the write is all that happens
  have hstay : ∀ (s' : AudioPlayQueue) (v : Stored), (F i = true → v = Stored.null) →
      (F i = false → ∃ a, v = Stored.audio a) →
      s'.audios = s.audios.set i v → s'.currentIndex = s.currentIndex →
      s'.isPlaying = s.isPlaying → s'.sounding = s.sounding →
      s'.playPending = s.playPending → s'.log = s.log →
      ¬ (i = s.currentIndex ∧ s.isPlaying = false) → SessionInv N F (i :: pushed) s' := by
    intro s' v hv1 hv2 ha hc hp hso hpp hlog hne
    obtain ⟨g1, g2, g3⟩ := hslots v hv1 hv2
    have hcurne : s.currentIndex ≠ i := by
      intro heq
      cases hpl : s.isPlaying with
      | false => exact hne ⟨heq.symm, hpl⟩
      | true =>
        obtain ⟨_, a, hcell, _⟩ := h.playing hpl
        rw [heq, hiu] at hcell
        cases hcell
    refine ⟨by rw [ha]; exact hlen v, by rw [ha]; exact g1, by rw [ha]; exact g2,
      by rw [ha]; exact g3, by rw [hc]; exact h.cur_le, ?_, ?_, ?_⟩
    · rw [hp, hc, ha, hso, hpp, JSArray.cell_set_of_ne _ _ _ _ hcurne]
      exact h.playing
    · rw [hp, hc, ha, hso, hpp, JSArray.cell_set_of_ne _ _ _ _ hcurne]
      exact h.resting
    · rw [hlog, hc, hp]
      exact h.marks
  -- the invariant when the write triggers `playCurrent`
  have hgo : ∀ (s' : AudioPlayQueue) (v : Stored), (F i = true → v = Stored.null) →
      (F i = false → ∃ a, v = Stored.audio a) →
      s'.audios = s.audios.set i v → s'.currentIndex = s.currentIndex →
      s'.isPlaying = s.isPlaying → s'.sounding = s.sounding →
      s'.playPending = s.playPending → s'.log = s.log →
      (i = s.currentIndex ∧ s.isPlaying = false) →
      SessionInv N F (i :: pushed) (playCurrent s') := by
    intro s' v hv1 hv2 ha hc hp hso hpp hlog hcond
    obtain ⟨g1, g2, g3⟩ := hslots v hv1 hv2
    obtain ⟨r1, r2, _⟩ := h.resting hcond.2
    have hm := h.marks
    have hcN : s.currentIndex ≠ N := by omega
    simp only [hcond.2, hcN, if_false, Bool.false_eq_true, Nat.add_zero, List.append_nil] at hm
    apply sessionInv_playCurrent N F (i :: pushed) s'
    · rw [ha]; exact hlen v
    · rw [ha]; exact g1
    · rw [ha]; exact g2
    · rw [ha]; exact g3
    · rw [hc]; exact h.cur_le
    · rw [hp]; exact hcond.2
    · rw [hso]; exact r1
    · rw [hpp]; exact r2
    · rw [hlog, hc]; exact hm
  unfold pushAudio
  rw [if_neg hrange]
  cases blob with
  | none =>
    have hF : F i = true := by simpa using hblob.symm
    have hv2 : F i = false → ∃ a, Stored.null = Stored.audio a := by
      intro hf; rw [hF] at hf; cases hf
    simp only [writeAudio_eq, writeDuration_eq, clearWaitTimer_eq, Int.natCast_nonneg,
      if_true, Int.toNat_ofNat]
    split
    · rename_i hc
      simp only [Bool.and_eq_true, Bool.not_eq_true', decide_eq_true_eq, Nat.cast_inj] at hc
      exact hgo _ Stored.null (fun _ => rfl) hv2 rfl rfl rfl rfl rfl rfl hc
    · rename_i hc
      simp only [Bool.and_eq_true, Bool.not_eq_true', decide_eq_true_eq, Nat.cast_inj] at hc
      exact hstay _ Stored.null (fun _ => rfl) hv2 rfl rfl rfl rfl rfl rfl hc
  | some b =>
    have hF : F i = false := by simpa using hblob.symm
    have hv1 : ∀ a : Audio, F i = true → Stored.audio a = Stored.null := by
      intro a hf; rw [hF] at hf; cases hf
    simp only [writeAudio_eq, clearWaitTimer_eq, Int.natCast_nonneg, if_true, Int.toNat_ofNat]
    split
    · rename_i hc
      simp only [Bool.and_eq_true, Bool.not_eq_true', decide_eq_true_eq, Nat.cast_inj] at hc
      exact hgo _ _ (hv1 _) (fun _ => ⟨_, rfl⟩) rfl rfl rfl rfl rfl rfl hc
    · rename_i hc
      simp only [Bool.and_eq_true, Bool.not_eq_true', decide_eq_true_eq, Nat.cast_inj] at hc
      exact hstay _ _ (hv1 _) (fun _ => ⟨_, rfl⟩) rfl rfl rfl rfl rfl rfl hc

theorem filter_ne_eq_nil {a : Audio} {l : List Audio} (h : ∀ b ∈ l, b = a) :
    l.filter (fun b => decide (b ≠ a)) = [] := by
  rw [List.filter_eq_nil_iff]
  intro b hb
  simp [h b hb]

/-- The handler of `ended` and of a rejected `play()`, on a playing state
whose element is no longer sounding nor pending. -/
theorem sessionInv_onEnded (N : Nat) (F : Nat → Bool) (pushed : List Nat)
    (s s' : AudioPlayQueue) (h : SessionInv N F pushed s) (a : Audio)
    (hpl : s.isPlaying = true)
    (ha : s'.audios = s.audios) (hc : s'.currentIndex = s.currentIndex)
    (hlog : s'.log = s.log) (hso : s'.sounding = []) (hpp : s'.playPending = []) :
    SessionInv N F pushed (onEnded s' a) := by
  obtain ⟨hlt, b, hcell, _, _⟩ := h.playing hpl
  have hm := h.marks
  have hcN : s.currentIndex ≠ N := by omega
  simp only [hpl, hcN, if_true, if_false, List.append_nil] at hm
  simp only [onEnded, revoke]
  apply sessionInv_playCurrent N F pushed
  · simp only []; rw [ha]; exact h.len
  · simp only []; rw [ha]; exact h.unset
  · simp only []; rw [ha]; exact h.failed
  · simp only []; rw [ha]; exact h.ready
  · simp only []; rw [hc]; omega
  · rfl
  · exact hso
  · exact hpp
  · simp only [milestonesOf_append, hlog, hc, hm]
    simp [milestonesOf]

theorem sessionInv_step (N : Nat) (F : Nat → Bool) (pushed : List Nat)
    (s : AudioPlayQueue) (h : SessionInv N F pushed s) (e : Event)
    (he : e.inSession F = true) (hnp : e.pushedIndex = none) :
    SessionInv N F pushed (step s e) := by
  unfold step
  split
  case isFalse => exact h
  case isTrue hen =>
    cases e with
    | pushAudio index blob => simp [Event.pushedIndex] at hnp
    | playCurrent => simp [Event.inSession] at he
    | audioError a => simp [Event.inSession] at he
    | waitTimerExpired => simp [Event.inSession] at he
    | loadedMetadata a d =>
      simp only [handle, onLoadedMetadata, writeDuration_eq]
      exact ⟨h.len, h.unset, h.failed, h.ready, h.cur_le, h.playing, h.resting, h.marks⟩
    | ended a =>
      simp only [enabled, Bool.and_eq_true, decide_eq_true_eq, Bool.not_eq_true',
        decide_eq_false_iff_not] at hen
      have hpl : s.isPlaying = true := by
        cases hp : s.isPlaying with
        | true => rfl
        | false =>
          have := (h.resting hp).1
          rw [this] at hen
          simp at hen
      obtain ⟨_, b, _, hs1, hs2⟩ := h.playing hpl
      have hab : a = b := hs1 a hen.1
      subst hab
      simp only [handle]
      refine sessionInv_onEnded N F pushed s _ h a hpl ?_ ?_ ?_ ?_ ?_
      · rfl
      · rfl
      · rfl
      · exact filter_ne_eq_nil hs1
      · simp only []
        cases hpp : s.playPending with
        | nil => rfl
        | cons c cs =>
          exfalso
          apply hen.2
          have hc : c = a := hs2 c (by rw [hpp]; exact List.mem_cons_self _ _)
          rw [hpp, hc]
          exact List.mem_cons_self _ _
    | playRejected a =>
      simp only [enabled, decide_eq_true_eq] at hen
      have hpl : s.isPlaying = true := by
        cases hp : s.isPlaying with
        | true => rfl
        | false =>
          have := (h.resting hp).2.1
          rw [this] at hen
          simp at hen
      obtain ⟨_, b, _, hs1, hs2⟩ := h.playing hpl
      have hab : a = b := hs2 a hen
      subst hab
      simp only [handle]
      refine sessionInv_onEnded N F pushed s _ h a hpl ?_ ?_ ?_ ?_ ?_
      · rfl
      · rfl
      · rfl
      · exact filter_ne_eq_nil hs1
      · exact filter_ne_eq_nil hs2
    | playResolved a =>
      simp only [handle, onPlayStarted]
      refine ⟨h.len, h.unset, h.failed, h.ready, h.cur_le, ?_, ?_, ?_⟩
      · intro hpl
        obtain ⟨h1, b, h2, h3, h4⟩ := h.playing hpl
        exact ⟨h1, b, h2, h3, fun c hc => h4 c (List.mem_of_mem_filter hc)⟩
      · intro hp
        obtain ⟨h1, h2, h3⟩ := h.resting hp
        refine ⟨h1, ?_, h3⟩
        simp only []
        rw [h2]; rfl
      · simp only [milestonesOf_append]
        rw [h.marks]
        simp [milestonesOf]

theorem sessionInv_run (N : Nat) (F : Nat → Bool) (events : List Event) :
    ∀ (pushed : List Nat) (s : AudioPlayQueue), SessionInv N F pushed s →
      (∀ e ∈ events, e.inSession F = true) →
      (pushedIndices events).Nodup →
      (∀ i ∈ pushedIndices events, 0 ≤ i ∧ i < (N : Int) ∧ i.toNat ∉ pushed) →
      ∃ pushed', (∀ k ∈ pushed, k ∈ pushed') ∧
        (∀ i ∈ pushedIndices events, i.toNat ∈ pushed') ∧
        SessionInv N F pushed' (run s events) := by
  induction events with
  | nil =>
    intro pushed s h _ _ _
    exact ⟨pushed, fun _ hk => hk, by simp [pushedIndices], h⟩
  | cons e es ih =>
    intro pushed s h hin hnd hfresh
    have hin' : ∀ e' ∈ es, e'.inSession F = true :=
      fun e' he' => hin e' (List.mem_cons_of_mem _ he')
    cases hpi : e.pushedIndex with
    | none =>
      have hpe : pushedIndices (e :: es) = pushedIndices es := by
        simp [pushedIndices, List.filterMap_cons, hpi]
      rw [hpe] at hnd hfresh
      have h1 := sessionInv_step N F pushed s h e (hin e (List.mem_cons_self _ _)) hpi
      obtain ⟨p', hk', hp', hinv⟩ := ih pushed (step s e) h1 hin' hnd hfresh
      exact ⟨p', hk', by rw [hpe]; exact hp', hinv⟩
    | some idx =>
      have hpe : pushedIndices (e :: es) = idx :: pushedIndices es := by
        simp [pushedIndices, List.filterMap_cons, hpi]
      rw [hpe] at hnd hfresh
      obtain ⟨h0, hN, hnot⟩ := hfresh idx (List.mem_cons_self _ _)
      cases e with
      | pushAudio index blob =>
        simp only [Event.pushedIndex, Option.some.injEq] at hpi
        subst hpi
        have hse := hin _ (List.mem_cons_self _ _)
        simp only [Event.inSession, beq_iff_eq] at hse
        have hcast : ((index.toNat : Nat) : Int) = index := Int.toNat_of_nonneg h0
        have h1 : SessionInv N F (index.toNat :: pushed)
            (step s (Event.pushAudio index blob)) := by
          have := sessionInv_pushAudio N F pushed s h index.toNat blob (by omega) hnot hse
          rw [hcast] at this
          simpa [step, enabled, handle] using this
        obtain ⟨p', hk', hp', hinv⟩ := ih (index.toNat :: pushed) _ h1 hin'
          (List.nodup_cons.mp hnd).2 (by
            intro i hi
            obtain ⟨g0, gN, gnot⟩ := hfresh i (List.mem_cons_of_mem _ hi)
            refine ⟨g0, gN, ?_⟩
            simp only [List.mem_cons, not_or]
            refine ⟨?_, gnot⟩
            intro heq
            have hii : i = index := by
              rw [← Int.toNat_of_nonneg g0, ← Int.toNat_of_nonneg h0, heq]
            rw [hii] at hi
            exact (List.nodup_cons.mp hnd).1 hi)
        refine ⟨p', fun k hk => hk' k (List.mem_cons_of_mem _ hk), ?_, hinv⟩
        intro i hi
        rw [hpe] at hi
        rcases List.mem_cons.mp hi with hi | hi
        · rw [hi]; exact hk' _ (List.mem_cons_self _ _)
        · exact hp' i hi
      | _ => simp [Event.pushedIndex] at hpi

theorem sessionInv_start (N : Nat) (F : Nat → Bool) :
    SessionInv N F [] (playCurrent (new N)) := by
  apply sessionInv_playCurrent N F [] (new N)
  · simp [new, JSArray.new]
  · intro i _
    simp [new, JSArray.new, JSArray.cell, List.getElem?_replicate]
  · intro i hi; simp at hi
  · intro i hi; simp at hi
  · exact Nat.zero_le _
  · rfl
  · rfl
  · rfl
  · rfl

theorem played_eq_of_milestones (log : List Notification) :
    log.filterMap (fun n => match n with
      | Notification.play index _ => some index
      | _ => none) = (milestonesOf log).filterMap id := by
  induction log with
  | nil => rfl
  | cons n l ih =>
    cases n <;> simp [milestonesOf, List.filterMap_cons] at ih ⊢ <;> exact ih

theorem finishCount_eq_of_milestones (log : List Notification) :
    log.count Notification.finish = (milestonesOf log).count none := by
  induction log with
  | nil => rfl
  | cons n l ih =>
    cases n <;> simp [milestonesOf, List.filterMap_cons, List.count_cons] at ih ⊢ <;> exact ih

end AudioPlayQueue

/-! ## Formatting -/

theorem bitLengthFrom_spec (m : Nat) :
    ∀ fuel k : Nat, m < 2 ^ (k + fuel) → (∀ j, j < k → 2 ^ j ≤ m) →
      m < 2 ^ bitLengthFrom m fuel k ∧ ∀ j, j < bitLengthFrom m fuel k → 2 ^ j ≤ m := by
  intro fuel
  induction fuel with
  | zero =>
    intro k h1 h2
    exact ⟨h1, h2⟩
  | succ fuel ih =>
    intro k h1 h2
    unfold bitLengthFrom
    by_cases hk : m < 2 ^ k
    · rw [if_pos hk]
      exact ⟨hk, h2⟩
    · rw [if_neg hk]
      apply ih
      · rw [show k + 1 + fuel = k + (fuel + 1) by omega]
        exact h1
      · intro j hj
        by_cases hjk : j < k
        · exact h2 j hjk
        · have : j = k := by omega
          rw [this]
          omega

theorem bitLength_spec (m : Nat) :
    m < 2 ^ bitLength m ∧ ∀ j, j < bitLength m → 2 ^ j ≤ m := by
  apply bitLengthFrom_spec
  · rw [Nat.zero_add]
    exact Nat.lt_two_pow m
  · intro j hj
    omega

theorem roundToDouble_of_lt (m : Nat) (h : m < 2 ^ 53) : roundToDouble m = m := by
  unfold roundToDouble
  rw [if_pos h]

theorem le_roundToDouble (m : Nat) (h : 2 ^ 53 ≤ m) : 2 ^ 53 ≤ roundToDouble m := by
  obtain ⟨h1, h2⟩ := bitLength_spec m
  have hb : 53 < bitLength m := by
    by_contra hle
    have : 2 ^ bitLength m ≤ 2 ^ 53 := Nat.pow_le_pow_right (by norm_num) (by omega)
    omega
  have he : 2 ^ (52 + (bitLength m - 53)) ≤ m := h2 _ (by omega)
  have hpos : 0 < 2 ^ (bitLength m - 53) := by positivity
  have hq : 2 ^ 52 ≤ m / 2 ^ (bitLength m - 53) := by
    rw [Nat.le_div_iff_mul_le hpos, ← Nat.pow_add]
    exact he
  have h2e : 2 ≤ 2 ^ (bitLength m - 53) := by
    calc 2 = 2 ^ 1 := rfl
      _ ≤ 2 ^ (bitLength m - 53) := Nat.pow_le_pow_right (by norm_num) (by omega)
  have hbase : 2 ^ 53 ≤ m / 2 ^ (bitLength m - 53) * 2 ^ (bitLength m - 53) := by
    calc 2 ^ 53 = 2 ^ 52 * 2 := by norm_num
      _ ≤ m / 2 ^ (bitLength m - 53) * 2 ^ (bitLength m - 53) := Nat.mul_le_mul hq h2e
  have hup : m / 2 ^ (bitLength m - 53) * 2 ^ (bitLength m - 53)
      ≤ (m / 2 ^ (bitLength m - 53) + 1) * 2 ^ (bitLength m - 53) :=
    Nat.mul_le_mul_right _ (Nat.le_succ _)
  unfold roundToDouble
  rw [if_neg (by omega)]
  simp only []
  split
  · exact hbase
  · split
    · split
      · exact hbase
      · exact le_trans hbase hup
    · exact le_trans hbase hup

theorem eq_of_roundToDouble_eq (x c : Nat) (hx : x < 2 ^ 53) (h : roundToDouble c = x) :
    c = x := by
  by_cases hc : c < 2 ^ 53
  · rw [roundToDouble_of_lt c hc] at h
    exact h
  · have := le_roundToDouble c (by omega)
    omega

theorem shortestCandidate_of_lt (x p c : Nat) (hx : x < 2 ^ 53)
    (h : shortestCandidate x p = some c) : c = x := by
  unfold shortestCandidate at h
  simp only [] at h
  by_cases hlo : roundToDouble (x / 10 ^ p * 10 ^ p) = x
  · have e1 := eq_of_roundToDouble_eq x _ hx hlo
    by_cases hhi : roundToDouble (x / 10 ^ p * 10 ^ p + 10 ^ p) = x
    · have e2 := eq_of_roundToDouble_eq x _ hx hhi
      have : 0 < 10 ^ p := by positivity
      omega
    · simp only [hlo, hhi, decide_True, decide_False, Bool.and_false, Bool.false_eq_true,
        if_false, if_true, Option.some.injEq] at h
      rw [← h]
      exact e1
  · by_cases hhi : roundToDouble (x / 10 ^ p * 10 ^ p + 10 ^ p) = x
    · have e2 := eq_of_roundToDouble_eq x _ hx hhi
      simp only [hlo, hhi, decide_True, decide_False, Bool.false_and, Bool.false_eq_true,
        if_false, if_true, Option.some.injEq] at h
      rw [← h]
      exact e2
    · simp [hlo, hhi] at h

theorem shortestFrom_of_lt (x : Nat) (hx : x < 2 ^ 53) :
    ∀ fuel p : Nat, shortestFrom x fuel p x = x := by
  intro fuel
  induction fuel with
  | zero => intro p; rfl
  | succ fuel ih =>
    intro p
    unfold shortestFrom
    cases hc : shortestCandidate x p with
    | none => rfl
    | some c =>
      simp only []
      rw [shortestCandidate_of_lt x p c hx hc]
      exact ih (p + 1)

theorem numberToString_of_lt (v : Int) (h : v.natAbs < 2 ^ 53) :
    numberToString v = (if 0 ≤ v then "" else "-") ++ (Nat.toDigits 10 v.natAbs).asString := by
  unfold numberToString
  simp only []
  rw [roundToDouble_of_lt _ h]
  by_cases h0 : v.natAbs = 0
  · rw [if_pos h0]
    have hv : v = 0 := Int.natAbs_eq_zero.mp h0
    rw [hv]
    rfl
  · rw [if_neg h0]
    have hb : ¬ 1024 < bitLength v.natAbs := by
      intro hlt
      have := (bitLength_spec v.natAbs).2 53 (by omega)
      omega
    rw [if_neg hb]
    have hd : numberDigits v.natAbs = (Nat.toDigits 10 v.natAbs).asString := by
      unfold numberDigits shortest
      simp only []
      rw [shortestFrom_of_lt _ h]
      rw [if_pos (by
        have : (2 : Nat) ^ 53 < 10 ^ 21 := by norm_num
        omega)]
    rw [hd]
    by_cases hs : 0 ≤ v
    · rw [if_pos hs, if_neg (by omega)]
    · rw [if_neg hs, if_pos (by omega)]

theorem half_lt_roundToDouble (m : Nat) (h : 2 ^ 53 ≤ m) : m < 2 * roundToDouble m := by
  obtain ⟨_, h2⟩ := bitLength_spec m
  have hb : 53 < bitLength m := by
    by_contra hle
    have : 2 ^ bitLength m ≤ 2 ^ 53 := Nat.pow_le_pow_right (by norm_num) (by omega)
    have := (bitLength_spec m).1
    omega
  have he : 2 ^ (52 + (bitLength m - 53)) ≤ m := h2 _ (by omega)
  have hpos : 0 < 2 ^ (bitLength m - 53) := by positivity
  have hq : 2 ^ 52 ≤ m / 2 ^ (bitLength m - 53) := by
    rw [Nat.le_div_iff_mul_le hpos, ← Nat.pow_add]
    exact he
  have hr : m % 2 ^ (bitLength m - 53) < 2 ^ (bitLength m - 53) := Nat.mod_lt _ hpos
  have hdm := Nat.div_add_mod m (2 ^ (bitLength m - 53))
  have hone : 2 ^ (bitLength m - 53)
      ≤ m / 2 ^ (bitLength m - 53) * 2 ^ (bitLength m - 53) :=
    Nat.le_mul_of_pos_left _ (by omega)
  have hcomm : 2 ^ (bitLength m - 53) * (m / 2 ^ (bitLength m - 53))
      = m / 2 ^ (bitLength m - 53) * 2 ^ (bitLength m - 53) := Nat.mul_comm _ _
  have hbase : m < 2 * (m / 2 ^ (bitLength m - 53) * 2 ^ (bitLength m - 53)) := by omega
  have hup : m / 2 ^ (bitLength m - 53) * 2 ^ (bitLength m - 53)
      ≤ (m / 2 ^ (bitLength m - 53) + 1) * 2 ^ (bitLength m - 53) :=
    Nat.mul_le_mul_right _ (Nat.le_succ _)
  unfold roundToDouble
  rw [if_neg (by omega)]
  simp only []
  split
  · exact hbase
  · split
    · split
      · exact hbase
      · omega
    · omega

/-- No power of ten from `10 ^ 310` on rounds to a finite double. -/
theorem shortestCandidate_none (x p : Nat) (h0 : 0 < x) (hx : x < 2 ^ 1024) (hp : 310 ≤ p) :
    shortestCandidate x p = none := by
  have hkey : 2 * 2 ^ 1024 < 10 ^ p :=
    calc 2 * 2 ^ 1024 < 10 ^ 310 := by norm_num
      _ ≤ 10 ^ p := Nat.pow_le_pow_right (by norm_num) hp
  have h53 : 2 ^ 53 ≤ 10 ^ p :=
    calc 2 ^ 53 ≤ 10 ^ 310 := by norm_num
      _ ≤ 10 ^ p := Nat.pow_le_pow_right (by norm_num) hp
  have hhalf := half_lt_roundToDouble (10 ^ p) h53
  have hdiv : x / 10 ^ p = 0 := by
    apply Nat.div_eq_of_lt
    generalize (2 : Nat) ^ 1024 = T at hx hkey
    omega
  have hlo : roundToDouble 0 ≠ x := by
    rw [roundToDouble_of_lt 0 (by positivity)]
    omega
  have hhi : roundToDouble (10 ^ p) ≠ x := by
    generalize (2 : Nat) ^ 1024 = T at hx hkey
    generalize roundToDouble (10 ^ p) = R at hhalf
    generalize (10 : Nat) ^ p = P at hhalf hkey
    omega
  unfold shortestCandidate
  simp only [hdiv, Nat.zero_mul, Nat.zero_add, hlo, hhi, decide_False, Bool.and_false,
    Bool.false_eq_true, if_false]

/-- The fuel of `shortest` is enough for every finite double. -/
theorem shortestFrom_stable (x : Nat) (h0 : 0 < x) (hx : x < 2 ^ 1024) :
    ∀ fuel p best k : Nat, 310 ≤ p + fuel →
      shortestFrom x (fuel + k) p best = shortestFrom x fuel p best := by
  intro fuel
  induction fuel with
  | zero =>
    intro p best k hp
    cases k with
    | zero => rfl
    | succ k =>
      rw [Nat.zero_add]
      unfold shortestFrom
      rw [shortestCandidate_none x p h0 hx (by omega)]
  | succ fuel ih =>
    intro p best k hp
    rw [show fuel + 1 + k = (fuel + k) + 1 by omega]
    unfold shortestFrom
    cases hc : shortestCandidate x p with
    | none => rfl
    | some c =>
      simp only []
      exact ih (p + 1) c k (by omega)

theorem shortest_stable (x k : Nat) (h0 : 0 < x) (hx : bitLength x ≤ 1024) :
    shortestFrom x (310 + k) 1 x = shortest x := by
  have h1 := (bitLength_spec x).1
  have h2 : ∀ b : Nat, bitLength x ≤ b → 2 ^ bitLength x ≤ 2 ^ b :=
    fun b hb => Nat.pow_le_pow_right (by norm_num) hb
  exact shortestFrom_stable x h0 (lt_of_lt_of_le h1 (h2 1024 hx)) 310 1 x k (by omega)

namespace SynthesisPipeline

theorem notify_not_cancelled (env : Env) (s : SynthesisPipeline) (index : Nat)
    (audio : Option Blob) (h : (notify env s index audio).1.cancelled = false) :
    (notify env s index audio).1.started = s.started ∧
      (notify env s index audio).1.queue = s.queue := by
  unfold notify at h ⊢
  by_cases hc : (!s.cancelled && s.onAudioReady) = true
  · rw [if_pos hc] at h ⊢
    by_cases hcan : (env.callback index audio).cancels = true
    · simp only [hcan, if_true, cancel] at h
      cases h
    · simp only [hcan]
      exact ⟨rfl, rfl⟩
  · rw [if_neg hc]
    exact ⟨rfl, rfl⟩

theorem cancelled_of_processQueueFuel (env : Env) (n : Nat) (s : SynthesisPipeline)
    (h : (processQueueFuel env n s).cancelled = false) : s.cancelled = false := by
  cases hc : s.cancelled with
  | false => rfl
  | true =>
    rw [cancelled_processQueueFuel env n s hc] at h
    rw [hc] at h
    cases h

theorem fifo_processQueueFuel (env : Env) (n : Nat) :
    ∀ s : SynthesisPipeline, (processQueueFuel env n s).cancelled = false →
      (processQueueFuel env n s).started ++ (processQueueFuel env n s).queue
        = s.started ++ s.queue := by
  induction n with
  | zero => intro s _; rfl
  | succ n ih =>
    intro s
    rw [processQueueFuel]
    split
    · intro _; rfl
    · split
      · split
        · intro _; rfl
        · rename_i task rest hq
          intro h
          rw [ih _ h]
          have hX := cancelled_of_processQueueFuel env n _ h
          rw [hq]
          unfold startTaskWith at hX ⊢
          simp only [] at hX ⊢
          split
          · rename_i hct
            simp only [hct, if_true] at hX
            split
            · rename_i hthrow
              simp only [hthrow, if_true] at hX
              obtain ⟨h1, h2⟩ := notify_not_cancelled env _ _ _ hX
              rw [h1, h2]
              simp
            · rename_i hthrow
              simp only [hthrow] at hX
              rw [ih _ hX]
              have hY := cancelled_of_processQueueFuel env n _ hX
              obtain ⟨h1, h2⟩ := notify_not_cancelled env _ _ _ hY
              rw [h1, h2]
              simp
          · simp
      · intro _; rfl

theorem fifo_settle (env : Env) (s : SynthesisPipeline) (tts : Nat) (task : Task)
    (result : Option Blob) (h : (settle env s tts task result).cancelled = false) :
    (settle env s tts task result).started ++ (settle env s tts task result).queue
      = s.started ++ s.queue := by
  unfold settle onTaskFinished processQueue at h ⊢
  rw [fifo_processQueueFuel env _ _ h]
  have hZ := cancelled_of_processQueueFuel env _ _ h
  simp only [] at hZ ⊢
  cases result with
  | none =>
    simp only [if_true] at hZ ⊢
    obtain ⟨h1, h2⟩ := notify_not_cancelled env _ _ _ hZ
    rw [h1, h2]
  | some audio =>
    simp only [] at hZ ⊢
    by_cases hthrow : (notify env { s with inFlight := s.inFlight.filter (fun p => p.1 ≠ tts) }
        task.index (some audio)).2 = true
    · rw [if_pos hthrow] at hZ ⊢
      obtain ⟨h1, h2⟩ := notify_not_cancelled env _ _ _ hZ
      rw [h1, h2]
      have hW : (notify env { s with inFlight := s.inFlight.filter (fun p => p.1 ≠ tts) }
          task.index (some audio)).1.cancelled = false := by
        cases hc : (notify env { s with inFlight := s.inFlight.filter (fun p => p.1 ≠ tts) }
          task.index (some audio)).1.cancelled with
        | false => rfl
        | true =>
          rw [notify_cancelled env _ _ _ hc] at hZ
          rw [hc] at hZ
          cases hZ
      obtain ⟨h3, h4⟩ := notify_not_cancelled env _ _ _ hW
      rw [h3, h4]
    · rw [if_neg hthrow] at hZ ⊢
      obtain ⟨h3, h4⟩ := notify_not_cancelled env _ _ _ hZ
      rw [h3, h4]

theorem fifo_step (s : SynthesisPipeline) (e : Event) (h : (step s e).cancelled = false) :
    (step s e).started ++ (step s e).queue
      = s.started ++ s.queue ++ (e.addedTask).toList := by
  cases e with
  | setOnAudioReady => simp [step, Event.addedTask]
  | addSentence task env =>
    simp only [step, addSentence, Event.addedTask, Option.toList] at h ⊢
    by_cases hc : s.cancelled = true
    · rw [if_pos hc] at h
      rw [hc] at h
      cases h
    · rw [if_neg hc] at h ⊢
      unfold processQueue at h ⊢
      rw [fifo_processQueueFuel env _ _ h]
      simp
  | settled tts result env =>
    simp only [step, Event.addedTask, Option.toList, List.append_nil] at h ⊢
    cases hfind : s.inFlight.find? (fun p => p.1 = tts) with
    | none => rfl
    | some p =>
      rw [hfind] at h
      exact fifo_settle env s tts p.2 _ h
  | cancel =>
    simp [step, cancel] at h

theorem fifo_run (events : List Event) :
    ∀ s : SynthesisPipeline, (run s events).cancelled = false →
      (run s events).started ++ (run s events).queue
        = s.started ++ s.queue ++ addedTasks events := by
  induction events with
  | nil => intro s _; simp [run, addedTasks]
  | cons e es ih =>
    intro s h
    have h1 : (step s e).cancelled = false := by
      cases hc : (step s e).cancelled with
      | false => rfl
      | true =>
        have := (cancelled_run es (step s e) hc).1
        simp only [run, List.foldl_cons] at h
        simp only [run] at this
        rw [this] at h; cases h
    have h2 := ih (step s e) h
    simp only [run, List.foldl_cons] at h2 ⊢
    rw [h2, fifo_step s e h1]
    cases ha : e.addedTask <;> simp [addedTasks, List.filterMap_cons, ha]

end SynthesisPipeline

/-! ## Trimming and splitting -/

theorem dropWhile_trim (s : JSString) : (trim s).dropWhile isWhiteSpace = trim s := by
  unfold trim
  obtain ⟨t, ht⟩ := List.rdropWhile_prefix isWhiteSpace (s.dropWhile isWhiteSpace)
  cases hl : (s.dropWhile isWhiteSpace).rdropWhile isWhiteSpace with
  | nil => rfl
  | cons x xs =>
    rw [hl] at ht
    have hx := List.head?_dropWhile_not isWhiteSpace s
    rw [← ht] at hx
    simp only [List.cons_append, List.head?_cons] at hx
    rw [List.dropWhile_cons_of_neg (by rw [hx]; exact Bool.false_ne_true)]

theorem trim_trim (s : JSString) : trim (trim s) = trim s := by
  have h := dropWhile_trim s
  unfold trim at h ⊢
  rw [h]
  exact List.rdropWhile_idempotent _ _

namespace SentenceSplitter

theorem stripWhiteSpace_dropWhile (s : JSString) :
    stripWhiteSpace (s.dropWhile isWhiteSpace) = stripWhiteSpace s := by
  induction s with
  | nil => rfl
  | cons c cs ih =>
    by_cases hc : isWhiteSpace c = true
    · rw [List.dropWhile_cons_of_pos hc, ih]
      simp [stripWhiteSpace, List.filter_cons, hc]
    · rw [List.dropWhile_cons_of_neg hc]

theorem stripWhiteSpace_reverse (s : JSString) :
    stripWhiteSpace s.reverse = (stripWhiteSpace s).reverse :=
  List.filter_reverse _ _

theorem stripWhiteSpace_trim (s : JSString) : stripWhiteSpace (trim s) = stripWhiteSpace s := by
  unfold trim List.rdropWhile
  rw [stripWhiteSpace_reverse, stripWhiteSpace_dropWhile, stripWhiteSpace_reverse,
    List.reverse_reverse, stripWhiteSpace_dropWhile]

theorem stripWhiteSpace_append (s t : JSString) :
    stripWhiteSpace (s ++ t) = stripWhiteSpace s ++ stripWhiteSpace t :=
  List.filter_append _ _

theorem flatten_rawSplitsFrom (rest : JSString) :
    ∀ cur : JSString, (rawSplitsFrom cur rest).flatten = cur ++ rest := by
  induction rest with
  | nil => intro cur; simp [rawSplitsFrom]
  | cons c rest ih =>
    intro cur
    rw [rawSplitsFrom]
    split
    · rw [List.flatten_cons, ih]
      simp
    · rw [ih]
      simp

theorem flatten_rawSplits (text : JSString) : (rawSplits text).flatten = text := by
  unfold rawSplits
  rw [flatten_rawSplitsFrom]
  rfl

theorem keepPiece_eq (s : JSString) :
    keepPiece s = (decide (s ≠ []) && !isLoneAsciiTerminator s) := by
  cases s with
  | nil => rfl
  | cons c cs =>
    cases cs with
    | nil => simp [keepPiece, isLoneAsciiTerminator]
    | cons d ds => simp [keepPiece, isLoneAsciiTerminator]

theorem isLoneTerminator_of_ascii (s : JSString) (h : isLoneAsciiTerminator s = true) :
    isLoneTerminator s = true := by
  cases s with
  | nil => cases h
  | cons c cs =>
    cases cs with
    | nil =>
      simp only [isLoneAsciiTerminator, isAsciiTerminator, Bool.or_eq_true,
        decide_eq_true_eq] at h
      simp only [isLoneTerminator, isTerminator, Bool.or_eq_true, decide_eq_true_eq]
      omega
    | cons d ds => cases h

theorem stripWhiteSpace_kept (pieces : List JSString) :
    stripWhiteSpace ((pieces.map trim).filter keepPiece).flatten
      = stripWhiteSpace
          (pieces.filter (fun p => !isLoneAsciiTerminator (trim p))).flatten := by
  induction pieces with
  | nil => rfl
  | cons p ps ih =>
    rw [List.map_cons, List.filter_cons, List.filter_cons, keepPiece_eq]
    by_cases hl : isLoneAsciiTerminator (trim p) = true
    · have hk : ¬ ((decide (trim p ≠ []) && !isLoneAsciiTerminator (trim p)) = true) := by
        rw [hl]; simp
      have hr : ¬ ((!isLoneAsciiTerminator (trim p)) = true) := by
        rw [hl]; simp
      rw [if_neg hk, if_neg hr]
      exact ih
    · have hr : (!isLoneAsciiTerminator (trim p)) = true := by simpa using hl
      rw [if_pos hr, List.flatten_cons, stripWhiteSpace_append, ← ih]
      by_cases he : trim p = []
      · have hk : ¬ ((decide (trim p ≠ []) && !isLoneAsciiTerminator (trim p)) = true) := by
          rw [he]; simp
        rw [if_neg hk, ← stripWhiteSpace_trim p, he]
        rfl
      · have hk : (decide (trim p ≠ []) && !isLoneAsciiTerminator (trim p)) = true := by
          rw [hr]; simp [he]
        rw [if_pos hk, List.flatten_cons, stripWhiteSpace_append, stripWhiteSpace_trim]

theorem mem_fallbackSentences {text s : JSString} (h : s ∈ fallbackSentences text) :
    s ≠ [] ∧ trim s = s := by
  unfold fallbackSentences at h
  rw [List.mem_filter, List.mem_map] at h
  obtain ⟨⟨p, _, hp⟩, hk⟩ := h
  rw [keepPiece_eq] at hk
  simp only [Bool.and_eq_true, decide_eq_true_eq] at hk
  exact ⟨hk.1, by rw [← hp, trim_trim]⟩

theorem mem_localeSentences {seg : Segmenter} {l : List JSString} {s : JSString}
    (hl : localeSentences seg = some l) (h : s ∈ l) : s ≠ [] ∧ trim s = s := by
  cases seg with
  | unavailable => cases hl
  | throws => cases hl
  | segments segs =>
    simp only [localeSentences, Option.some.injEq] at hl
    rw [← hl, List.mem_filter, List.mem_map] at h
    obtain ⟨⟨p, _, hp⟩, hk⟩ := h
    simp only [decide_eq_true_eq] at hk
    refine ⟨?_, by rw [← hp, trim_trim]⟩
    intro he
    rw [he] at hk
    simp at hk

end SentenceSplitter

/-! ## The queue over its whole life -/

namespace AudioPlayQueue

theorem playCurrent_elements (s : AudioPlayQueue) : (playCurrent s).elements = s.elements := by
  obtain ⟨j, _, _, h⟩ := playCurrent_spec s
  rcases h with ⟨_, _, h⟩ | ⟨_, _, h⟩ | ⟨a, _, _, h⟩ <;> rw [h]

theorem playCurrent_liveUrls (s : AudioPlayQueue) : (playCurrent s).liveUrls = s.liveUrls := by
  obtain ⟨j, _, _, h⟩ := playCurrent_spec s
  rcases h with ⟨_, _, h⟩ | ⟨_, _, h⟩ | ⟨a, _, _, h⟩ <;> rw [h]

theorem restInv_playCurrent (s : AudioPlayQueue) : RestInv (playCurrent s) := by
  obtain ⟨j, _, _, hcase⟩ := playCurrent_spec s
  rcases hcase with ⟨h1, _, h3⟩ | ⟨_, h2, h3⟩ | ⟨a, _, _, h3⟩
  · rw [h3]
    intro _
    have := audioAt_of_length_le s j h1
    simp only [audioAt] at this ⊢
    rw [this]
    intro h; cases h
  · rw [h3]
    intro _
    simp only [audioAt] at h2 ⊢
    rw [h2]
    intro h; cases h
  · rw [h3]
    intro h; cases h

theorem restInv_write (s : AudioPlayQueue) (h : RestInv s) (s' : AudioPlayQueue)
    (index : Int) (v : Stored)
    (hne : ¬ (index = (s.currentIndex : Int) ∧ s.isPlaying = false))
    (ha : s'.audios = if 0 ≤ index then s.audios.set index.toNat v else s.audios)
    (hc : s'.currentIndex = s.currentIndex) (hp : s'.isPlaying = s.isPlaying) :
    RestInv s' := by
  intro hs
  rw [hp] at hs
  have h0 := h hs
  have hcell : JSArray.cell (if 0 ≤ index then s.audios.set index.toNat v else s.audios)
      s.currentIndex = s.audios.cell s.currentIndex := by
    by_cases hi : 0 ≤ index
    · rw [if_pos hi, JSArray.cell_set_of_ne]
      intro heq
      apply hne
      refine ⟨?_, hs⟩
      rw [heq]
      exact (Int.toNat_of_nonneg hi).symm
    · rw [if_neg hi]
  simp only [audioAt] at h0 ⊢
  rw [hc, ha, hcell]
  exact h0

theorem restInv_handle (s : AudioPlayQueue) (e : Event) (h : RestInv s) :
    RestInv (handle s e) := by
  cases e with
  | pushAudio index blob =>
    simp only [handle, pushAudio]
    split
    · exact h
    · cases blob with
      | none =>
        simp only [writeAudio_eq, writeDuration_eq, clearWaitTimer_eq]
        split
        · exact restInv_playCurrent _
        · rename_i hc
          simp only [Bool.and_eq_true, Bool.not_eq_true', decide_eq_true_eq] at hc
          exact restInv_write s h _ index Stored.null hc rfl rfl rfl
      | some b =>
        simp only [writeAudio_eq, clearWaitTimer_eq]
        split
        · exact restInv_playCurrent _
        · rename_i hc
          simp only [Bool.and_eq_true, Bool.not_eq_true', decide_eq_true_eq] at hc
          exact restInv_write s h _ index _ hc rfl rfl rfl
  | playCurrent => exact restInv_playCurrent s
  | loadedMetadata a d =>
    simp only [handle, onLoadedMetadata, writeDuration_eq]
    exact h
  | audioError a =>
    simp only [handle, onAudioError, writeAudio_eq, writeDuration_eq, revoke]
    split
    · exact restInv_playCurrent _
    · rename_i hc
      simp only [Bool.and_eq_true, Bool.not_eq_true', decide_eq_true_eq] at hc
      exact restInv_write s h _ a.index Stored.null hc rfl rfl rfl
  | ended a =>
    simp only [handle, onEnded, revoke]
    exact restInv_playCurrent _
  | playResolved a =>
    simp only [handle, onPlayStarted]
    exact h
  | playRejected a =>
    simp only [handle, onEnded, revoke]
    exact restInv_playCurrent _
  | waitTimerExpired =>
    simp only [handle, onWaitTimeout, writeAudio_eq, writeDuration_eq]
    exact restInv_playCurrent _

theorem cell_new {α : Type} (n i : Nat) : (JSArray.new n : JSArray α).cell i = none := by
  simp [JSArray.new, JSArray.cell, List.getElem?_replicate]

theorem restInv_stop (s : AudioPlayQueue) : RestInv (stop s) := by
  intro _
  simp only [stop, audioAt, cell_new]
  intro h; cases h

theorem restInv_runCalls (calls : List Call) :
    ∀ s : AudioPlayQueue, RestInv s → RestInv (runCalls s calls) := by
  induction calls with
  | nil => intro s h; exact h
  | cons c cs ih =>
    intro s h
    apply ih
    cases c with
    | event e =>
      simp only [call, step]
      split
      · exact restInv_handle s e h
      · exact h
    | stop => exact restInv_stop s

theorem sizeInv_playCurrent (N : Nat) (s : AudioPlayQueue) (ha : s.audios.length = N)
    (hd : s.durations.length = N) (he : ∀ a ∈ s.elements, a.index < (N : Int)) :
    SizeInv N (playCurrent s) := by
  refine ⟨by rw [playCurrent_audios]; exact ha, by rw [playCurrent_durations]; exact hd,
    by rw [playCurrent_elements]; exact he, ?_⟩
  obtain ⟨j, _, _, hcase⟩ := playCurrent_spec s
  rcases hcase with ⟨_, _, h3⟩ | ⟨h1, _, h3⟩ | ⟨a, _, _, h3⟩
  · rw [h3]; intro h; cases h
  · rw [h3]; intro _; simp only []; omega
  · rw [h3]; intro h; cases h

theorem length_write {α : Type} (arr : JSArray α) (N : Nat) (index : Int) (v : α)
    (h : arr.length = N) (hlt : index < (N : Int)) :
    (if 0 ≤ index then arr.set index.toNat v else arr).length = N := by
  split
  · rw [JSArray.length_set_of_lt _ _ _ (by omega)]
    exact h
  · exact h

theorem sizeInv_handle (N : Nat) (s : AudioPlayQueue) (e : Event) (h : SizeInv N s)
    (he : enabled s e = true) : SizeInv N (handle s e) := by
  cases e with
  | pushAudio index blob =>
    simp only [handle, pushAudio]
    split
    · exact h
    · rename_i hr
      have hlt : index < (N : Int) := by
        rw [h.audios] at hr; omega
      cases blob with
      | none =>
        simp only [writeAudio_eq, writeDuration_eq, clearWaitTimer_eq]
        split
        · exact sizeInv_playCurrent N _ (length_write _ N index _ h.audios hlt)
            (length_write _ N index _ h.durations hlt) h.elements
        · exact ⟨length_write _ N index _ h.audios hlt,
            length_write _ N index _ h.durations hlt, h.elements, h.timer⟩
      | some b =>
        have hel : ∀ a ∈ s.elements ++ [{ url := s.nextUrl, index := index, blob := b }],
            a.index < (N : Int) := by
          intro a ha
          rcases List.mem_append.mp ha with ha | ha
          · exact h.elements a ha
          · rw [List.mem_singleton] at ha
            rw [ha]; exact hlt
        simp only [writeAudio_eq, clearWaitTimer_eq]
        split
        · exact sizeInv_playCurrent N _ (length_write _ N index _ h.audios hlt) h.durations hel
        · exact ⟨length_write _ N index _ h.audios hlt, h.durations, hel, h.timer⟩
  | playCurrent => exact sizeInv_playCurrent N s h.audios h.durations h.elements
  | loadedMetadata a d =>
    simp only [enabled, decide_eq_true_eq] at he
    simp only [handle, onLoadedMetadata, writeDuration_eq]
    exact ⟨h.audios, length_write _ N a.index _ h.durations (h.elements a he), h.elements,
      h.timer⟩
  | audioError a =>
    simp only [enabled, decide_eq_true_eq] at he
    have hlt := h.elements a he
    simp only [handle, onAudioError, writeAudio_eq, writeDuration_eq, revoke]
    split
    · exact sizeInv_playCurrent N _ (length_write _ N a.index _ h.audios hlt)
        (length_write _ N a.index _ h.durations hlt) h.elements
    · exact ⟨length_write _ N a.index _ h.audios hlt,
        length_write _ N a.index _ h.durations hlt, h.elements, h.timer⟩
  | ended a =>
    simp only [handle, onEnded, revoke]
    exact sizeInv_playCurrent N _ h.audios h.durations h.elements
  | playResolved a =>
    simp only [handle, onPlayStarted]
    exact ⟨h.audios, h.durations, h.elements, h.timer⟩
  | playRejected a =>
    simp only [handle, onEnded, revoke]
    exact sizeInv_playCurrent N _ h.audios h.durations h.elements
  | waitTimerExpired =>
    simp only [enabled] at he
    have hlt : (s.currentIndex : Int) < (N : Int) := by
      have := h.timer he
      omega
    simp only [handle, onWaitTimeout, writeAudio_eq, writeDuration_eq]
    exact sizeInv_playCurrent N _ (length_write _ N _ _ h.audios hlt)
      (length_write _ N _ _ h.durations hlt) h.elements

theorem sizeInv_stop (N : Nat) (s : AudioPlayQueue) (h : SizeInv N s) : SizeInv N (stop s) := by
  refine ⟨?_, ?_, ?_, ?_⟩
  · simp [stop, clearWaitTimer_eq, JSArray.new, h.audios]
  · simp [stop, clearWaitTimer_eq, JSArray.fill, h.durations]
  · simp only [stop, clearWaitTimer_eq]
    exact h.elements
  · simp only [stop, clearWaitTimer_eq]
    intro hh; cases hh

theorem sizeInv_new (N : Nat) : SizeInv N (new N) := by
  refine ⟨by simp [new, JSArray.new], by simp [new, JSArray.new, JSArray.fill], ?_, ?_⟩
  · intro a ha; simp [new] at ha
  · intro h; cases h

theorem sizeInv_runCalls (N : Nat) (calls : List Call) :
    ∀ s : AudioPlayQueue, SizeInv N s → SizeInv N (runCalls s calls) := by
  induction calls with
  | nil => intro s h; exact h
  | cons c cs ih =>
    intro s h
    apply ih
    cases c with
    | event e =>
      simp only [call, step]
      split
      · rename_i he
        exact sizeInv_handle N s e h he
      · exact h
    | stop => exact sizeInv_stop N s h

theorem heldAudios_new (n : Nat) :
    (JSArray.new n : JSArray Stored).filterMap (fun c => match c with
      | some (Stored.audio a) => some a
      | _ => none) = [] := by
  rw [List.filterMap_eq_nil_iff]
  intro c hc
  simp only [JSArray.new, List.mem_replicate] at hc
  rw [hc.2]

theorem stop_stop (s : AudioPlayQueue) : stop (stop s) = stop s := by
  have h1 : clearWaitTimer (stop s) = stop s := by
    rw [clearWaitTimer_eq]
    simp only [stop, clearWaitTimer_eq]
  unfold stop
  simp only [clearWaitTimer_eq, heldAudios, heldAudios_new]
  simp [JSArray.new, JSArray.fill]

end AudioPlayQueue

namespace AudioPlayQueue

theorem pushAudio_null_skips (t : AudioPlayQueue) (hp : t.isPlaying = false)
    (hc : t.currentIndex < t.audios.length) :
    t.currentIndex < (pushAudio t (t.currentIndex : Int) none).currentIndex ∧
      (∀ i, t.currentIndex ≤ i → i < (pushAudio t (t.currentIndex : Int) none).currentIndex →
        audioAt (pushAudio t (t.currentIndex : Int) none) i = JSVal.null) ∧
      audioAt (pushAudio t (t.currentIndex : Int) none)
        (pushAudio t (t.currentIndex : Int) none).currentIndex ≠ JSVal.null := by
  have hpush : pushAudio t (t.currentIndex : Int) none =
      playCurrent { t with audios := t.audios.set t.currentIndex Stored.null,
                           durations := t.durations.set t.currentIndex 0,
                           waitTimer := none } := by
    have hr : ¬ ((t.currentIndex : Int) ≥ (t.audios.length : Int)) := by omega
    simp [pushAudio, hr, writeAudio_eq, writeDuration_eq, clearWaitTimer_eq, hp]
  rw [hpush]
  have key : ∀ s1 : AudioPlayQueue, s1.currentIndex = t.currentIndex →
      t.currentIndex < s1.audios.length → audioAt s1 t.currentIndex = JSVal.null →
      t.currentIndex < (playCurrent s1).currentIndex ∧
      (∀ i, t.currentIndex ≤ i → i < (playCurrent s1).currentIndex →
        audioAt (playCurrent s1) i = JSVal.null) ∧
      audioAt (playCurrent s1) (playCurrent s1).currentIndex ≠ JSVal.null := by
    intro s1 hcur hlen hnull
    have haud : ∀ i, audioAt (playCurrent s1) i = audioAt s1 i := by
      intro i
      simp only [audioAt, playCurrent_audios]
    obtain ⟨j, hj, hskip, hcase⟩ := playCurrent_spec s1
    rw [hcur] at hj hskip
    have hjne : j ≠ t.currentIndex := by
      intro heq
      rcases hcase with ⟨h1, _, _⟩ | ⟨_, h2, _⟩ | ⟨a, _, h2, _⟩
      · omega
      · rw [heq, hnull] at h2; cases h2
      · rw [heq, hnull] at h2; cases h2
    have hcurj : (playCurrent s1).currentIndex = j := by
      rcases hcase with ⟨_, _, h3⟩ | ⟨_, _, h3⟩ | ⟨a, _, _, h3⟩ <;> rw [h3]
    rw [hcurj]
    refine ⟨by omega, fun i h1 h2 => by rw [haud]; exact hskip i h1 h2, ?_⟩
    rw [haud]
    rcases hcase with ⟨h1, _, _⟩ | ⟨_, h2, _⟩ | ⟨a, _, h2, _⟩
    · rw [audioAt_of_length_le s1 j h1]
      intro h; cases h
    · rw [h2]
      intro h; cases h
    · rw [h2]
      intro h; cases h
  refine key _ rfl ?_ ?_
  · simp only []
    rw [JSArray.length_set_of_lt _ _ _ hc]
    exact hc
  · simp only [audioAt]
    rw [JSArray.cell_set_self]
    rfl

theorem stop_log (s : AudioPlayQueue) : (stop s).log = s.log := by
  simp only [stop, clearWaitTimer_eq]

theorem stop_fresh (N : Nat) (s : AudioPlayQueue) (h : SizeInv N s) :
    (stop s).audios = (new N).audios ∧
      (stop s).durations = (new N).durations ∧
      (stop s).currentIndex = 0 ∧
      (stop s).isPlaying = false ∧
      (stop s).waitTimer = none ∧
      (stop s).audios.length = N ∧
      (∀ i, audioAt (stop s) i = JSVal.undefined) ∧
      (∀ i, durationAt (stop s) i = 0) := by
  have ha : (stop s).audios = JSArray.new N := by
    simp only [stop, clearWaitTimer_eq, h.audios]
  have hd : (stop s).durations = List.replicate N (some 0) := by
    simp only [stop, clearWaitTimer_eq, JSArray.fill]
    rw [← h.durations]
    exact List.eq_replicate_iff.mpr ⟨by simp, by simp⟩
  have hnd : (new N).durations = List.replicate N (some 0) := by
    simp [new, JSArray.fill, JSArray.new]
  refine ⟨ha, by rw [hd, hnd], ?_, ?_, ?_, ?_, ?_, ?_⟩
  · simp only [stop, clearWaitTimer_eq]
  · simp only [stop, clearWaitTimer_eq]
  · simp only [stop, clearWaitTimer_eq]
  · rw [ha]; simp [JSArray.new]
  · intro i
    simp only [audioAt, ha, cell_new]
  · intro i
    simp only [durationAt, hd, JSArray.cell]
    by_cases hi : i < N
    · simp [List.getElem?_replicate, hi]
    · simp [List.getElem?_replicate, hi]

end AudioPlayQueue

/-! ## Object URLs -/

namespace AudioPlayQueue

theorem liveInv_frame {p : List Int} {s s' : AudioPlayQueue} (h : LiveInv p s)
    (ha : s'.audios = s.audios) (he : s'.elements = s.elements)
    (hl : ∀ u ∈ s'.liveUrls, u ∈ s.liveUrls) : LiveInv p s' := by
  refine ⟨?_, ?_, ?_, ?_, ?_⟩
  · rw [ha]; exact h.unpushed
  · rw [ha, he]; exact h.owner
  · rw [he]; exact h.known
  · rw [he]; exact h.unique
  · rw [ha]; exact fun u hu => h.live u (hl u hu)

theorem liveInv_playCurrent {p : List Int} {s : AudioPlayQueue} (h : LiveInv p s) :
    LiveInv p (playCurrent s) :=
  liveInv_frame h (playCurrent_audios s) (playCurrent_elements s)
    (by rw [playCurrent_liveUrls]; exact fun _ hu => hu)

theorem liveInv_mono {p : List Int} {s : AudioPlayQueue} (h : LiveInv p s) (x : Int) :
    LiveInv (x :: p) s :=
  ⟨fun i a hi => h.unpushed i a (fun hm => hi (List.mem_cons_of_mem _ hm)), h.owner,
    fun a ha => List.mem_cons_of_mem _ (h.known a ha), h.unique, h.live⟩

/-- Writing `null` into a slot that holds no element. -/
theorem liveInv_writeNull {p : List Int} {s s' : AudioPlayQueue} (h : LiveInv p s) (k : Nat)
    (hk : ∀ a, s.audios.cell k ≠ some (Stored.audio a))
    (ha : s'.audios = s.audios.set k Stored.null) (he : s'.elements = s.elements)
    (hl : ∀ u ∈ s'.liveUrls, u ∈ s.liveUrls) : LiveInv p s' := by
  have hcell : ∀ i a, s'.audios.cell i = some (Stored.audio a) →
      s.audios.cell i = some (Stored.audio a) := by
    intro i a hi
    rw [ha] at hi
    by_cases hik : i = k
    · rw [hik, JSArray.cell_set_self] at hi
      cases hi
    · rw [JSArray.cell_set_of_ne _ _ _ _ hik] at hi
      exact hi
  refine ⟨?_, ?_, ?_, ?_, ?_⟩
  · intro i a hi hc
    exact h.unpushed i a hi (hcell i a hc)
  · intro i a hc
    rw [he]
    exact h.owner i a (hcell i a hc)
  · rw [he]; exact h.known
  · rw [he]; exact h.unique
  · intro u hu
    obtain ⟨i, a, hc, hurl⟩ := h.live u (hl u hu)
    refine ⟨i, a, ?_, hurl⟩
    rw [ha]
    have hik : i ≠ k := by
      intro heq
      rw [heq] at hc
      exact hk a hc
    rw [JSArray.cell_set_of_ne _ _ _ _ hik]
    exact hc

/-- The error listener of element `a`: its URL is revoked and its slot set
to `null`. -/
theorem liveInv_error {p : List Int} {s s' : AudioPlayQueue} (h : LiveInv p s) (a : Audio)
    (hmem : a ∈ s.elements) (h0 : 0 ≤ a.index)
    (ha : s'.audios = s.audios.set a.index.toNat Stored.null)
    (he : s'.elements = s.elements)
    (hl : ∀ u ∈ s'.liveUrls, u ∈ s.liveUrls ∧ u ≠ a.url) : LiveInv p s' := by
  have hcell : ∀ i b, s'.audios.cell i = some (Stored.audio b) →
      s.audios.cell i = some (Stored.audio b) := by
    intro i b hi
    rw [ha] at hi
    by_cases hik : i = a.index.toNat
    · rw [hik, JSArray.cell_set_self] at hi
      cases hi
    · rw [JSArray.cell_set_of_ne _ _ _ _ hik] at hi
      exact hi
  refine ⟨?_, ?_, ?_, ?_, ?_⟩
  · intro i b hi hc
    exact h.unpushed i b hi (hcell i b hc)
  · intro i b hc
    rw [he]
    exact h.owner i b (hcell i b hc)
  · rw [he]; exact h.known
  · rw [he]; exact h.unique
  · intro u hu
    obtain ⟨hu1, hu2⟩ := hl u hu
    obtain ⟨i, b, hc, hurl⟩ := h.live u hu1
    refine ⟨i, b, ?_, hurl⟩
    rw [ha]
    have hik : i ≠ a.index.toNat := by
      intro heq
      obtain ⟨hb1, hb2⟩ := h.owner i b hc
      have hidx : b.index = a.index := by
        rw [hb2, heq]
        exact Int.toNat_of_nonneg h0
      have := h.unique b hb1 a hmem hidx
      rw [this] at hurl
      exact hu2 hurl.symm
    rw [JSArray.cell_set_of_ne _ _ _ _ hik]
    exact hc

/-- A first `pushAudio` of an audio for a non-negative index. -/
theorem liveInv_pushSome {p : List Int} {s s' : AudioPlayQueue} (h : LiveInv p s) (a0 : Audio)
    (h0 : 0 ≤ a0.index) (hfresh : a0.index ∉ p)
    (ha : s'.audios = s.audios.set a0.index.toNat (Stored.audio a0))
    (he : s'.elements = s.elements ++ [a0])
    (hl : s'.liveUrls = s.liveUrls ++ [a0.url]) : LiveInv (a0.index :: p) s' := by
  have hcast : ((a0.index.toNat : Nat) : Int) = a0.index := Int.toNat_of_nonneg h0
  have hold : ∀ b, s.audios.cell a0.index.toNat ≠ some (Stored.audio b) := by
    intro b
    apply h.unpushed
    rw [hcast]
    exact hfresh
  refine ⟨?_, ?_, ?_, ?_, ?_⟩
  · intro i b hi hc
    rw [ha] at hc
    have hik : i ≠ a0.index.toNat := by
      intro heq
      apply hi
      rw [heq, hcast]
      exact List.mem_cons_self _ _
    rw [JSArray.cell_set_of_ne _ _ _ _ hik] at hc
    exact h.unpushed i b (fun hm => hi (List.mem_cons_of_mem _ hm)) hc
  · intro i b hc
    rw [ha] at hc
    rw [he]
    by_cases hik : i = a0.index.toNat
    · rw [hik, JSArray.cell_set_self] at hc
      simp only [Option.some.injEq, Stored.audio.injEq] at hc
      rw [← hc, hik, hcast]
      exact ⟨List.mem_append_right _ (List.mem_singleton_self _), rfl⟩
    · rw [JSArray.cell_set_of_ne _ _ _ _ hik] at hc
      obtain ⟨h1, h2⟩ := h.owner i b hc
      exact ⟨List.mem_append_left _ h1, h2⟩
  · intro b hb
    rw [he] at hb
    rcases List.mem_append.mp hb with hb | hb
    · exact List.mem_cons_of_mem _ (h.known b hb)
    · rw [List.mem_singleton] at hb
      rw [hb]
      exact List.mem_cons_self _ _
  · intro b hb c hc hbc
    rw [he] at hb hc
    rcases List.mem_append.mp hb with hb | hb
    · rcases List.mem_append.mp hc with hc | hc
      · exact h.unique b hb c hc hbc
      · rw [List.mem_singleton] at hc
        exfalso
        apply hfresh
        rw [← hc, ← hbc]
        exact h.known b hb
    · rcases List.mem_append.mp hc with hc | hc
      · rw [List.mem_singleton] at hb
        exfalso
        apply hfresh
        rw [← hb, hbc]
        exact h.known c hc
      · rw [List.mem_singleton] at hb hc
        rw [hb, hc]
  · intro u hu
    rw [hl] at hu
    rcases List.mem_append.mp hu with hu | hu
    · obtain ⟨i, b, hc, hurl⟩ := h.live u hu
      refine ⟨i, b, ?_, hurl⟩
      rw [ha]
      have hik : i ≠ a0.index.toNat := by
        intro heq
        rw [heq] at hc
        exact hold b hc
      rw [JSArray.cell_set_of_ne _ _ _ _ hik]
      exact hc
    · rw [List.mem_singleton] at hu
      refine ⟨a0.index.toNat, a0, ?_, hu.symm⟩
      rw [ha, JSArray.cell_set_self]

end AudioPlayQueue

namespace AudioPlayQueue

theorem liveInv_pushAudio {p : List Int} {s : AudioPlayQueue} (h : LiveInv p s) (index : Int)
    (blob : Option Blob) (h0 : 0 ≤ index) (hfresh : index ∉ p) :
    LiveInv (index :: p) (pushAudio s index blob) := by
  have hcast : ((index.toNat : Nat) : Int) = index := Int.toNat_of_nonneg h0
  unfold pushAudio
  split
  · exact liveInv_mono h index
  · cases blob with
    | none =>
      have hk : ∀ a, s.audios.cell index.toNat ≠ some (Stored.audio a) := by
        intro a
        apply h.unpushed
        rw [hcast]
        exact hfresh
      simp only [writeAudio_eq, writeDuration_eq, clearWaitTimer_eq, if_pos h0]
      split
      · refine liveInv_playCurrent (liveInv_mono ?_ index)
        exact liveInv_writeNull h index.toNat hk rfl rfl (fun _ hu => hu)
      · refine liveInv_mono ?_ index
        exact liveInv_writeNull h index.toNat hk rfl rfl (fun _ hu => hu)
    | some b =>
      simp only [writeAudio_eq, clearWaitTimer_eq, if_pos h0]
      split
      · refine liveInv_playCurrent ?_
        exact liveInv_pushSome h { url := s.nextUrl, index := index, blob := b } h0 hfresh
          rfl rfl rfl
      · exact liveInv_pushSome h { url := s.nextUrl, index := index, blob := b } h0 hfresh
          rfl rfl rfl

theorem liveInv_onEnded {p : List Int} {s s' : AudioPlayQueue} (h : LiveInv p s) (a : Audio)
    (ha : s'.audios = s.audios) (he : s'.elements = s.elements)
    (hl : s'.liveUrls = s.liveUrls) : LiveInv p (onEnded s' a) := by
  simp only [onEnded, revoke]
  apply liveInv_playCurrent
  refine liveInv_frame h ha he ?_
  intro u hu
  simp only [hl] at hu
  exact List.mem_of_mem_filter hu

theorem liveInv_handle {p : List Int} {s : AudioPlayQueue} (h : LiveInv p s) (hw : WaitInv s)
    (e : Event) (hnp : e.pushedIndex = none) (hen : enabled s e = true) :
    LiveInv p (handle s e) := by
  cases e with
  | pushAudio index blob => simp [Event.pushedIndex] at hnp
  | playCurrent => exact liveInv_playCurrent h
  | loadedMetadata a d =>
    simp only [handle, onLoadedMetadata, writeDuration_eq]
    exact liveInv_frame h rfl rfl (fun _ hu => hu)
  | audioError a =>
    simp only [enabled, decide_eq_true_eq] at hen
    simp only [handle, onAudioError, writeAudio_eq, writeDuration_eq, revoke]
    by_cases h0 : 0 ≤ a.index
    · simp only [if_pos h0]
      have hl : ∀ u ∈ s.liveUrls.filter (fun u => decide (u ≠ a.url)),
          u ∈ s.liveUrls ∧ u ≠ a.url := by
        intro u hu
        rw [List.mem_filter] at hu
        exact ⟨hu.1, by simpa using hu.2⟩
      split
      · refine liveInv_playCurrent ?_
        exact liveInv_error h a hen h0 rfl rfl hl
      · exact liveInv_error h a hen h0 rfl rfl hl
    · simp only [if_neg h0]
      split
      · refine liveInv_playCurrent ?_
        exact liveInv_frame h rfl rfl (fun _ hu => List.mem_of_mem_filter hu)
      · exact liveInv_frame h rfl rfl (fun _ hu => List.mem_of_mem_filter hu)
  | ended a =>
    simp only [handle]
    exact liveInv_onEnded h a rfl rfl rfl
  | playResolved a =>
    simp only [handle, onPlayStarted]
    exact liveInv_frame h rfl rfl (fun _ hu => hu)
  | playRejected a =>
    simp only [handle]
    exact liveInv_onEnded h a rfl rfl rfl
  | waitTimerExpired =>
    simp only [enabled] at hen
    obtain ⟨_, hcell⟩ := hw hen
    have hk : ∀ a, s.audios.cell s.currentIndex ≠ some (Stored.audio a) := by
      intro a hc
      rw [hcell] at hc
      cases hc
    simp only [handle, onWaitTimeout, writeAudio_eq, writeDuration_eq, Int.natCast_nonneg,
      if_true, Int.toNat_ofNat]
    refine liveInv_playCurrent ?_
    exact liveInv_writeNull h s.currentIndex hk rfl rfl (fun _ hu => hu)

theorem liveInv_run (events : List Event) :
    ∀ (p : List Int) (s : AudioPlayQueue), LiveInv p s → WaitInv s →
      (pushedIndices events).Nodup →
      (∀ i ∈ pushedIndices events, 0 ≤ i ∧ i ∉ p) →
      ∃ p', LiveInv p' (run s events) := by
  induction events with
  | nil => intro p s h _ _ _; exact ⟨p, h⟩
  | cons e es ih =>
    intro p s h hw hnd hfresh
    have hw' : WaitInv (step s e) := by
      unfold step
      split
      · rename_i hen
        exact waitInv_handle s e hw hen
      · exact hw
    cases hpi : e.pushedIndex with
    | none =>
      have hpe : pushedIndices (e :: es) = pushedIndices es := by
        simp [pushedIndices, List.filterMap_cons, hpi]
      rw [hpe] at hnd hfresh
      have h1 : LiveInv p (step s e) := by
        unfold step
        split
        · rename_i hen
          exact liveInv_handle h hw e hpi hen
        · exact h
      exact ih p (step s e) h1 hw' hnd hfresh
    | some idx =>
      have hpe : pushedIndices (e :: es) = idx :: pushedIndices es := by
        simp [pushedIndices, List.filterMap_cons, hpi]
      rw [hpe] at hnd hfresh
      obtain ⟨h0, hnot⟩ := hfresh idx (List.mem_cons_self _ _)
      cases e with
      | pushAudio index blob =>
        simp only [Event.pushedIndex, Option.some.injEq] at hpi
        subst hpi
        have h1 : LiveInv (index :: p) (step s (Event.pushAudio index blob)) := by
          have := liveInv_pushAudio h index blob h0 hnot
          simpa [step, enabled, handle] using this
        refine ih (index :: p) _ h1 hw' (List.nodup_cons.mp hnd).2 ?_
        intro i hi
        obtain ⟨g0, gnot⟩ := hfresh i (List.mem_cons_of_mem _ hi)
        refine ⟨g0, ?_⟩
        simp only [List.mem_cons, not_or]
        refine ⟨?_, gnot⟩
        intro heq
        rw [heq] at hi
        exact (List.nodup_cons.mp hnd).1 hi
      | _ => simp [Event.pushedIndex] at hpi

theorem liveInv_new (N : Nat) : LiveInv [] (new N) := by
  refine ⟨?_, ?_, ?_, ?_, ?_⟩
  · intro i a _ hc
    simp only [new, cell_new] at hc
    cases hc
  · intro i a hc
    simp only [new, cell_new] at hc
    cases hc
  · intro a ha; simp [new] at ha
  · intro a ha; simp [new] at ha
  · intro u hu; simp [new] at hu

theorem mem_heldAudios_of_cell (s : AudioPlayQueue) (i : Nat) (a : Audio)
    (h : s.audios.cell i = some (Stored.audio a)) : a ∈ heldAudios s := by
  unfold heldAudios
  rw [List.mem_filterMap]
  refine ⟨some (Stored.audio a), ?_, rfl⟩
  unfold JSArray.cell at h
  cases hg : s.audios.get? i with
  | none => rw [hg] at h; cases h
  | some c =>
    rw [hg] at h
    simp only [Option.join] at h
    rw [← h]
    exact List.get?_mem hg

theorem liveUrls_stop_of_liveInv {p : List Int} {s : AudioPlayQueue} (h : LiveInv p s) :
    (stop s).liveUrls = [] := by
  simp only [stop, clearWaitTimer_eq]
  rw [List.filter_eq_nil_iff]
  intro u hu
  obtain ⟨i, a, hc, hurl⟩ := h.live u hu
  have hmem : a ∈ heldAudios s := mem_heldAudios_of_cell s i a hc
  have : u ∈ (heldAudios { s with waitTimer := none }).map Audio.url := by
    rw [List.mem_map]
    exact ⟨a, hmem, hurl⟩
  simpa using this

end AudioPlayQueue

namespace SentenceSplitter

theorem rawSplitsFrom_eq_cons (rest : JSString) :
    ∀ cur : JSString, ∃ p ps, rawSplitsFrom cur rest = p :: ps := by
  induction rest with
  | nil => intro cur; exact ⟨cur, [], rfl⟩
  | cons c rest ih =>
    intro cur
    rw [rawSplitsFrom]
    split
    · exact ⟨_, _, rfl⟩
    · exact ih _

theorem isCutPoint_after (pre : JSString) (c : Nat) (rest : JSString) :
    isCutPoint (pre ++ c :: rest) (pre.length + 1) = (boundaryAfter c rest && !rest.isEmpty) := by
  cases rest with
  | nil => simp [isCutPoint, boundaryAfter]
  | cons d r =>
    have h1 : (pre ++ c :: d :: r).getD (pre.length + 1 - 1) 0 = c := by
      rw [Nat.add_sub_cancel, List.getD_eq_getElem?_getD,
        List.getElem?_append_right (le_refl _)]
      simp
    have h2 : (pre ++ c :: d :: r).getD (pre.length + 1) 0 = d := by
      rw [List.getD_eq_getElem?_getD, List.getElem?_append_right (by omega)]
      simp
    unfold isCutPoint
    rw [h1, h2]
    simp [boundaryAfter]

theorem boundariesFrom_rawSplitsFrom (rest : JSString) :
    ∀ done cur : JSString,
      boundariesFrom done.length (rawSplitsFrom cur rest)
        = (List.range' (done.length + cur.length + 1) (rest.length - 1)).filter
            (isCutPoint (done ++ cur ++ rest)) := by
  induction rest with
  | nil => intro done cur; simp [rawSplitsFrom, boundariesFrom]
  | cons c rest ih =>
    intro done cur
    have hcut := isCutPoint_after (done ++ cur) c rest
    rw [List.length_append] at hcut
    rw [rawSplitsFrom]
    cases rest with
    | nil => simp [rawSplitsFrom, boundariesFrom]
    | cons d r =>
      simp only [List.length_cons, Nat.add_sub_cancel]
      rw [List.range'_succ, List.filter_cons, hcut]
      by_cases hb : (boundaryAfter c (d :: r) && !(d :: r).isEmpty) = true
      · rw [if_pos hb, if_pos hb]
        obtain ⟨q, qs, hq⟩ := rawSplitsFrom_eq_cons (d :: r) []
        have ih' := ih (done ++ cur ++ [c]) []
        rw [hq] at ih' ⊢
        simp only [boundariesFrom]
        have hlen : (done ++ cur ++ [c]).length = done.length + (cur ++ [c]).length := by
          simp only [List.length_append]
          omega
        rw [hlen] at ih'
        rw [ih']
        have hlen2 : done.length + (cur ++ [c]).length = done.length + cur.length + 1 := by
          simp only [List.length_append, List.length_singleton]
          omega
        rw [hlen2]
        congr 2
        simp
      · rw [if_neg hb, if_neg hb]
        rw [ih done (cur ++ [c])]
        have hlen2 : done.length + (cur ++ [c]).length = done.length + cur.length + 1 := by
          simp only [List.length_append, List.length_singleton]
          omega
        rw [hlen2]
        congr 2
        simp

theorem boundaries_rawSplits (text : JSString) : boundaries (rawSplits text) = cutPoints text := by
  unfold boundaries rawSplits cutPoints
  have h := boundariesFrom_rawSplitsFrom text [] []
  simp only [List.length_nil, Nat.zero_add, List.nil_append] at h
  rw [h]
  cases text with
  | nil => rfl
  | cons c cs =>
    simp only [List.length_cons, Nat.add_sub_cancel]
    rw [List.range_eq_range', List.range'_succ, List.filter_cons]
    have h0 : isCutPoint (c :: cs) 0 = false := by simp [isCutPoint]
    rw [h0]
    simp

end SentenceSplitter

/-! ## Work conservation -/

namespace SynthesisPipeline

/-- What `processQueue` leaves behind: the pipeline is cancelled, the queue is
empty, or every concurrency slot is taken. -/
theorem processQueueFuel_done (env : Env) (n : Nat) :
    ∀ s : SynthesisPipeline, s.queue.length < n →
      (processQueueFuel env n s).cancelled = true ∨
        (processQueueFuel env n s).queue = [] ∨
        (processQueueFuel env n s).maxConcurrency
          ≤ (processQueueFuel env n s).activeTasks.length := by
  induction n with
  | zero => intro s h; omega
  | succ n ih =>
    intro s h
    rw [processQueueFuel]
    by_cases hc : s.cancelled = true
    · rw [if_pos hc]
      exact Or.inl hc
    · rw [if_neg hc]
      by_cases hlt : s.activeTasks.length < s.maxConcurrency
      · rw [if_pos hlt]
        cases hq : s.queue with
        | nil => exact Or.inr (Or.inl hq)
        | cons task rest =>
          simp only []
          apply ih
          have hrest : rest.length < n := by
            rw [hq] at h
            simp only [List.length_cons] at h
            omega
          exact lt_of_le_of_lt
            (queue_startTaskWith_le env _ (queue_processQueueFuel_le env n) _ task) hrest
      · rw [if_neg hlt]
        exact Or.inr (Or.inr (by omega))

theorem processQueue_done (env : Env) (s : SynthesisPipeline) :
    (processQueue env s).cancelled = true ∨ (processQueue env s).queue = [] ∨
      (processQueue env s).maxConcurrency ≤ (processQueue env s).activeTasks.length :=
  processQueueFuel_done env _ s (by omega)

theorem busy_step (s : SynthesisPipeline) (e : Event)
    (h : s.cancelled = true ∨ s.queue = [] ∨ s.maxConcurrency ≤ s.activeTasks.length) :
    (step s e).cancelled = true ∨ (step s e).queue = [] ∨
      (step s e).maxConcurrency ≤ (step s e).activeTasks.length := by
  cases e with
  | setOnAudioReady => exact h
  | addSentence task env =>
    simp only [step, addSentence]
    by_cases hc : s.cancelled = true
    · rw [if_pos hc]
      exact Or.inl hc
    · rw [if_neg hc]
      exact processQueue_done env _
  | settled tts result env =>
    simp only [step]
    cases hfind : s.inFlight.find? (fun p => p.1 = tts) with
    | none => exact h
    | some p =>
      simp only [settle, onTaskFinished]
      exact processQueue_done env _
  | cancel => exact Or.inl rfl

theorem busy_run (events : List Event) :
    ∀ s : SynthesisPipeline,
      (s.cancelled = true ∨ s.queue = [] ∨ s.maxConcurrency ≤ s.activeTasks.length) →
      ((run s events).cancelled = true ∨ (run s events).queue = [] ∨
        (run s events).maxConcurrency ≤ (run s events).activeTasks.length) := by
  induction events with
  | nil => intro s h; exact h
  | cons e es ih => intro s h; exact ih _ (busy_step s e h)

end SynthesisPipeline

/-! ## The cleaning loop -/

namespace FinalDeepSeekTTS

theorem cleanLoop_offsets (rest : JSString) :
    ∀ (lastIndex i : Nat),
      (cleanLoop lastIndex i rest).offsetMap.length
          = (cleanLoop lastIndex i rest).cleanFullText.length ∧
        ∀ j k : Nat, (cleanLoop lastIndex i rest).offsetMap[j]? = some k →
          i ≤ k ∧ rest[k - i]? = (cleanLoop lastIndex i rest).cleanFullText[j]? := by
  induction rest with
  | nil =>
    intro lastIndex i
    simp [cleanLoop]
  | cons ch rest ih =>
    intro lastIndex i
    obtain ⟨hlen, hmap⟩ := ih (emojiTest lastIndex ch).2 (i + 1)
    rw [cleanLoop]
    by_cases hm : (emojiTest lastIndex ch).1 = true
    · rw [if_pos hm]
      refine ⟨hlen, ?_⟩
      intro j k hjk
      obtain ⟨h1, h2⟩ := hmap j k hjk
      refine ⟨by omega, ?_⟩
      rw [← h2]
      have hk : k - i = (k - (i + 1)) + 1 := by omega
      rw [hk, List.getElem?_cons_succ]
    · rw [if_neg hm]
      refine ⟨by simp only [List.length_cons]; omega, ?_⟩
      intro j k hjk
      cases j with
      | zero =>
        simp only [List.getElem?_cons_zero, Option.some.injEq] at hjk
        subst hjk
        simp
      | succ j =>
        simp only [List.getElem?_cons_succ] at hjk ⊢
        obtain ⟨h1, h2⟩ := hmap j k hjk
        refine ⟨by omega, ?_⟩
        rw [← h2]
        have hk : k - i = (k - (i + 1)) + 1 := by omega
        rw [hk, List.getElem?_cons_succ]

end FinalDeepSeekTTS

/-! ## The slot array keeps its shape -/

namespace AudioPlayQueue

theorem ownInv_write (s s' : AudioPlayQueue) (h : OwnInv s) (index : Int) (v : Stored)
    (ha : s'.audios = if 0 ≤ index then s.audios.set index.toNat v else s.audios)
    (hv : ∀ a, v = Stored.audio a → a.index = index) : OwnInv s' := by
  intro i a hc
  rw [ha] at hc
  by_cases h0 : 0 ≤ index
  · rw [if_pos h0] at hc
    by_cases hi : i = index.toNat
    · rw [hi, JSArray.cell_set_self] at hc
      simp only [Option.some.injEq] at hc
      rw [hv a hc, hi]
      exact (Int.toNat_of_nonneg h0).symm
    · rw [JSArray.cell_set_of_ne _ _ _ _ hi] at hc
      exact h i a hc
  · rw [if_neg h0] at hc
    exact h i a hc

theorem ownInv_playCurrent (s : AudioPlayQueue) (h : OwnInv s) : OwnInv (playCurrent s) := by
  intro i a hc
  rw [playCurrent_audios] at hc
  exact h i a hc

theorem ownInv_handle (s : AudioPlayQueue) (e : Event) (h : OwnInv s) :
    OwnInv (handle s e) := by
  cases e with
  | pushAudio index blob =>
    simp only [handle, pushAudio]
    split
    · exact h
    · cases blob with
      | none =>
        simp only [writeAudio_eq, writeDuration_eq, clearWaitTimer_eq]
        split
        · apply ownInv_playCurrent
          exact ownInv_write s _ h index Stored.null rfl (by intro a ha; cases ha)
        · exact ownInv_write s _ h index Stored.null rfl (by intro a ha; cases ha)
      | some b =>
        simp only [writeAudio_eq, clearWaitTimer_eq]
        split
        · apply ownInv_playCurrent
          refine ownInv_write s _ h index _ rfl ?_
          intro a ha
          simp only [Stored.audio.injEq] at ha
          rw [← ha]
        · refine ownInv_write s _ h index _ rfl ?_
          intro a ha
          simp only [Stored.audio.injEq] at ha
          rw [← ha]
  | playCurrent => exact ownInv_playCurrent s h
  | loadedMetadata a d =>
    simp only [handle, onLoadedMetadata, writeDuration_eq]
    exact h
  | audioError a =>
    simp only [handle, onAudioError, writeAudio_eq, writeDuration_eq, revoke]
    split
    · apply ownInv_playCurrent
      exact ownInv_write s _ h a.index Stored.null rfl (by intro b hb; cases hb)
    · exact ownInv_write s _ h a.index Stored.null rfl (by intro b hb; cases hb)
  | ended a =>
    simp only [handle, onEnded, revoke]
    apply ownInv_playCurrent
    exact h
  | playResolved a =>
    simp only [handle, onPlayStarted]
    exact h
  | playRejected a =>
    simp only [handle, onEnded, revoke]
    apply ownInv_playCurrent
    exact h
  | waitTimerExpired =>
    simp only [handle, onWaitTimeout, writeAudio_eq, writeDuration_eq]
    apply ownInv_playCurrent
    exact ownInv_write s _ h s.currentIndex Stored.null rfl (by intro b hb; cases hb)

theorem ownInv_runCalls (calls : List Call) :
    ∀ s : AudioPlayQueue, OwnInv s → OwnInv (runCalls s calls) := by
  induction calls with
  | nil => intro s h; exact h
  | cons c cs ih =>
    intro s h
    apply ih
    cases c with
    | event e =>
      simp only [call, step]
      split
      · exact ownInv_handle s e h
      · exact h
    | stop =>
      intro i a hc
      simp only [call, stop, cell_new] at hc
      cases hc

end AudioPlayQueue

namespace AudioPlayQueue

theorem cell_ne_none_of_audioAt (s : AudioPlayQueue) (i : Nat)
    (h : audioAt s i ≠ JSVal.undefined) : s.audios.cell i ≠ none := by
  intro hc
  apply h
  simp only [audioAt, hc]

theorem cell_write_ne_none (arr : JSArray Stored) (index : Int) (v : Stored) (j : Nat)
    (h : arr.cell j ≠ none) :
    JSArray.cell (if 0 ≤ index then arr.set index.toNat v else arr) j ≠ none := by
  by_cases h0 : 0 ≤ index
  · rw [if_pos h0]
    by_cases hj : j = index.toNat
    · rw [hj, JSArray.cell_set_self]
      intro hc; cases hc
    · rw [JSArray.cell_set_of_ne _ _ _ _ hj]
      exact h
  · rw [if_neg h0]
    exact h

/-- `playCurrent` on a state in which nothing plays and no element sounds. -/
theorem cursorInv_playCurrent (s : AudioPlayQueue)
    (hb : ∀ i, i < s.currentIndex → s.audios.cell i ≠ none) (hp : s.isPlaying = false)
    (hso : s.sounding = []) (hpp : s.playPending = []) : CursorInv (playCurrent s) := by
  obtain ⟨j, hj, hskip, hcase⟩ := playCurrent_spec s
  have hbelow : ∀ i, i < j → s.audios.cell i ≠ none := by
    intro i hi
    by_cases hic : i < s.currentIndex
    · exact hb i hic
    · apply cell_ne_none_of_audioAt
      rw [hskip i (by omega) hi]
      intro hc; cases hc
  rcases hcase with ⟨_, _, h3⟩ | ⟨_, _, h3⟩ | ⟨a, _, h2, h3⟩
  · rw [h3]
    refine ⟨hbelow, ?_, fun _ => ⟨hso, hpp⟩⟩
    intro hpl
    simp only [] at hpl
    rw [hp] at hpl
    cases hpl
  · rw [h3]
    refine ⟨hbelow, ?_, fun _ => ⟨hso, hpp⟩⟩
    intro hpl
    simp only [] at hpl
    rw [hp] at hpl
    cases hpl
  · rw [h3]
    refine ⟨hbelow, fun _ => ⟨?_, a, ?_, ?_⟩, fun hpl => by cases hpl⟩
    · show s.audios.cell j ≠ none
      apply cell_ne_none_of_audioAt
      rw [h2]
      intro hc; cases hc
    · intro b hb'
      simp only [hso, List.filter_nil, List.nil_append, List.mem_singleton] at hb'
      exact hb'
    · intro b hb'
      simp only [hpp, List.filter_nil, List.nil_append, List.mem_singleton] at hb'
      exact hb'

theorem cursorInv_write (s s' : AudioPlayQueue) (h : CursorInv s) (index : Int) (v : Stored)
    (ha : s'.audios = if 0 ≤ index then s.audios.set index.toNat v else s.audios)
    (hc : s'.currentIndex = s.currentIndex) (hp : s'.isPlaying = s.isPlaying)
    (hso : ∀ b ∈ s'.sounding, b ∈ s.sounding)
    (hpp : ∀ b ∈ s'.playPending, b ∈ s.playPending) : CursorInv s' := by
  refine ⟨?_, ?_, ?_⟩
  · intro i hi
    rw [ha]
    rw [hc] at hi
    exact cell_write_ne_none _ _ _ _ (h.below i hi)
  · intro hpl
    rw [hp] at hpl
    obtain ⟨h1, a, h2, h3⟩ := h.playing hpl
    rw [ha, hc]
    exact ⟨cell_write_ne_none _ _ _ _ h1, a, fun b hb => h2 b (hso b hb),
      fun b hb => h3 b (hpp b hb)⟩
  · intro hpl
    rw [hp] at hpl
    obtain ⟨h1, h2⟩ := h.resting hpl
    constructor
    · rw [List.eq_nil_iff_forall_not_mem]
      intro b hb
      have := hso b hb
      rw [h1] at this
      cases this
    · rw [List.eq_nil_iff_forall_not_mem]
      intro b hb
      have := hpp b hb
      rw [h2] at this
      cases this

/-- The handler of `ended` and of a rejected `play()`, on a playing state
whose element no longer sounds nor is pending. -/
theorem cursorInv_onEnded (s s' : AudioPlayQueue) (h : CursorInv s) (a : Audio)
    (hpl : s.isPlaying = true) (ha : s'.audios = s.audios)
    (hc : s'.currentIndex = s.currentIndex) (hso : s'.sounding = [])
    (hpp : s'.playPending = []) : CursorInv (onEnded s' a) := by
  simp only [onEnded, revoke]
  apply cursorInv_playCurrent
  · intro i hi
    simp only [] at hi ⊢
    rw [ha]
    rw [hc] at hi
    by_cases hic : i < s.currentIndex
    · exact h.below i hic
    · have : i = s.currentIndex := by omega
      rw [this]
      exact (h.playing hpl).1
  · rfl
  · exact hso
  · exact hpp

theorem filter_ne_nil_of_all_eq {a : Audio} {l : List Audio} (h : ∀ b ∈ l, b = a) :
    l.filter (fun b => decide (b ≠ a)) = [] := by
  rw [List.filter_eq_nil_iff]
  intro b hb
  simp [h b hb]

theorem cursorInv_handle (s : AudioPlayQueue) (e : Event) (h : CursorInv s) (hw : WaitInv s)
    (hen : enabled s e = true) : CursorInv (handle s e) := by
  cases e with
  | pushAudio index blob =>
    simp only [handle, pushAudio]
    split
    · exact h
    · cases blob with
      | none =>
        simp only [writeAudio_eq, writeDuration_eq, clearWaitTimer_eq]
        split
        · rename_i hc
          simp only [Bool.and_eq_true, Bool.not_eq_true', decide_eq_true_eq] at hc
          obtain ⟨h1, h2⟩ := h.resting hc.2
          exact cursorInv_playCurrent _
            (fun i hi => cell_write_ne_none _ _ _ _ (h.below i hi)) hc.2 h1 h2
        · exact cursorInv_write s _ h index Stored.null rfl rfl rfl (fun _ hb => hb)
            (fun _ hb => hb)
      | some b =>
        simp only [writeAudio_eq, clearWaitTimer_eq]
        split
        · rename_i hc
          simp only [Bool.and_eq_true, Bool.not_eq_true', decide_eq_true_eq] at hc
          obtain ⟨h1, h2⟩ := h.resting hc.2
          exact cursorInv_playCurrent _
            (fun i hi => cell_write_ne_none _ _ _ _ (h.below i hi)) hc.2 h1 h2
        · exact cursorInv_write s _ h index _ rfl rfl rfl (fun _ hb => hb) (fun _ hb => hb)
  | playCurrent =>
    simp only [enabled, Bool.not_eq_true'] at hen
    obtain ⟨h1, h2⟩ := h.resting hen
    exact cursorInv_playCurrent s h.below hen h1 h2
  | loadedMetadata a d =>
    simp only [handle, onLoadedMetadata, writeDuration_eq]
    exact ⟨h.below, h.playing, h.resting⟩
  | audioError a =>
    simp only [handle, onAudioError, writeAudio_eq, writeDuration_eq, revoke]
    split
    · rename_i hc
      simp only [Bool.and_eq_true, Bool.not_eq_true', decide_eq_true_eq] at hc
      obtain ⟨h1, h2⟩ := h.resting hc.2
      refine cursorInv_playCurrent _
        (fun i hi => cell_write_ne_none _ _ _ _ (h.below i hi)) hc.2 ?_ h2
      simp only [h1, List.filter_nil]
    · exact cursorInv_write s _ h a.index Stored.null rfl rfl rfl
        (fun _ hb => List.mem_of_mem_filter hb) (fun _ hb => hb)
  | ended a =>
    simp only [enabled, Bool.and_eq_true, decide_eq_true_eq, Bool.not_eq_true',
      decide_eq_false_iff_not] at hen
    have hpl : s.isPlaying = true := by
      cases hp : s.isPlaying with
      | true => rfl
      | false =>
        have := (h.resting hp).1
        rw [this] at hen
        simp at hen
    obtain ⟨_, b, hs1, hs2⟩ := h.playing hpl
    have hab : a = b := hs1 a hen.1
    subst hab
    simp only [handle]
    refine cursorInv_onEnded s _ h a hpl ?_ ?_ ?_ ?_
    · rfl
    · rfl
    · exact filter_ne_nil_of_all_eq hs1
    · simp only []
      cases hpp : s.playPending with
      | nil => rfl
      | cons c cs =>
        exfalso
        apply hen.2
        have hc : c = a := hs2 c (by rw [hpp]; exact List.mem_cons_self _ _)
        rw [hpp, hc]
        exact List.mem_cons_self _ _
  | playResolved a =>
    simp only [handle, onPlayStarted]
    refine ⟨h.below, ?_, ?_⟩
    · intro hpl
      obtain ⟨h1, b, h2, h3⟩ := h.playing hpl
      exact ⟨h1, b, h2, fun c hc => h3 c (List.mem_of_mem_filter hc)⟩
    · intro hp
      obtain ⟨h1, h2⟩ := h.resting hp
      refine ⟨h1, ?_⟩
      simp only []
      rw [h2]
      rfl
  | playRejected a =>
    simp only [enabled, decide_eq_true_eq] at hen
    have hpl : s.isPlaying = true := by
      cases hp : s.isPlaying with
      | true => rfl
      | false =>
        have := (h.resting hp).2
        rw [this] at hen
        simp at hen
    obtain ⟨_, b, hs1, hs2⟩ := h.playing hpl
    have hab : a = b := hs2 a hen
    subst hab
    simp only [handle]
    refine cursorInv_onEnded s _ h a hpl ?_ ?_ ?_ ?_
    · rfl
    · rfl
    · exact filter_ne_nil_of_all_eq hs1
    · exact filter_ne_nil_of_all_eq hs2
  | waitTimerExpired =>
    simp only [enabled] at hen
    obtain ⟨hp, _⟩ := hw hen
    obtain ⟨h1, h2⟩ := h.resting hp
    simp only [handle, onWaitTimeout, writeAudio_eq, writeDuration_eq, Int.natCast_nonneg,
      if_true, Int.toNat_ofNat]
    apply cursorInv_playCurrent
    · intro i hi
      simp only [] at hi ⊢
      by_cases hic : i = s.currentIndex
      · rw [hic, JSArray.cell_set_self]
        intro hc; cases hc
      · rw [JSArray.cell_set_of_ne _ _ _ _ hic]
        exact h.below i (by omega)
    · rfl
    · exact h1
    · exact h2

theorem cursorInv_run (events : List Event) :
    ∀ s : AudioPlayQueue, CursorInv s → WaitInv s → CursorInv (run s events) := by
  induction events with
  | nil => intro s h _; exact h
  | cons e es ih =>
    intro s h hw
    have hstep : CursorInv (step s e) ∧ WaitInv (step s e) := by
      unfold step
      split
      · rename_i hen
        exact ⟨cursorInv_handle s e h hw hen, waitInv_handle s e hw hen⟩
      · exact ⟨h, hw⟩
    exact ih _ hstep.1 hstep.2

theorem cursorInv_new (N : Nat) : CursorInv (new N) := by
  refine ⟨?_, ?_, ?_⟩
  · intro i hi
    simp [new] at hi
  · intro h
    simp [new] at h
  · intro _
    exact ⟨rfl, rfl⟩

end AudioPlayQueue

namespace AudioPlayQueue

/-- A run of events is a sequence of calls without `stop()`. -/
theorem runCalls_map_event (events : List Event) :
    ∀ s : AudioPlayQueue, runCalls s (events.map Call.event) = run s events := by
  induction events with
  | nil => intro s; rfl
  | cons e es ih =>
    intro s
    simp only [List.map_cons, runCalls, run, List.foldl_cons, call]
    exact ih (step s e)

theorem waitInv_new (N : Nat) : WaitInv (new N) := by
  intro h
  simp [new] at h

/-- In a run without `stop()` the cursor never passes the end of the array,
and every slot behind it has been written. -/
theorem cursor_run (N : Nat) (events : List Event) :
    (∀ i, i < (run (new N) events).currentIndex → (run (new N) events).audios.cell i ≠ none)
      ∧ (run (new N) events).currentIndex ≤ N := by
  have hc := cursorInv_run events (new N) (cursorInv_new N) (waitInv_new N)
  have hs := sizeInv_runCalls N (events.map Call.event) (new N) (sizeInv_new N)
  rw [runCalls_map_event] at hs
  refine ⟨hc.below, ?_⟩
  by_contra hlt
  have hN : N < (run (new N) events).currentIndex := by omega
  apply hc.below N hN
  apply cell_of_audioAt_undefined
  apply audioAt_of_length_le
  rw [hs.audios]

end AudioPlayQueue

/-! # The claims -/

namespace AudioPlayQueue

/-- Claim C1.  For every slot count `N` and every sequence of events of an
`AudioPlayQueue` (`pushAudio` calls with audio or `null` for any indices in
any order, `ended` events, settlements of `play()`, metadata and error events
of the audio elements, wait-timer expiries, and the orchestrator's
`playCurrent()` while nothing plays), the slot indices for which `playCurrent`
starts playback form a strictly increasing sequence. -/
theorem played_strictly_increasing (N : Nat) (events : List Event) :
    (played (run (new N) events)).Pairwise (· < ·) := by
  have h0 : OrderInv (new N).log (new N).currentIndex (new N).isPlaying := by
    simp [OrderInv, new]
  exact (orderInv_run events (new N) h0).1

end AudioPlayQueue

namespace SynthesisPipeline

/-- Claim C2.  For every concurrency cap `mc` and every sequence of
`addSentence` calls, settlements (success, error, missing payload, with any
behaviour of the unit constructor and of the callback) and `cancel` calls,
the cap is unchanged, at most `mc` started units have not settled, and
`activeTasks.length ≤ maxConcurrency`; the handles of the pending units are
pairwise distinct, so the pending list counts units. -/
theorem inFlight_le_maxConcurrency (mc : Nat) (events : List Event) :
    (run (new mc) events).maxConcurrency = mc ∧
    (run (new mc) events).inFlight.length ≤ mc ∧
    (run (new mc) events).activeTasks.length ≤ mc ∧
    ((run (new mc) events).inFlight.map Prod.fst).Nodup := by
  have hinv := capInv_run events (new mc) (capInv_new mc)
  have hmc : (run (new mc) events).maxConcurrency = mc := maxConcurrency_run events (new mc)
  have hcap : (run (new mc) events).inFlight.length ≤ mc := by
    have := hinv.cap
    rw [hmc] at this
    exact this
  refine ⟨hmc, hcap, ?_, hinv.nodup⟩
  cases hc : (run (new mc) events).cancelled with
  | false =>
    rw [hinv.active hc, List.length_map]
    exact hcap
  | true => rw [hinv.idle hc]; simp

/-- Claim C3.  After `cancel()` on any pipeline state, no later event invokes
`onAudioReady`: whatever settles and whatever is added afterwards, the log of
callback invocations is the one from before the cancel, and the pipeline
stays cancelled. -/
theorem no_delivery_after_cancel (s : SynthesisPipeline) (events : List Event) :
    (run (cancel s) events).delivered = s.delivered ∧
    (run (cancel s) events).cancelled = true := by
  obtain ⟨h1, h2⟩ := cancelled_run events (cancel s) rfl
  exact ⟨h2, h1⟩

end SynthesisPipeline

namespace AudioPlayQueue

/-- Claim C4.  Let `playCurrent()` be invoked on a fresh queue of `N` slots
and let the events that follow deliver each index `0 .. N-1` exactly once, in
any order, `null` exactly for the indices in `F`; let there be no audio error,
no wait-timer expiry and no further outside call, and let nothing be playing
in the end.  Then the playback starts are exactly the indices outside `F` in
increasing order, followed by one `onFinish`; no index of `F` is played,
`onFinish` fired once, and the cursor stands at `N`. -/
theorem undisturbed_session_plays_ready_slots_then_finishes (N : Nat) (F : Nat → Bool)
    (events : List Event)
    (hkinds : ∀ e ∈ events, e.inSession F = true)
    (hperm : (pushedIndices events).Perm ((List.range N).map Int.ofNat))
    (hdone : (run (playCurrent (new N)) events).isPlaying = false) :
    milestones (run (playCurrent (new N)) events)
        = ((List.range N).filter (fun i => !F i)).map some ++ [none] ∧
      played (run (playCurrent (new N)) events) = (List.range N).filter (fun i => !F i) ∧
      (∀ i, F i = true → i ∉ played (run (playCurrent (new N)) events)) ∧
      finishCount (run (playCurrent (new N)) events) = 1 ∧
      (run (playCurrent (new N)) events).currentIndex = N := by
  have hnd : (pushedIndices events).Nodup := by
    rw [hperm.nodup_iff]
    exact (List.nodup_range N).map (fun a b hab => Int.ofNat.inj hab)
  have hmem : ∀ i : Int, i ∈ pushedIndices events ↔ ∃ k, k < N ∧ (k : Int) = i := by
    intro i
    rw [hperm.mem_iff]
    simp
  obtain ⟨pushed, _, hall, hinv⟩ := sessionInv_run N F events [] _ (sessionInv_start N F)
    hkinds hnd (by
      intro i hi
      obtain ⟨k, hk, hki⟩ := (hmem i).mp hi
      refine ⟨by omega, by omega, by simp⟩)
  have hcur : (run (playCurrent (new N)) events).currentIndex = N := by
    by_contra hne
    have hlt : (run (playCurrent (new N)) events).currentIndex < N :=
      lt_of_le_of_ne hinv.cur_le hne
    have hcell := (hinv.resting hdone).2.2 hlt
    have hpushed := hall _ ((hmem _).mpr ⟨_, hlt, rfl⟩)
    simp only [Int.toNat_ofNat] at hpushed
    cases hF : F (run (playCurrent (new N)) events).currentIndex with
    | true => rw [hinv.failed _ hpushed hF] at hcell; cases hcell
    | false =>
      obtain ⟨a, ha⟩ := hinv.ready _ hpushed hF
      rw [ha] at hcell; cases hcell
  have hm : milestones (run (playCurrent (new N)) events)
      = ((List.range N).filter (fun i => !F i)).map some ++ [none] := by
    have := hinv.marks
    simp only [hdone, hcur, if_true, Bool.false_eq_true, if_false, Nat.add_zero] at this
    exact this
  have hplayed : played (run (playCurrent (new N)) events)
      = (List.range N).filter (fun i => !F i) := by
    unfold played
    rw [played_eq_of_milestones]
    unfold milestones at hm
    rw [hm]
    simp [List.filterMap_append, List.filterMap_map]
  refine ⟨hm, hplayed, ?_, ?_, hcur⟩
  · intro i hF hi
    rw [hplayed] at hi
    simp [hF] at hi
  · unfold finishCount
    rw [finishCount_eq_of_milestones]
    unfold milestones at hm
    rw [hm, List.count_append]
    have h0 : ∀ l : List Nat, List.count none (l.map some) = 0 := by
      intro l
      rw [List.count_eq_zero]
      simp
    rw [h0]
    rfl

/-- Scenario B of the specification as an instance of claim C4: three
sentences, the second one fails, the audios arrive in reverse order. -/
theorem undisturbed_session_witness :
    (∀ e ∈ scenarioB, e.inSession (fun i => i == 1) = true) ∧
      (pushedIndices scenarioB).Perm ((List.range 3).map Int.ofNat) ∧
      (run (playCurrent (new 3)) scenarioB).isPlaying = false ∧
      milestones (run (playCurrent (new 3)) scenarioB) = [some 0, some 2, none] ∧
      played (run (playCurrent (new 3)) scenarioB) = [0, 2] ∧
      finishCount (run (playCurrent (new 3)) scenarioB) = 1 :=
  have h := undisturbed_session_plays_ready_slots_then_finishes 3 (fun i => i == 1) scenarioB
    (by decide) (by decide) (by decide)
  ⟨by decide, by decide, by decide, h.1, h.2.1, h.2.2.2.1⟩

end AudioPlayQueue

namespace SentenceSplitter

/-- Claim C5.  For every non-empty `text` and every behaviour of the locale
segmenter (missing, throwing, or yielding any segments, none included),
`split` returns a non-empty list; when the locale path yields no sentence and
the regex fallback yields none either, the result is `[text]`. -/
theorem split_nonempty (seg : Segmenter) (text : JSString) (h : text ≠ []) :
    split seg text ≠ [] ∧
      ((localeSentences seg).getD [] = [] → fallbackSentences text = [] →
        split seg text = [text]) := by
  have hne : text.isEmpty = false := by
    cases text with
    | nil => exact absurd rfl h
    | cons c cs => rfl
  constructor
  · unfold split
    rw [hne]
    simp only [Bool.false_eq_true, if_false]
    split
    · simp
    · split
      · simp
      · rename_i h2
        intro h3
        simp [h3] at h2
  · intro h1 h2
    unfold split
    rw [hne]
    simp only [Bool.false_eq_true, if_false]
    split
    · rename_i s ss heq
      rw [heq] at h1
      simp at h1
    · simp [h2]

/-- An instance of claim C5: a text of blanks and one full stop, for which a
segmenter yielding only blank segments and the fallback both leave nothing. -/
theorem split_nonempty_witness :
    js " . " ≠ [] ∧ split (Segmenter.segments [js "  "]) (js " . ") = [js " . "] :=
  ⟨by decide,
    (split_nonempty (Segmenter.segments [js "  "]) (js " . ") (by decide)).2
      (by decide) (by decide)⟩

end SentenceSplitter

/-- Claim C6, an integer for which it fails.  `2 ^ 60` is a double, and its
decimal digits are `1152921504606846976`; the template literal prints the
shortest digits that denote the same double, so `formatTTSValue` gives
`+1152921504606847000%`.  From `10 ^ 21` on the Number is printed in exponent
form: `10 ^ 21` with `%` gives `+1e+21%`, which is no digit string at all. -/
theorem formatTTSValue_large_integer_is_not_exact :
    formatTTSValue 1152921504606846976 "%" = "+1152921504606847000%" ∧
      (Nat.toDigits 10 (Int.natAbs 1152921504606846976)).asString = "1152921504606846976" ∧
      formatTTSValue (-1152921504606846976) "%" = "-1152921504606847000%" ∧
      formatTTSValue 1000000000000000000000 "%" = "+1e+21%" ∧
      formatTTSValue 1180591620717411303424 "Hz" = "+1.1805916207174113e+21Hz" := by
  decide

/-- Claim C6, amended.  For every integer `v` with `|v| < 2 ^ 53` and every unit
`u`, `formatTTSValue v u` is a sign (`+` when `v ≥ 0`, `-` when `v < 0`), the
decimal digits of `|v|`, and `u`; so `-10` with `%` gives `-10%` and `5` with
`Hz` gives `+5Hz`; and `startTask` formats rate and volume with `%` and pitch
with `Hz`. -/
theorem formatTTSValue_sign_digits_unit (v : Int) (u : String) (settings : Settings)
    (h : v.natAbs < 2 ^ 53) :
    formatTTSValue v u
        = (if 0 ≤ v then "+" else "-") ++ (Nat.toDigits 10 v.natAbs).asString ++ u ∧
      formatTTSValue (-10) "%" = "-10%" ∧
      formatTTSValue 5 "Hz" = "+5Hz" ∧
      formattedOptions settings =
        { rate := formatTTSValue settings.rate "%"
          volume := formatTTSValue settings.volume "%"
          pitch := formatTTSValue settings.pitch "Hz" } := by
  refine ⟨?_, by decide, by decide, rfl⟩
  unfold formatTTSValue
  rw [numberToString_of_lt v h]
  by_cases hs : 0 ≤ v
  · simp [hs]
  · simp [hs]

/-- An instance of the amended claim C6: the largest integer below `2 ^ 53`,
negated, as a rate. -/
theorem formatTTSValue_sign_digits_unit_witness :
    Int.natAbs (-9007199254740991) < 2 ^ 53 ∧
      formatTTSValue (-9007199254740991) "%" = "-9007199254740991%" :=
  ⟨by decide,
    ((formatTTSValue_sign_digits_unit (-9007199254740991) "%"
      { rate := -10, volume := 0, pitch := 5 } (by decide)).1.trans (by decide))⟩

namespace SynthesisPipeline

/-- Claim C7, evaluated where the code departs from it.  A unit settles with
audio on a pipeline that is not cancelled and has a callback.  With a
callback that returns, `onAudioReady` is invoked once, with the audio.  With
a callback that throws on that invocation, the `catch` block of `startTask`
invokes it a second time for the same index, with `null`. -/
theorem onAudioReady_twice_when_callback_throws :
    (run (new 2) [Event.setOnAudioReady, Event.addSentence task0 envQuiet,
      Event.settled 0 (EngineResult.resolved (some 7)) envQuiet]).delivered
        = [(0, some 7)] ∧
    (run (new 2) [Event.setOnAudioReady, Event.addSentence task0 envQuiet,
      Event.settled 0 (EngineResult.resolved (some 7)) envThrow]).delivered
        = [(0, some 7), (0, none)] := by
  decide

end SynthesisPipeline

namespace AudioPlayQueue

/-- Claim C8 fails as stated: a ready slot is turned into a failed one by the
error event of its audio element, and a second `pushAudio` for the same index
replaces the audio of a ready slot. -/
theorem written_slot_overwritten :
    audioAt (run (new 1) [Event.pushAudio 0 (some 9)]) 0
        = JSVal.audio { url := 0, index := 0, blob := 9 } ∧
      audioAt (run (new 1) [Event.pushAudio 0 (some 9),
        Event.audioError { url := 0, index := 0, blob := 9 }]) 0 = JSVal.null ∧
      audioAt (run (new 1) [Event.pushAudio 0 (some 9), Event.pushAudio 0 (some 4)]) 0
        = JSVal.audio { url := 1, index := 0, blob := 4 } := by
  decide

/-- Claim C8, amended.  In every state reached from a fresh queue, a slot
that has been written keeps its value under every event other than a
`pushAudio` for that very index and the error event of an audio element
created for that index: `ended` events, settlements of `play()`, metadata
events, wait-timer expiries, `playCurrent()` and `pushAudio` calls and error
events for other indices leave it as it is. -/
theorem written_slot_stable (N : Nat) (events : List Event) (e : Event) (i : Nat) (v : Stored)
    (hw : (run (new N) events).audios.cell i = some v)
    (hpush : ∀ blob, e ≠ Event.pushAudio (i : Int) blob)
    (herr : ∀ a : Audio, a.index = (i : Int) → e ≠ Event.audioError a) :
    (step (run (new N) events) e).audios.cell i = some v := by
  have hinv : WaitInv (run (new N) events) :=
    waitInv_run events (new N) (by intro h; cases h)
  generalize run (new N) events = s at hw hinv
  unfold step
  split
  case isFalse => exact hw
  case isTrue he =>
    have hset : ∀ (index : Int) (w : Stored), index ≠ (i : Int) →
        JSArray.cell (if 0 ≤ index then s.audios.set index.toNat w else s.audios) i = some v := by
      intro index w hne
      split
      · rename_i h0
        rw [JSArray.cell_set_of_ne]
        · exact hw
        · intro heq
          apply hne
          rw [heq]
          exact (Int.toNat_of_nonneg h0).symm
      · exact hw
    cases e with
    | pushAudio index blob =>
      have hne : index ≠ (i : Int) := by
        intro heq
        exact hpush blob (by rw [heq])
      simp only [handle, pushAudio]
      split
      · exact hw
      · cases blob with
        | none =>
          simp only [writeAudio_eq, writeDuration_eq, clearWaitTimer_eq]
          split
          · rw [playCurrent_audios]; exact hset index _ hne
          · exact hset index _ hne
        | some b =>
          simp only [writeAudio_eq, clearWaitTimer_eq]
          split
          · rw [playCurrent_audios]; exact hset index _ hne
          · exact hset index _ hne
    | playCurrent =>
      simp only [handle]
      rw [playCurrent_audios]; exact hw
    | loadedMetadata a d =>
      simp only [handle, onLoadedMetadata, writeDuration_eq]
      exact hw
    | audioError a =>
      have hne : a.index ≠ (i : Int) := fun heq => herr a heq rfl
      simp only [handle, onAudioError, writeAudio_eq, writeDuration_eq, revoke]
      split
      · rw [playCurrent_audios]; exact hset a.index _ hne
      · exact hset a.index _ hne
    | ended a =>
      simp only [handle, onEnded, revoke]
      rw [playCurrent_audios]; exact hw
    | playResolved a =>
      simp only [handle, onPlayStarted]
      exact hw
    | playRejected a =>
      simp only [handle, onEnded, revoke]
      rw [playCurrent_audios]; exact hw
    | waitTimerExpired =>
      simp only [enabled] at he
      obtain ⟨_, hcur⟩ := hinv he
      have hne : (s.currentIndex : Int) ≠ (i : Int) := by
        intro heq
        have : s.currentIndex = i := by exact_mod_cast heq
        rw [this, hw] at hcur
        cases hcur
      simp only [handle, onWaitTimeout, writeAudio_eq, writeDuration_eq]
      rw [playCurrent_audios]
      exact hset _ _ hne

/-- An instance of amended claim C8: slot 1 holds an audio while the queue
waits on slot 0; the expiry of the wait timer leaves slot 1 alone. -/
theorem written_slot_stable_witness :
    (run (new 2) [Event.playCurrent, Event.pushAudio 1 (some 9)]).audios.cell 1
        = some (Stored.audio { url := 0, index := 1, blob := 9 }) ∧
      (step (run (new 2) [Event.playCurrent, Event.pushAudio 1 (some 9)])
        Event.waitTimerExpired).audios.cell 1
        = some (Stored.audio { url := 0, index := 1, blob := 9 }) :=
  ⟨by decide,
    written_slot_stable 2 [Event.playCurrent, Event.pushAudio 1 (some 9)]
      Event.waitTimerExpired 1 _ (by decide) (by intro blob h; cases h)
      (by intro a _ h; cases h)⟩

/-- Claim C9 fails as stated for a negative index: `-1` is outside `0 .. 1`,
yet `pushAudio(-1, blob)` on a fresh queue of two slots allocates an object
URL and an audio element, and the state changes. -/
theorem pushAudio_negative_index_allocates :
    ¬ (0 ≤ (-1 : Int) ∧ (-1 : Int) < 2) ∧
      (pushAudio (new 2) (-1) (some 5)).elements = [{ url := 0, index := -1, blob := 5 }] ∧
      (pushAudio (new 2) (-1) (some 5)).liveUrls = [0] ∧
      pushAudio (new 2) (-1) (some 5) ≠ new 2 := by
  decide

/-- Claim C9, amended.  For every queue state and every index at or beyond
the length of the slot array, `pushAudio(index, audioOrNull)` returns the
state unchanged: slots, durations, cursor, `isPlaying`, the wait timer, the
allocated elements and URLs and the notification log are all as before. -/
theorem pushAudio_beyond_range_noop (s : AudioPlayQueue) (index : Int) (blob : Option Blob)
    (h : (s.audios.length : Int) ≤ index) :
    pushAudio s index blob = s ∧ step s (Event.pushAudio index blob) = s := by
  have h1 : pushAudio s index blob = s := by
    unfold pushAudio
    simp [h]
  exact ⟨h1, by simp [step, enabled, handle, h1]⟩

/-- An instance of amended claim C9: index 2 on a queue of two slots. -/
theorem pushAudio_beyond_range_noop_witness :
    (((new 2).audios.length : Nat) : Int) ≤ 2 ∧ pushAudio (new 2) 2 (some 5) = new 2 :=
  ⟨by decide, (pushAudio_beyond_range_noop (new 2) 2 (some 5) (by decide)).1⟩

/-- Claim C10.  Let the wait timer be armed while the cursor stands on slot
`k < N`.  After the expiry handler: slot `k` is failed with duration 0, the
cursor is beyond `k`, and playback has resumed on its own: if slot `k + 1`
holds an audio, that audio is now playing; if slot `k + 1` is unset, a new
wait timer is armed for it; if `k + 1 = N`, `onFinish` has fired. -/
theorem waitTimeout_skips_and_resumes (s : AudioPlayQueue) (k t : Nat)
    (hk : s.currentIndex = k) (hlt : k < s.audios.length)
    (htimer : s.waitTimer = some t) :
    audioAt (step s Event.waitTimerExpired) k = JSVal.null ∧
    (step s Event.waitTimerExpired).durations.cell k = some 0 ∧
    k < (step s Event.waitTimerExpired).currentIndex ∧
    (∀ a, audioAt s (k + 1) = JSVal.audio a →
      (step s Event.waitTimerExpired).isPlaying = true ∧
      (step s Event.waitTimerExpired).currentIndex = k + 1 ∧
      (step s Event.waitTimerExpired).log = s.log ++ [Notification.play (k + 1) a]) ∧
    (k + 1 < s.audios.length → audioAt s (k + 1) = JSVal.undefined →
      (step s Event.waitTimerExpired).waitTimer = some s.nextTimer ∧
      (step s Event.waitTimerExpired).isPlaying = false ∧
      (step s Event.waitTimerExpired).currentIndex = k + 1 ∧
      (step s Event.waitTimerExpired).log = s.log) ∧
    (k + 1 = s.audios.length →
      (step s Event.waitTimerExpired).log = s.log ++ [Notification.finish] ∧
      (step s Event.waitTimerExpired).isPlaying = false) := by
  have hstep : step s Event.waitTimerExpired =
      playCurrent { s with audios := s.audios.set k Stored.null,
                           durations := s.durations.set k 0,
                           isPlaying := false, currentIndex := k + 1 } := by
    simp [step, enabled, handle, htimer, onWaitTimeout, writeAudio, writeDuration, hk]
  have key : ∀ s1 : AudioPlayQueue, s1.audios.length = s.audios.length →
      s1.currentIndex = k + 1 → s1.log = s.log → s1.nextTimer = s.nextTimer →
      s1.isPlaying = false → (∀ i, i ≠ k → audioAt s1 i = audioAt s i) →
      audioAt s1 k = JSVal.null → s1.durations.cell k = some 0 →
      audioAt (playCurrent s1) k = JSVal.null ∧
      (playCurrent s1).durations.cell k = some 0 ∧
      k < (playCurrent s1).currentIndex ∧
      (∀ a, audioAt s (k + 1) = JSVal.audio a →
        (playCurrent s1).isPlaying = true ∧
        (playCurrent s1).currentIndex = k + 1 ∧
        (playCurrent s1).log = s.log ++ [Notification.play (k + 1) a]) ∧
      (k + 1 < s.audios.length → audioAt s (k + 1) = JSVal.undefined →
        (playCurrent s1).waitTimer = some s.nextTimer ∧
        (playCurrent s1).isPlaying = false ∧
        (playCurrent s1).currentIndex = k + 1 ∧
        (playCurrent s1).log = s.log) ∧
      (k + 1 = s.audios.length →
        (playCurrent s1).log = s.log ++ [Notification.finish] ∧
        (playCurrent s1).isPlaying = false) := by
    intro s1 hlen hcur hlog hnt hplay hat hk1 hd1
    have hle := playCurrent_currentIndex_le s1
    refine ⟨?_, ?_, by omega, ?_, ?_, ?_⟩
    · simp only [audioAt, playCurrent_audios] at hk1 ⊢
      exact hk1
    · rw [playCurrent_durations]; exact hd1
    · intro a ha
      have ha1 : audioAt s1 (k + 1) = JSVal.audio a := by rw [hat _ (by omega)]; exact ha
      obtain ⟨j, hj, hskip, hcase⟩ := playCurrent_spec s1
      have hjk : j = k + 1 := by
        by_contra hne
        have := hskip (k + 1) (by omega) (by omega)
        rw [ha1] at this
        cases this
      subst hjk
      rcases hcase with ⟨h1, _, _⟩ | ⟨_, h2, _⟩ | ⟨b, _, h2, h3⟩
      · rw [audioAt_of_length_le s1 _ h1] at ha1; cases ha1
      · rw [h2] at ha1; cases ha1
      · rw [ha1] at h2
        cases h2
        rw [h3]
        simp [hlog]
    · intro hlt2 hu
      have hu1 : audioAt s1 (k + 1) = JSVal.undefined := by rw [hat _ (by omega)]; exact hu
      obtain ⟨j, hj, hskip, hcase⟩ := playCurrent_spec s1
      have hjk : j = k + 1 := by
        by_contra hne
        have := hskip (k + 1) (by omega) (by omega)
        rw [hu1] at this
        cases this
      subst hjk
      rcases hcase with ⟨h1, _, _⟩ | ⟨_, _, h3⟩ | ⟨b, _, h2, _⟩
      · omega
      · rw [h3]
        simp [hlog, hnt, hplay]
      · rw [hu1] at h2; cases h2
    · intro hend
      obtain ⟨j, hj, hskip, hcase⟩ := playCurrent_spec s1
      rcases hcase with ⟨_, _, h3⟩ | ⟨h1, _, _⟩ | ⟨b, h1, _, _⟩
      · rw [h3]
        simp [hlog, hplay]
      · omega
      · omega
  rw [hstep]
  refine key _ (JSArray.length_set_of_lt _ _ _ hlt) rfl rfl rfl rfl ?_ ?_ ?_
  · intro i hi
    simp only [audioAt]
    rw [JSArray.cell_set_of_ne _ _ _ _ hi]
  · simp only [audioAt]
    rw [JSArray.cell_set_self]
    rfl
  · exact JSArray.cell_set_self _ _ _

/-- Scenario C of the specification as an instance of claim C10: the audio of
sentence 0 never arrives while sentence 1 is ready; after the timeout slot 0
is failed and sentence 1 plays. -/
theorem waitTimeout_skips_and_resumes_witness :
    (run (new 2) [Event.playCurrent, Event.pushAudio 1 (some 9)]).waitTimer = some 0 ∧
      audioAt (step (run (new 2) [Event.playCurrent, Event.pushAudio 1 (some 9)])
        Event.waitTimerExpired) 0 = JSVal.null ∧
      (step (run (new 2) [Event.playCurrent, Event.pushAudio 1 (some 9)])
        Event.waitTimerExpired).isPlaying = true :=
  have h := waitTimeout_skips_and_resumes
    (run (new 2) [Event.playCurrent, Event.pushAudio 1 (some 9)]) 0 0 rfl (by decide)
    (by decide)
  ⟨by decide, h.1, (h.2.2.2.1 { url := 0, index := 1, blob := 9 } (by decide)).1⟩

end AudioPlayQueue

namespace AudioPlayQueue

/-- Claim C11.  In every state reached from a fresh queue of `N` slots by
events and `stop()` calls, if nothing plays and the cursor is below `N`, the
slot under the cursor is not failed.  In particular `pushAudio(k, null)` for
`k = currentIndex` then moves the cursor beyond `k`, every slot from `k` up
to the new cursor is failed, and the slot under the new cursor is not. -/
theorem never_rests_on_failed_slot (N : Nat) (calls : List Call)
    (hrest : (runCalls (new N) calls).isPlaying = false)
    (hcur : (runCalls (new N) calls).currentIndex < N) :
    audioAt (runCalls (new N) calls) (runCalls (new N) calls).currentIndex ≠ JSVal.null ∧
      (runCalls (new N) calls).currentIndex
        < (pushAudio (runCalls (new N) calls)
            ((runCalls (new N) calls).currentIndex : Int) none).currentIndex ∧
      (∀ i, (runCalls (new N) calls).currentIndex ≤ i →
        i < (pushAudio (runCalls (new N) calls)
            ((runCalls (new N) calls).currentIndex : Int) none).currentIndex →
        audioAt (pushAudio (runCalls (new N) calls)
            ((runCalls (new N) calls).currentIndex : Int) none) i = JSVal.null) ∧
      audioAt (pushAudio (runCalls (new N) calls)
          ((runCalls (new N) calls).currentIndex : Int) none)
        (pushAudio (runCalls (new N) calls)
          ((runCalls (new N) calls).currentIndex : Int) none).currentIndex ≠ JSVal.null := by
  have hrestInv : RestInv (runCalls (new N) calls) :=
    restInv_runCalls calls (new N) (by
      intro _
      simp only [audioAt, new, cell_new]
      intro h; cases h)
  have hsize := sizeInv_runCalls N calls (new N) (sizeInv_new N)
  have hlen : (runCalls (new N) calls).currentIndex < (runCalls (new N) calls).audios.length := by
    rw [hsize.audios]; exact hcur
  exact ⟨hrestInv hrest, pushAudio_null_skips _ hrest hlen⟩

/-- An instance of claim C11: slots 1 and 2 of four have failed while the
queue waits on slot 0; `pushAudio(0, null)` moves the cursor to slot 3. -/
theorem never_rests_on_failed_slot_witness :
    (runCalls (new 4) [Call.event Event.playCurrent, Call.event (Event.pushAudio 1 none),
        Call.event (Event.pushAudio 2 none)]).isPlaying = false ∧
      (runCalls (new 4) [Call.event Event.playCurrent, Call.event (Event.pushAudio 1 none),
        Call.event (Event.pushAudio 2 none)]).currentIndex = 0 ∧
      (pushAudio (runCalls (new 4) [Call.event Event.playCurrent,
        Call.event (Event.pushAudio 1 none), Call.event (Event.pushAudio 2 none)])
          0 none).currentIndex = 3 ∧
      audioAt (runCalls (new 4) [Call.event Event.playCurrent,
        Call.event (Event.pushAudio 1 none), Call.event (Event.pushAudio 2 none)]) 0
          ≠ JSVal.null :=
  ⟨by decide, by decide, by decide,
    (never_rests_on_failed_slot 4 [Call.event Event.playCurrent,
      Call.event (Event.pushAudio 1 none), Call.event (Event.pushAudio 2 none)]
      (by decide) (by decide)).1⟩

/-- Claim C12.  In every state reached from a fresh queue of `N` slots by
events and earlier `stop()` calls, `stop()` yields the slots, durations,
cursor, `isPlaying` and wait timer of the fresh queue of `N` slots: every
slot unset, every duration 0, cursor 0, nothing playing, no timer, length
`N`; it fires no notification, and a second `stop()` changes nothing. -/
theorem stop_yields_fresh_state (N : Nat) (calls : List Call) :
    (stop (runCalls (new N) calls)).audios = (new N).audios ∧
      (stop (runCalls (new N) calls)).durations = (new N).durations ∧
      (stop (runCalls (new N) calls)).currentIndex = 0 ∧
      (stop (runCalls (new N) calls)).isPlaying = false ∧
      (stop (runCalls (new N) calls)).waitTimer = none ∧
      (stop (runCalls (new N) calls)).audios.length = N ∧
      (∀ i, audioAt (stop (runCalls (new N) calls)) i = JSVal.undefined) ∧
      (∀ i, durationAt (stop (runCalls (new N) calls)) i = 0) ∧
      (stop (runCalls (new N) calls)).log = (runCalls (new N) calls).log ∧
      stop (stop (runCalls (new N) calls)) = stop (runCalls (new N) calls) := by
  have hsize := sizeInv_runCalls N calls (new N) (sizeInv_new N)
  obtain ⟨h1, h2, h3, h4, h5, h6, h7, h8⟩ := stop_fresh N _ hsize
  exact ⟨h1, h2, h3, h4, h5, h6, h7, h8, stop_log _, stop_stop _⟩

/-- Claim C13 fails as stated: an element that a second `pushAudio` for the
same index overwrote, and an element stored under a negative index, are not
held in a slot when `stop()` runs, and their object URLs stay allocated. -/
theorem overwritten_audio_is_not_released :
    (stop (run (new 2) [Event.pushAudio 0 (some 9), Event.pushAudio 0 (some 4)])).liveUrls
        = [0] ∧
      (stop (run (new 2) [Event.pushAudio (-1) (some 9)])).liveUrls = [0] := by
  decide

/-- Claim C13, amended.  For every sequence of events on a fresh queue in
which the `pushAudio` calls deliver pairwise distinct, non-negative indices,
no object URL is left allocated after `stop()`: every URL created by an
earlier `pushAudio` has been revoked, by `stop()` or before it. -/
theorem stop_releases_every_url (N : Nat) (events : List Event)
    (hnodup : (pushedIndices events).Nodup)
    (hnonneg : ∀ i ∈ pushedIndices events, 0 ≤ i) :
    (stop (run (new N) events)).liveUrls = [] := by
  obtain ⟨p, hp⟩ := liveInv_run events [] (new N) (liveInv_new N)
    (by intro h; cases h) hnodup
    (fun i hi => ⟨hnonneg i hi, by simp⟩)
  exact liveUrls_stop_of_liveInv hp

/-- An instance of amended claim C13: two audios arrive out of order, the
first one is playing when `stop()` is called, and both URLs are revoked. -/
theorem stop_releases_every_url_witness :
    (pushedIndices [Event.playCurrent, Event.pushAudio 1 (some 9),
        Event.pushAudio 0 (some 4)]).Nodup ∧
      (run (new 2) [Event.playCurrent, Event.pushAudio 1 (some 9),
        Event.pushAudio 0 (some 4)]).liveUrls = [0, 1] ∧
      (stop (run (new 2) [Event.playCurrent, Event.pushAudio 1 (some 9),
        Event.pushAudio 0 (some 4)])).liveUrls = [] :=
  ⟨by decide, by decide,
    stop_releases_every_url 2
      [Event.playCurrent, Event.pushAudio 1 (some 9), Event.pushAudio 0 (some 4)]
      (by decide) (by decide)⟩

/-- Claim C14, evaluated where the code departs from it.  A queue of two
slots is stopped while the `play()` promise of slot 0 is pending: `stop()`
leaves the cursor at 0, no timer and both slots unset.  When the promise
then rejects (`pause()` interrupted it), line 280 runs the `onended` handler
on the stopped queue: `onSentenceEnd` fires, the cursor moves to 1 and a
wait timer is armed; when that timer expires slot 1 is written and
`onFinish` fires.  A `pushAudio` after `stop()` starts playback again. -/
theorem stopped_queue_advances_on_stale_callback :
    stoppedWhileStarting.currentIndex = 0 ∧
      stoppedWhileStarting.waitTimer = none ∧
      stoppedWhileStarting.audios = [none, none] ∧
      stoppedWhileStarting.log = [Notification.play 0 firstAudio] ∧
      (step stoppedWhileStarting (Event.playRejected firstAudio)).currentIndex = 1 ∧
      (step stoppedWhileStarting (Event.playRejected firstAudio)).waitTimer = some 1 ∧
      (step stoppedWhileStarting (Event.playRejected firstAudio)).log
        = [Notification.play 0 firstAudio, Notification.sentenceEnd 0 0] ∧
      (run stoppedWhileStarting
          [Event.playRejected firstAudio, Event.waitTimerExpired]).audios
        = [none, some Stored.null] ∧
      (run stoppedWhileStarting
          [Event.playRejected firstAudio, Event.waitTimerExpired]).log
        = [Notification.play 0 firstAudio, Notification.sentenceEnd 0 0,
            Notification.finish] ∧
      (step stoppedWhileStarting (Event.pushAudio 0 (some 4))).isPlaying = true := by
  decide

end AudioPlayQueue

namespace SynthesisPipeline

/-- Claim C15.  In every state reached from a new pipeline, `cancel()` leaves
`cancelled = true`, `activeTasks` and `queue` empty, invokes no callback and
calls `abort()` on exactly the units that were active, each of them once; a
second `cancel()` changes nothing (no `abort()`, no callback, same state);
and whatever follows, `cancelled` stays `true`. -/
theorem cancel_clears_and_is_idempotent (mc : Nat) (events later : List Event) :
    (cancel (run (new mc) events)).cancelled = true ∧
      (cancel (run (new mc) events)).activeTasks = [] ∧
      (cancel (run (new mc) events)).queue = [] ∧
      (cancel (run (new mc) events)).delivered = (run (new mc) events).delivered ∧
      (cancel (run (new mc) events)).aborted
        = (run (new mc) events).aborted ++ (run (new mc) events).activeTasks ∧
      (run (new mc) events).activeTasks.Nodup ∧
      cancel (cancel (run (new mc) events)) = cancel (run (new mc) events) ∧
      (run (cancel (run (new mc) events)) later).cancelled = true := by
  have hinv := capInv_run events (new mc) (capInv_new mc)
  refine ⟨rfl, rfl, rfl, rfl, rfl, ?_, ?_, (cancelled_run later _ rfl).1⟩
  · cases hc : (run (new mc) events).cancelled with
    | false =>
      rw [hinv.active hc]
      exact hinv.nodup
    | true =>
      rw [hinv.idle hc]
      exact List.nodup_nil
  · simp [cancel]

end SynthesisPipeline

namespace SentenceSplitter

/-- Claim C16 fails as stated: on the regex fallback path the text `Really?!`
is cut into `Really?` and `!`, the filter of line 49 drops the lone `!`, and
the returned sentences no longer cover the input. -/
theorem fallback_loses_lone_terminator :
    split Segmenter.unavailable (js "Really?!") = [js "Really?"] ∧
      stripWhiteSpace (split Segmenter.unavailable (js "Really?!")).flatten
        ≠ stripWhiteSpace (js "Really?!") := by
  decide

/-- Claim C16, amended.  On the regex fallback path (the locale path yields
no sentence) the raw pieces of line 46 concatenate to the text; the sentences
kept are trimmed pieces, in their order, none twice; a piece that is not
kept is empty or a single terminator character; when every piece is dropped
the text itself is returned.  Hence, when no trimmed piece is a single
terminator character, concatenating the returned sentences and deleting all
whitespace gives the same string as deleting all whitespace from the text. -/
theorem fallback_covers_text_without_lone_terminators (seg : Segmenter) (text : JSString)
    (hne : text ≠ []) (hloc : (localeSentences seg).getD [] = []) :
    (rawSplits text).flatten = text ∧
      (fallbackSentences text).Sublist ((rawSplits text).map trim) ∧
      (∀ p ∈ (rawSplits text).map trim, p ∉ fallbackSentences text →
        p = [] ∨ isLoneTerminator p = true) ∧
      (fallbackSentences text = [] → split seg text = [text]) ∧
      ((∀ p ∈ rawSplits text, isLoneTerminator (trim p) = false) →
        stripWhiteSpace (split seg text).flatten = stripWhiteSpace text) := by
  have hsplit : split seg text
      = if (fallbackSentences text).length = 0 then [text] else fallbackSentences text := by
    unfold split
    have he : text.isEmpty = false := by
      cases text with
      | nil => exact absurd rfl hne
      | cons c cs => rfl
    rw [he]
    simp only [Bool.false_eq_true, if_false]
    split
    · rename_i s ss heq
      rw [heq] at hloc
      simp at hloc
    · rfl
  have hnone : fallbackSentences text = [] → split seg text = [text] := by
    intro hf
    rw [hsplit, hf]
    rfl
  refine ⟨flatten_rawSplits text, List.filter_sublist _, ?_, hnone, ?_⟩
  · intro p hp hnot
    have hk : keepPiece p = false := by
      cases hkp : keepPiece p with
      | false => rfl
      | true =>
        exfalso
        apply hnot
        unfold fallbackSentences
        rw [List.mem_filter]
        exact ⟨hp, hkp⟩
    rw [keepPiece_eq] at hk
    by_cases he : p = []
    · exact Or.inl he
    · right
      simp only [he, ne_eq, not_false_eq_true, decide_True, Bool.true_and,
        Bool.not_eq_false'] at hk
      exact isLoneTerminator_of_ascii p hk
  · intro hall
    by_cases hf : fallbackSentences text = []
    · rw [hnone hf]
      simp
    · have hl : ¬ (fallbackSentences text).length = 0 := by
        rw [List.length_eq_zero]; exact hf
      rw [hsplit, if_neg hl]
      unfold fallbackSentences
      rw [stripWhiteSpace_kept, List.filter_eq_self.mpr, flatten_rawSplits]
      intro p hp
      have := hall p hp
      cases hla : isLoneAsciiTerminator (trim p) with
      | false => rfl
      | true =>
        rw [isLoneTerminator_of_ascii _ hla] at this
        cases this

/-- An instance of amended claim C16: `Hello. World!` has no lone terminator
piece and is covered in full. -/
theorem fallback_covers_text_witness :
    js "Hello. World!" ≠ [] ∧
      split Segmenter.throws (js "Hello. World!") = [js "Hello.", js "World!"] ∧
      stripWhiteSpace (split Segmenter.throws (js "Hello. World!")).flatten
        = stripWhiteSpace (js "Hello. World!") :=
  ⟨by decide, by decide,
    (fallback_covers_text_without_lone_terminators Segmenter.throws (js "Hello. World!")
      (by decide) (by decide)).2.2.2.2 (by decide)⟩

/-- Claim C17 fails as stated on the final single-element fallback: for a text
of one blank both paths yield nothing and the text itself is returned, which
is not equal to its own trim. -/
theorem final_fallback_is_not_trimmed :
    split Segmenter.unavailable (js " ") = [js " "] ∧ trim (js " ") ≠ js " " ∧
      split (Segmenter.segments [js " . "]) (js " . ") = [js "."] ∧
      split Segmenter.unavailable (js " . ") = [js " . "] := by
  decide

/-- Claim C17, amended.  Every element of `split` is a non-empty string; on
the locale path and on the regex fallback path it has no leading or trailing
whitespace (it equals its own trim); on the final single-element fallback,
taken when both paths yield nothing, it is the text as given, untrimmed. -/
theorem split_elements_nonempty_and_trimmed (seg : Segmenter) (text s : JSString)
    (hs : s ∈ split seg text) :
    s ≠ [] ∧
      (trim s = s ∨
        ((localeSentences seg).getD [] = [] ∧ fallbackSentences text = [] ∧ s = text)) := by
  unfold split at hs
  cases he : text.isEmpty with
  | true =>
    rw [he] at hs
    simp at hs
  | false =>
    rw [he] at hs
    simp only [Bool.false_eq_true, if_false] at hs
    have hne : text ≠ [] := by
      intro h
      rw [h] at he
      cases he
    cases hl : localeSentences seg with
    | some l =>
      cases l with
      | cons a as =>
        rw [hl] at hs
        obtain ⟨h1, h2⟩ := mem_localeSentences hl hs
        exact ⟨h1, Or.inl h2⟩
      | nil =>
        rw [hl] at hs
        simp only [] at hs
        by_cases hf : (fallbackSentences text).length = 0
        · rw [if_pos hf] at hs
          rw [List.mem_singleton] at hs
          rw [hs]
          exact ⟨hne, Or.inr ⟨by simp, List.length_eq_zero.mp hf, rfl⟩⟩
        · rw [if_neg hf] at hs
          obtain ⟨h1, h2⟩ := mem_fallbackSentences hs
          exact ⟨h1, Or.inl h2⟩
    | none =>
      rw [hl] at hs
      simp only [] at hs
      by_cases hf : (fallbackSentences text).length = 0
      · rw [if_pos hf] at hs
        rw [List.mem_singleton] at hs
        rw [hs]
        exact ⟨hne, Or.inr ⟨by simp, List.length_eq_zero.mp hf, rfl⟩⟩
      · rw [if_neg hf] at hs
        obtain ⟨h1, h2⟩ := mem_fallbackSentences hs
        exact ⟨h1, Or.inl h2⟩

/-- An instance of amended claim C17: the second sentence of `Hello. World!`
on the regex fallback path. -/
theorem split_elements_nonempty_and_trimmed_witness :
    js "World!" ∈ split Segmenter.unavailable (js "Hello. World!") ∧
      js "World!" ≠ [] ∧ trim (js "World!") = js "World!" :=
  ⟨by decide,
    (split_elements_nonempty_and_trimmed Segmenter.unavailable (js "Hello. World!")
      (js "World!") (by decide)).1, by decide⟩

/-- Claim C18.  On the regex fallback path the raw pieces of line 46
concatenate to the text, and the positions at which they cut it are exactly
the positions `p` with `0 < p < length` whose preceding character is one of
`。！？；：.!?;:` and whose own character is not an ASCII digit; a terminator
followed by a digit is no cut point, and `3.14` comes back as the single
sentence `3.14`. -/
theorem regex_cuts_exactly_at_cut_points (text : JSString) (p : Nat) :
    (rawSplits text).flatten = text ∧
      boundaries (rawSplits text) = cutPoints text ∧
      (p ∈ boundaries (rawSplits text) ↔
        0 < p ∧ p < text.length ∧ isTerminator (text.getD (p - 1) 0) = true ∧
          isDigit (text.getD p 0) = false) ∧
      rawSplits (js "3.14") = [js "3.14"] ∧
      split Segmenter.unavailable (js "3.14") = [js "3.14"] := by
  refine ⟨flatten_rawSplits text, boundaries_rawSplits text, ?_, by decide, by decide⟩
  rw [boundaries_rawSplits, cutPoints, List.mem_filter, List.mem_range]
  simp only [isCutPoint, Bool.and_eq_true, decide_eq_true_eq, Bool.not_eq_true']
  constructor
  · rintro ⟨_, ⟨⟨h1, h2⟩, h3⟩, h4⟩
    exact ⟨h1, h2, h3, h4⟩
  · rintro ⟨h1, h2, h3, h4⟩
    exact ⟨h2, ⟨⟨h1, h2⟩, h3⟩, h4⟩

/-- Claim C19, evaluated where the code departs from it.  The filter regex of
line 49 lists the ASCII terminators only: a lone ASCII `!` is dropped, while
a lone full-width `！` is kept as a sentence of its own. -/
theorem lone_fullwidth_terminator_is_kept :
    fallbackSentences (js "Really?!") = [js "Really?"] ∧
      fallbackSentences (js "真的？！") = [js "真的？", js "！"] ∧
      split Segmenter.unavailable (js "真的？！") = [js "真的？", js "！"] ∧
      isTerminator 0xFF01 = true ∧ keepPiece (js "！") = true := by
  decide

end SentenceSplitter

namespace SynthesisPipeline

/-- Claim C20.  For every sequence of `addSentence` calls and settlements
(with any behaviour of the unit constructor and of the callback) after which
the pipeline is not cancelled, the tasks started so far followed by the
pending queue are exactly the tasks added, in arrival order: the started
tasks are a prefix of the added ones and the queue is the remaining suffix. -/
theorem dispatch_is_fifo (mc : Nat) (events : List Event)
    (h : (run (new mc) events).cancelled = false) :
    (run (new mc) events).started ++ (run (new mc) events).queue = addedTasks events ∧
      (run (new mc) events).started <+: addedTasks events ∧
      (run (new mc) events).queue <:+ addedTasks events := by
  have h1 := fifo_run events (new mc) h
  simp only [new, List.nil_append] at h1
  exact ⟨h1, ⟨_, h1⟩, ⟨_, h1⟩⟩

/-- An instance of claim C20: two sentences on a pipeline of cap 1; the first
is started, the second waits in the queue. -/
theorem dispatch_is_fifo_witness :
    (run (new 1) [Event.addSentence task0 envQuiet, Event.addSentence task1 envQuiet]).cancelled
        = false ∧
      (run (new 1) [Event.addSentence task0 envQuiet, Event.addSentence task1 envQuiet]).started
        = [task0] ∧
      (run (new 1) [Event.addSentence task0 envQuiet, Event.addSentence task1 envQuiet]).queue
        = [task1] ∧
      (run (new 1) [Event.addSentence task0 envQuiet, Event.addSentence task1 envQuiet]).started
        ++ (run (new 1)
            [Event.addSentence task0 envQuiet, Event.addSentence task1 envQuiet]).queue
        = [task0, task1] :=
  ⟨by decide, by decide, by decide,
    (dispatch_is_fifo 1 [Event.addSentence task0 envQuiet, Event.addSentence task1 envQuiet]
      (by decide)).1⟩

end SynthesisPipeline

namespace SynthesisPipeline

/-- Claim C23.  In every state reached from a new pipeline by `addSentence`
calls and settlements (with any behaviour of the unit constructor and of the
callback) after which the pipeline is not cancelled: if the queue is not
empty, then `activeTasks.length ≥ maxConcurrency`, so no task waits while a
slot is free; and with `maxConcurrency ≥ 1`, once no started unit is pending
the queue is empty and the tasks started are exactly the tasks added. -/
theorem pipeline_is_work_conserving (mc : Nat) (events : List Event)
    (h : (run (new mc) events).cancelled = false) :
    ((run (new mc) events).queue ≠ [] →
        (run (new mc) events).maxConcurrency ≤ (run (new mc) events).activeTasks.length) ∧
      (1 ≤ mc → (run (new mc) events).inFlight = [] →
        (run (new mc) events).queue = [] ∧
          (run (new mc) events).started = addedTasks events) := by
  have hbusy := busy_run events (new mc) (Or.inr (Or.inl rfl))
  have hwc : (run (new mc) events).queue ≠ [] →
      (run (new mc) events).maxConcurrency ≤ (run (new mc) events).activeTasks.length := by
    intro hq
    rcases hbusy with hc | hq0 | hb
    · rw [h] at hc; cases hc
    · exact absurd hq0 hq
    · exact hb
  refine ⟨hwc, ?_⟩
  intro hmc hidle
  have hinv := capInv_run events (new mc) (capInv_new mc)
  have hmax : (run (new mc) events).maxConcurrency = mc := maxConcurrency_run events (new mc)
  have hact : (run (new mc) events).activeTasks = [] := by
    rw [hinv.active h, hidle]
    rfl
  have hq : (run (new mc) events).queue = [] := by
    by_contra hne
    have := hwc hne
    rw [hact, hmax] at this
    simp only [List.length_nil] at this
    omega
  have hfifo := fifo_run events (new mc) h
  rw [hq] at hfifo
  simp only [new, List.append_nil, List.nil_append] at hfifo
  exact ⟨hq, hfifo⟩

/-- An instance of claim C23: two sentences on a pipeline of cap 1; while the
first is pending the second waits and the cap is reached; once both have
settled the queue is empty and both were started. -/
theorem pipeline_is_work_conserving_witness :
    (run (new 1) [Event.addSentence task0 envQuiet, Event.addSentence task1 envQuiet,
        Event.settled 0 EngineResult.rejected envQuiet,
        Event.settled 1 (EngineResult.resolved (some 7)) envQuiet]).cancelled = false ∧
      (run (new 1) [Event.addSentence task0 envQuiet, Event.addSentence task1 envQuiet,
        Event.settled 0 EngineResult.rejected envQuiet,
        Event.settled 1 (EngineResult.resolved (some 7)) envQuiet]).inFlight = [] ∧
      (run (new 1) [Event.addSentence task0 envQuiet, Event.addSentence task1 envQuiet,
        Event.settled 0 EngineResult.rejected envQuiet,
        Event.settled 1 (EngineResult.resolved (some 7)) envQuiet]).started
          = [task0, task1] :=
  ⟨by decide, by decide,
    ((pipeline_is_work_conserving 1
      [Event.addSentence task0 envQuiet, Event.addSentence task1 envQuiet,
        Event.settled 0 EngineResult.rejected envQuiet,
        Event.settled 1 (EngineResult.resolved (some 7)) envQuiet]
      (by decide)).2 (by decide) (by decide)).2⟩

end SynthesisPipeline

namespace FinalDeepSeekTTS

/-- Claim C22, evaluated where the code departs from it.  For every raw text
`offsetMap` is as long as the cleaned text and `offsetMap[j]` is the raw
index of cleaned character `j`.  But the cleaned text is not the raw text
without the characters of `EMOJI_REGEX`: the loop tests one UTF-16 code unit
at a time, so `😀` (U+1F600, a surrogate pair) is never matched and stays;
and the regex is global, so after a match the next test fails whatever the
character: of `☀☀` the second `☀` stays, and a match on the last character
of one text makes the first character of the next text stay. -/
theorem emoji_cleaning_keeps_emoji (raw : JSString) (lastIndex j k : Nat) :
    (clean lastIndex raw).offsetMap.length = (clean lastIndex raw).cleanFullText.length ∧
      ((clean lastIndex raw).offsetMap[j]? = some k →
        raw[k]? = (clean lastIndex raw).cleanFullText[j]?) ∧
      isEmojiCodePoint 0x1F600 = true ∧
      (clean 0 (js "Hi 😀")).cleanFullText = js "Hi 😀" ∧
      js (withoutEmoji "Hi 😀") = js "Hi " ∧
      (clean 0 (js "☀☀")).cleanFullText = js "☀" ∧
      js (withoutEmoji "☀☀") = js "" ∧
      (clean 0 (js "☀")).lastIndex = 1 ∧
      (clean 1 (js "☀")).cleanFullText = js "☀" := by
  obtain ⟨h1, h2⟩ := cleanLoop_offsets raw lastIndex 0
  refine ⟨h1, ?_, by decide, by decide, by decide, by decide, by decide, by decide, by decide⟩
  intro hjk
  exact (h2 j k hjk).2

end FinalDeepSeekTTS

namespace AudioPlayQueue

/-- Claim C21, evaluated where the code departs from it.  In every state that
a queue built for `N` sentences reaches by events and `stop()` calls, both
arrays have length `N`, an element held in slot `i` is the one created for
index `i`, and the wait timer is armed (so can expire) only while
`currentIndex < N`; between construction and the first `stop()` the cursor
never passes `N` and every slot below it has been written.  But a queue of one
slot that is stopped while `play()` of slot 0 is pending, and then receives the
rejection of that promise, runs the handler of lines 278-281 on the stopped
queue: the cursor reaches `1 = N` while slot 0, which `stop()` has rebuilt, is
unset.  No timer is armed there only because the test of line 238 passes over
the unset slot: the end of playback is signalled for the stopped queue. -/
theorem cursor_reaches_end_with_unset_slot (N : Nat) (calls : List Call)
    (events : List Event) :
    (runCalls (new N) calls).audios.length = N ∧
      (runCalls (new N) calls).durations.length = N ∧
      (∀ (i : Nat) (a : Audio),
        (runCalls (new N) calls).audios.cell i = some (Stored.audio a) → a.index = (i : Int)) ∧
      (enabled (runCalls (new N) calls) Event.waitTimerExpired = true →
        (runCalls (new N) calls).currentIndex < N) ∧
      (run (new N) events).currentIndex ≤ N ∧
      (∀ i, i < (run (new N) events).currentIndex →
        (run (new N) events).audios.cell i ≠ none) ∧
      (runCalls (new 1) staleRejection).currentIndex = 1 ∧
      (runCalls (new 1) staleRejection).audios = [none] ∧
      (runCalls (new 1) staleRejection).audios.cell 0 = none ∧
      allProcessed (runCalls (new 1) staleRejection) = true ∧
      (runCalls (new 1) staleRejection).waitTimer = none ∧
      (runCalls (new 1) staleRejection).log
        = [Notification.play 0 firstAudio, Notification.sentenceEnd 0 0,
            Notification.finish] := by
  have hs := sizeInv_runCalls N calls (new N) (sizeInv_new N)
  have ho : OwnInv (runCalls (new N) calls) :=
    ownInv_runCalls calls (new N) (by
      intro i a h
      rw [show (new N).audios = JSArray.new N from rfl, cell_new] at h
      cases h)
  have hc := cursor_run N events
  exact ⟨hs.audios, hs.durations, ho, hs.timer, hc.2, hc.1, by decide, by decide, by decide,
    by decide, by decide, by decide⟩

end AudioPlayQueue

end DeepSeekTTS
